import Mathlib

/-!
# Verification of `Graph.h` (directed spatial graph library)

A shallow embedding of the classes `Vertex<T>`, `Edge<T>` and `Graph<T>` of
`src/Graph.h` and of the algorithms `topsort`, `isDAG`, `dfs`, `bfs`,
`unweightedShortestPath`, `getPath` and `dijkstraShortestPath`, followed by the
theorems proved about them.

Modelling conventions

* A `Vertex<T>*` is represented by the `info` of the vertex it points to; the
  null pointer is `none`.  Dereferencing a pointer to a vertex that is not in
  `vertexSet` is undefined in C++; here every algorithm that would do so returns
  `none`.
* The scratch members (`visited`, `processing`, `indegree`, `dist`, `path`) are
  ordinary fields of the vertex record, and an assignment through a pointer is
  `Graph.modify`, which rewrites the vertex carrying that id (the ids of a graph
  built with `addVertex` are pairwise distinct).  The algorithms thread the graph
  through as explicit state.
* `double` is modelled by exact rationals `ℚ`; `int` by `Int` (no wrap-around:
  the counters stay far below `2^31` on graphs whose size fits in an `int`).
  The sentinel `INT_INFINITY` is the number `INT_MAX`, as in the source, so a
  hop count can only collide with it on a graph of more than `INT_MAX` vertices.
* `while` loops and recursive calls are driven by a fuel argument; the top-level
  operations supply a fuel computed from the graph, and running out of fuel is
  reported as `none`.
-/

set_option autoImplicit false
set_option linter.unusedSectionVars false
set_option linter.unusedVariables false

/-! ## Data model -/

/-- Class `Edge<T>`: `dest` is the destination pointer, the rest is payload. -/
structure Edge (T : Type) where
  dest : T
  weight : ℚ
  name : String
  id : T
  blocked : Bool
  two_ways : Bool
deriving DecidableEq

/-- Class `Vertex<T>`. `path` is the public predecessor pointer. -/
structure Vertex (T : Type) where
  info : T
  adj : List (Edge T)
  visited : Bool
  processing : Bool
  indegree : Int
  name : String
  latitude : ℚ
  longitude : ℚ
  dist : ℚ
  path : Option T
deriving DecidableEq

/-- Class `Graph<T>`: the vector of vertices, in insertion order. -/
structure Graph (T : Type) where
  vertexSet : List (Vertex T)
deriving DecidableEq

/-- The constant `INT_INFINITY = INT_MAX`. -/
def INT_INFINITY : Int := 2147483647

namespace Graph

variable {T : Type} [DecidableEq T]

/-- Member `Graph::findVertex`: first vertex whose `info` equals `i`, or null. -/
def findVertex (g : Graph T) (i : T) : Option (Vertex T) :=
  g.vertexSet.find? (fun v => decide (v.info = i))

/-- Member `Graph::getVertex`: the same linear scan as `findVertex`. -/
def getVertex (g : Graph T) (i : T) : Option (Vertex T) :=
  g.vertexSet.find? (fun v => decide (v.info = i))

/-- Member `Graph::getNumVertex`. -/
def getNumVertex (g : Graph T) : Nat := g.vertexSet.length

/-- Assignment through a vertex pointer `p`: the pointee is replaced by `f` of it. -/
def modify (g : Graph T) (p : T) (f : Vertex T → Vertex T) : Graph T :=
  ⟨g.vertexSet.map (fun v => if v.info = p then f v else v)⟩

/-! ## `topsort` -/

/-- First loop of `topsort`: `for (auto v : vertexSet) v->indegree = 0;`. -/
def resetIndegree (g : Graph T) : Graph T :=
  ⟨g.vertexSet.map (fun v => { v with indegree := 0 })⟩

/-- Inner loop `for (auto & e : v->adj) e.dest->indegree++;`. -/
def countEdges : List (Edge T) → Graph T → Option (Graph T)
  | [], g => some g
  | e :: es, g =>
    match g.findVertex e.dest with
    | none => none
    | some _ => countEdges es (g.modify e.dest (fun w => { w with indegree := w.indegree + 1 }))

/-- Second loop of `topsort`, over the vertices `vs` still to be scanned. -/
def countAll : List (Vertex T) → Graph T → Option (Graph T)
  | [], g => some g
  | v :: vs, g =>
    match countEdges v.adj g with
    | none => none
    | some g1 => countAll vs g1

/-- Inner loop of the main `while` of `topsort`: decrement the indegree of each
destination and push it on the queue `q` when it reaches zero. -/
def topsortEdges : List (Edge T) → Graph T → List T → Option (Graph T × List T)
  | [], g, q => some (g, q)
  | e :: es, g, q =>
    match g.findVertex e.dest with
    | none => none
    | some w =>
      let g1 := g.modify e.dest (fun x => { x with indegree := x.indegree - 1 })
      if w.indegree - 1 = 0 then topsortEdges es g1 (q ++ [e.dest])
      else topsortEdges es g1 q

/-- The `while (!q.empty())` loop of `topsort`. -/
def topsortLoop : Nat → Graph T → List T → List T → Option (List T)
  | 0, _, _, _ => none
  | fuel + 1, g, q, res =>
    match q with
    | [] => some res
    | v :: q1 =>
      match g.findVertex v with
      | none => none
      | some vx =>
        match topsortEdges vx.adj g q1 with
        | none => none
        | some (g1, q2) => topsortLoop fuel g1 q2 (res ++ [vx.info])

/-- Member `Graph::topsort` (Kahn's algorithm); the queue is seeded with the
vertices of indegree zero in insertion order, and a result shorter than the
vertex set is cleared. -/
def topsort (g : Graph T) : Option (List T) :=
  match countAll g.vertexSet g.resetIndegree with
  | none => none
  | some g1 =>
    let q := (g1.vertexSet.filter (fun v => decide (v.indegree = 0))).map (fun v => v.info)
    match topsortLoop (g.vertexSet.length + 1) g1 q [] with
    | none => none
    | some res => if res.length ≠ g.vertexSet.length then some [] else some res

/-! ## `isDAG` -/

/-- The `for` loop of `dfsIsDAG` over the outgoing edges still to be examined;
`visit` is the recursive call. The Boolean is the value returned so far. -/
def dfsIsDAGEdges (visit : Graph T → T → Option (Graph T × Bool)) :
    List (Edge T) → Graph T → Option (Graph T × Bool)
  | [], g => some (g, true)
  | e :: es, g =>
    match g.findVertex e.dest with
    | none => none
    | some w =>
      if w.processing then some (g, false)
      else if !w.visited then
        match visit g e.dest with
        | none => none
        | some (g1, false) => some (g1, false)
        | some (g1, true) => dfsIsDAGEdges visit es g1
      else dfsIsDAGEdges visit es g

/-- Member `Graph::dfsIsDAG`; on the result `true` the vertex leaves the
recursion stack (`processing = false`), on `false` the flags are left as they are. -/
def dfsIsDAG : Nat → Graph T → T → Option (Graph T × Bool)
  | 0, _, _ => none
  | fuel + 1, g, v =>
    match g.findVertex v with
    | none => none
    | some vx =>
      let g1 := (g.modify v (fun x => { x with visited := true })).modify v
        (fun x => { x with processing := true })
      match dfsIsDAGEdges (dfsIsDAG fuel) vx.adj g1 with
      | none => none
      | some (g2, false) => some (g2, false)
      | some (g2, true) => some (g2.modify v (fun x => { x with processing := false }), true)

/-- Second loop of `isDAG`, over the vertex pointers `vs` still to be tried. -/
def isDAGLoop (fuel : Nat) : List T → Graph T → Option Bool
  | [], _ => some true
  | v :: vs, g =>
    match g.findVertex v with
    | none => none
    | some vx =>
      if !vx.visited then
        match dfsIsDAG fuel g v with
        | none => none
        | some (_, false) => some false
        | some (g1, true) => isDAGLoop fuel vs g1
      else isDAGLoop fuel vs g

/-- Member `Graph::isDAG`: both flags of every vertex are cleared first. -/
def isDAG (g : Graph T) : Option Bool :=
  let g0 : Graph T :=
    ⟨g.vertexSet.map (fun v => { v with visited := false, processing := false })⟩
  isDAGLoop g.vertexSet.length (g.vertexSet.map (fun v => v.info)) g0

/-! ## `dfs` -/

/-- The `for` loop of `dfsVisit`; `visit` is the recursive call. -/
def dfsVisitEdges (visit : Graph T → T → List T → Option (Graph T × List T)) :
    List (Edge T) → Graph T → List T → Option (Graph T × List T)
  | [], g, res => some (g, res)
  | e :: es, g, res =>
    match g.findVertex e.dest with
    | none => none
    | some w =>
      if !w.visited then
        match visit g e.dest res with
        | none => none
        | some (g1, res1) => dfsVisitEdges visit es g1 res1
      else dfsVisitEdges visit es g res

/-- Member `Graph::dfsVisit`. -/
def dfsVisit : Nat → Graph T → T → List T → Option (Graph T × List T)
  | 0, _, _, _ => none
  | fuel + 1, g, v, res =>
    match g.findVertex v with
    | none => none
    | some vx =>
      dfsVisitEdges (dfsVisit fuel) vx.adj (g.modify v (fun x => { x with visited := true }))
        (res ++ [vx.info])

/-- Second loop of `dfs`, over the vertex pointers `vs` still to be tried. -/
def dfsLoop (fuel : Nat) : List T → Graph T → List T → Option (List T)
  | [], _, res => some res
  | v :: vs, g, res =>
    match g.findVertex v with
    | none => none
    | some vx =>
      if !vx.visited then
        match dfsVisit fuel g v res with
        | none => none
        | some (g1, res1) => dfsLoop fuel vs g1 res1
      else dfsLoop fuel vs g res

/-- Member `Graph::dfs`. -/
def dfs (g : Graph T) : Option (List T) :=
  let g0 : Graph T := ⟨g.vertexSet.map (fun v => { v with visited := false })⟩
  dfsLoop g.vertexSet.length (g.vertexSet.map (fun v => v.info)) g0 []

/-! ## `bfs` -/

/-- The `for` loop of `bfs` over the outgoing edges of the dequeued vertex. -/
def bfsEdges : List (Edge T) → Graph T → List T → Option (Graph T × List T)
  | [], g, q => some (g, q)
  | e :: es, g, q =>
    match g.findVertex e.dest with
    | none => none
    | some w =>
      if !w.visited then
        bfsEdges es (g.modify e.dest (fun x => { x with visited := true })) (q ++ [e.dest])
      else bfsEdges es g q

/-- The `while (!q.empty())` loop of `bfs`. -/
def bfsLoop : Nat → Graph T → List T → List T → Option (List T)
  | 0, _, _, _ => none
  | fuel + 1, g, q, res =>
    match q with
    | [] => some res
    | v :: q1 =>
      match g.findVertex v with
      | none => none
      | some vx =>
        match bfsEdges vx.adj g q1 with
        | none => none
        | some (g1, q2) => bfsLoop fuel g1 q2 (res ++ [vx.info])

/-- Member `Graph::bfs`. -/
def bfs (g : Graph T) (source : T) : Option (List T) :=
  match g.findVertex source with
  | none => some []
  | some _ =>
    let g0 : Graph T := ⟨g.vertexSet.map (fun v => { v with visited := false })⟩
    bfsLoop (g.vertexSet.length + 1) (g0.modify source (fun x => { x with visited := true }))
      [source] []

/-! ## `unweightedShortestPath` and `getPath` -/

/-- The `for` loop of `unweightedShortestPath` over the outgoing edges of the
dequeued vertex `v`: a destination whose `dist` is still `INT_INFINITY` gets
`v->dist + 1` and predecessor `v`, and is pushed on the queue. -/
def unweightedEdges (v : T) : List (Edge T) → Graph T → List T → Option (Graph T × List T)
  | [], g, q => some (g, q)
  | e :: es, g, q =>
    match g.findVertex e.dest, g.findVertex v with
    | some w, some vx =>
      if w.dist = (INT_INFINITY : ℚ) then
        unweightedEdges v es
          ((g.modify e.dest (fun x => { x with dist := vx.dist + 1 })).modify e.dest
            (fun x => { x with path := some v }))
          (q ++ [e.dest])
      else unweightedEdges v es g q
    | _, _ => none

/-- The `while (!q.empty())` loop of `unweightedShortestPath`. -/
def unweightedLoop : Nat → Graph T → List T → Option (Graph T)
  | 0, _, _ => none
  | fuel + 1, g, q =>
    match q with
    | [] => some g
    | v :: q1 =>
      match g.findVertex v with
      | none => none
      | some vx =>
        match unweightedEdges v vx.adj g q1 with
        | none => none
        | some (g1, q2) => unweightedLoop fuel g1 q2

/-- Member `Graph::unweightedShortestPath`; the result is the graph with the
`dist` and `path` members it leaves behind. A source that is not a vertex is a
null dereference. -/
def unweightedShortestPath (g : Graph T) (s : T) : Option (Graph T) :=
  let g0 : Graph T :=
    ⟨g.vertexSet.map (fun v => { v with path := none, dist := (INT_INFINITY : ℚ) })⟩
  match g0.getVertex s with
  | none => none
  | some _ =>
    unweightedLoop (g.vertexSet.length + 1) (g0.modify s (fun x => { x with dist := 0 })) [s]

/-- The `while (v->path != NULL && v->path->info != origin)` loop of `getPath`;
`v` is the current vertex pointer and `buffer` the list built by `push_front`. -/
def getPathLoop : Nat → Graph T → T → T → List T → Option (T × List T)
  | 0, _, _, _, _ => none
  | fuel + 1, g, origin, v, buffer =>
    match g.findVertex v with
    | none => none
    | some vx =>
      match vx.path with
      | none => some (v, buffer)
      | some p =>
        match g.findVertex p with
        | none => none
        | some px =>
          if px.info ≠ origin then getPathLoop fuel g origin p (px.info :: buffer)
          else some (v, buffer)

/-- The statement after the loop of `getPath`:
`if (v->path != NULL) buffer.push_front(v->path->info);`. -/
def getPathEnd (g : Graph T) (v : T) (buffer : List T) : Option (List T) :=
  match g.findVertex v with
  | none => none
  | some vx =>
    match vx.path with
    | none => some buffer
    | some p =>
      match g.findVertex p with
      | none => none
      | some px => some (px.info :: buffer)

/-- Member `Graph::getPath`; the final copy of `buffer` into `res` keeps the order. -/
def getPath (g : Graph T) (origin dest : T) : Option (List T) :=
  match g.getVertex dest with
  | none => none
  | some dx =>
    match getPathLoop (g.vertexSet.length + 1) g origin dest [dx.info] with
    | none => none
    | some (v, buffer) => getPathEnd g v buffer

end Graph

/-! ## The heap algorithms of the C++ standard library

`dijkstraShortestPath` keeps its priority structure in a `vector` and calls
`std::make_heap` and `std::pop_heap` on it.  The algorithm is parametrised by
these two functions and by the order of vertex addresses (`operator<` on
`Vertex<T>*`, which is what the calls without a comparator use). -/

/-- The library functions and the address order the shortest-path code depends on. -/
structure StdLib (T : Type) where
  ptrLess : T → T → Bool
  make_heap : (T → T → Bool) → List T → List T
  pop_heap : (T → T → Bool) → List T → List T

/-- What is used of the two heap functions, whether or not the vector was a heap
for the comparator passed: they return a vector of the same length whose elements
are elements of the argument (every implementation rearranges the vector in place). -/
def StdLib.Lawful {T : Type} (H : StdLib T) : Prop :=
  (∀ comp l, (H.make_heap comp l).length = l.length ∧ ∀ x ∈ H.make_heap comp l, x ∈ l) ∧
  (∀ comp l, (H.pop_heap comp l).length = l.length ∧ ∀ x ∈ H.pop_heap comp l, x ∈ l)

namespace GnuHeap

variable {α : Type}

/-- The function `std::__push_heap` of libstdc++ (`bits/stl_heap.h`). -/
def pushHeap (comp : α → α → Bool) : Nat → List α → Nat → Nat → α → List α
  | 0, first, holeIndex, _, value => first.set holeIndex value
  | fuel + 1, first, holeIndex, topIndex, value =>
    let parent := (holeIndex - 1) / 2
    match first[parent]? with
    | none => first.set holeIndex value
    | some p =>
      if holeIndex > topIndex ∧ comp p value = true then
        pushHeap comp fuel (first.set holeIndex p) parent topIndex value
      else first.set holeIndex value

/-- The first loop of `std::__adjust_heap`: the hole moves down to the larger
child while it has two children. Returns the array, the hole and `secondChild`. -/
def adjustDown (comp : α → α → Bool) (len : Nat) : Nat → List α → Nat → Nat → List α × Nat × Nat
  | 0, first, holeIndex, secondChild => (first, holeIndex, secondChild)
  | fuel + 1, first, holeIndex, secondChild =>
    if secondChild < (len - 1) / 2 then
      let sc := 2 * (secondChild + 1)
      match first[sc]?, first[sc - 1]? with
      | some a, some b =>
        if comp a b = true then adjustDown comp len fuel (first.set holeIndex b) (sc - 1) (sc - 1)
        else adjustDown comp len fuel (first.set holeIndex a) sc sc
      | _, _ => (first, holeIndex, secondChild)
    else (first, holeIndex, secondChild)

/-- The function `std::__adjust_heap` of libstdc++. -/
def adjustHeap (comp : α → α → Bool) (first : List α) (holeIndex len : Nat) (value : α) : List α :=
  match adjustDown comp len len first holeIndex holeIndex with
  | (f1, h1, sc1) =>
    if 2 ≤ len ∧ len % 2 = 0 ∧ sc1 = (len - 2) / 2 then
      match f1[2 * (sc1 + 1) - 1]? with
      | some c => pushHeap comp (2 * (sc1 + 1)) (f1.set h1 c) (2 * (sc1 + 1) - 1) holeIndex value
      | none => pushHeap comp (h1 + 1) f1 h1 holeIndex value
    else pushHeap comp (h1 + 1) f1 h1 holeIndex value

/-- The function `std::pop_heap`: the last element is saved, the first is moved
to the last place, and the saved value is sifted into the first `len - 1` places. -/
def pop_heap (comp : α → α → Bool) (l : List α) : List α :=
  if 1 < l.length then
    match l[l.length - 1]?, l[0]? with
    | some value, some front => adjustHeap comp (l.set (l.length - 1) front) 0 (l.length - 1) value
    | _, _ => l
  else l

/-- The loop of `std::__make_heap`, from the last parent down to index 0. -/
def makeHeapLoop (comp : α → α → Bool) (len : Nat) : Nat → List α → List α
  | 0, first =>
    match first[0]? with
    | some value => adjustHeap comp first 0 len value
    | none => first
  | parent + 1, first =>
    match first[parent + 1]? with
    | some value => makeHeapLoop comp len parent (adjustHeap comp first (parent + 1) len value)
    | none => first

/-- The function `std::make_heap`. -/
def make_heap (comp : α → α → Bool) (l : List α) : List α :=
  if l.length < 2 then l else makeHeapLoop comp l.length ((l.length - 2) / 2) l

end GnuHeap

/-- The heap functions of libstdc++ together with an address order. -/
def gnuLib {T : Type} (ptrLess : T → T → Bool) : StdLib T :=
  ⟨ptrLess, GnuHeap.make_heap, GnuHeap.pop_heap⟩

namespace Graph

variable {T : Type} [DecidableEq T]

/-! ## `dijkstraShortestPath` -/

/-- Conversion of a `double` to `int`: truncation toward zero. -/
def toInt (q : ℚ) : Int :=
  if 0 ≤ q.num then Int.ofNat (q.num.toNat / q.den) else -Int.ofNat ((-q.num).toNat / q.den)

/-- The value `p->getDist()` for a vertex pointer `p` (0 when `p` dangles). -/
def getDist (g : Graph T) (p : T) : ℚ :=
  match g.findVertex p with
  | some v => v.dist
  | none => 0

/-- The functor `vertex_greater_than`: compares two vertex pointers by `dist`. -/
def vertex_greater_than (g : Graph T) (a b : T) : Bool :=
  decide (g.getDist a > g.getDist b)

/-- The `for` loop of `dijkstraShortestPath` over the outgoing edges of the
extracted vertex `v`. Blocked edges are skipped; the comparison is made on the
two values converted to `int`. -/
def dijkstraEdges (H : StdLib T) (v : T) :
    List (Edge T) → Graph T → List T → Option (Graph T × List T)
  | [], g, pq => some (g, pq)
  | e :: es, g, pq =>
    if e.blocked then dijkstraEdges H v es g pq
    else
      match g.findVertex v, g.findVertex e.dest with
      | some vx, some w =>
        let aValue : Int := toInt (vx.dist + e.weight)
        let bValue : Int := toInt w.dist
        if aValue < bValue then
          let g1 := (g.modify e.dest (fun x => { x with dist := vx.dist + e.weight })).modify
            e.dest (fun x => { x with path := some v })
          if !w.processing then
            let g2 := g1.modify e.dest (fun x => { x with processing := true })
            dijkstraEdges H v es g2 (H.make_heap (vertex_greater_than g2) (pq ++ [e.dest]))
          else dijkstraEdges H v es g1 (H.make_heap (vertex_greater_than g1) pq)
        else dijkstraEdges H v es g pq
      | _, _ => none

/-- The `while (!pq.empty())` loop: `pq.front()`, `pop_heap` without comparator,
`pop_back`, then the edges of the extracted vertex. -/
def dijkstraLoop (H : StdLib T) : Nat → Graph T → List T → Option (Graph T)
  | 0, _, _ => none
  | fuel + 1, g, pq =>
    match pq with
    | [] => some g
    | v :: _ =>
      match g.findVertex v with
      | none => none
      | some vx =>
        match dijkstraEdges H v vx.adj g (H.pop_heap H.ptrLess pq).dropLast with
        | none => none
        | some (g1, pq1) => dijkstraLoop H fuel g1 pq1

/-- Member `Graph::dijkstraShortestPath`; the result is the graph with the
`dist`, `path` and `processing` members it leaves behind. -/
def dijkstraShortestPath (H : StdLib T) (g : Graph T) (s : T) : Option (Graph T) :=
  let g0 : Graph T := ⟨g.vertexSet.map
    (fun v => { v with path := none, dist := (INT_INFINITY : ℚ), processing := false })⟩
  match g0.getVertex s with
  | none => none
  | some _ =>
    dijkstraLoop H (g.vertexSet.length + 2) (g0.modify s (fun x => { x with dist := 0 }))
      (H.make_heap H.ptrLess [s])

end Graph

/-! ## Vocabulary of the specification -/

namespace Graph

variable {T : Type} [DecidableEq T]

/-- The ids of the vertices, in insertion order. -/
def ids (g : Graph T) : List T := g.vertexSet.map (fun v => v.info)

/-- There is an edge from the vertex with id `u` to the vertex with id `v`. -/
def Adj (g : Graph T) (u v : T) : Prop :=
  ∃ x ∈ g.vertexSet, x.info = u ∧ ∃ e ∈ x.adj, e.dest = v

/-- Well-formed graph: vertex ids pairwise distinct, and the destination of every
edge is a vertex of the graph. -/
def WellFormed (g : Graph T) : Prop :=
  g.ids.Nodup ∧ ∀ x ∈ g.vertexSet, ∀ e ∈ x.adj, e.dest ∈ g.ids

instance (g : Graph T) : Decidable g.WellFormed := by
  unfold WellFormed; exact inferInstance

instance (g : Graph T) (u v : T) : Decidable (g.Adj u v) := by
  unfold Adj; exact inferInstance

/-- The graph has a directed cycle: a non-empty edge path from a vertex to itself. -/
def HasCycle (g : Graph T) : Prop := ∃ v, Relation.TransGen g.Adj v v

/-- The vertex `v` is reachable from `s` by a (possibly empty) directed edge path. -/
def Reachable (g : Graph T) (s v : T) : Prop := Relation.ReflTransGen g.Adj s v

/-- The proposition `Walk g s v n`: there is a directed path of `n` edges from `s` to `v`. -/
inductive Walk (g : Graph T) (s : T) : T → Nat → Prop
  | nil : Walk g s s 0
  | snoc {v w : T} {n : Nat} : Walk g s v n → g.Adj v w → Walk g s w (n + 1)

/-- There is a non-blocked edge of weight `c` from `u` to `v`. -/
def OpenEdge (g : Graph T) (u v : T) (c : ℚ) : Prop :=
  ∃ x ∈ g.vertexSet, x.info = u ∧ ∃ e ∈ x.adj, e.dest = v ∧ e.blocked = false ∧ e.weight = c

instance (g : Graph T) (u v : T) (c : ℚ) : Decidable (g.OpenEdge u v c) := by
  unfold OpenEdge; exact inferInstance

/-- The proposition `OpenWalk g s v c`: there is a directed path from `s` to `v`
that uses only non-blocked edges and has total weight `c`. -/
inductive OpenWalk (g : Graph T) (s : T) : T → ℚ → Prop
  | nil : OpenWalk g s s 0
  | snoc {v w : T} {c d : ℚ} : OpenWalk g s v c → g.OpenEdge v w d → OpenWalk g s w (c + d)

/-- In the list `l`, an occurrence of `u` comes before an occurrence of `v`. -/
def Before (l : List T) (u v : T) : Prop :=
  ∃ l1 l2 l3, l = l1 ++ u :: l2 ++ v :: l3

/-- The `dist` member of the vertex with id `u`, if there is one. -/
def distOf (g : Graph T) (u : T) : Option ℚ := (g.findVertex u).map (fun x => x.dist)

/-- The `path` member (predecessor pointer) of the vertex with id `u`. -/
def pathOf (g : Graph T) (u : T) : Option T := (g.findVertex u).bind (fun x => x.path)

end Graph

/-! ## Auxiliary definitions used in the proofs -/

namespace Graph

variable {T : Type} [DecidableEq T]

/-- The part of a graph that no algorithm changes: ids and outgoing edge lists. -/
def skel (g : Graph T) : List (T × List (Edge T)) :=
  g.vertexSet.map (fun v => (v.info, v.adj))

/-- The `visited` flag of the vertex with id `u` (false when there is none). -/
def isVisited (g : Graph T) (u : T) : Bool :=
  match g.findVertex u with
  | some x => x.visited
  | none => false

/-- The `processing` flag of the vertex with id `u` (false when there is none). -/
def isProcessing (g : Graph T) (u : T) : Bool :=
  match g.findVertex u with
  | some x => x.processing
  | none => false

/-- The `indegree` member of the vertex with id `u` (0 when there is none). -/
def indegreeOf (g : Graph T) (u : T) : Int :=
  match g.findVertex u with
  | some x => x.indegree
  | none => 0

/-- Number of edges of the list `es` whose destination is `w`. -/
def edgeCount (es : List (Edge T)) (w : T) : Nat :=
  es.countP (fun e => decide (e.dest = w))

/-- Number of edges into `w` that leave a vertex whose id is not in `S`. -/
def inCount (vs : List (Vertex T)) (S : List T) (w : T) : Nat :=
  (vs.map (fun x => if x.info ∈ S then 0 else edgeCount x.adj w)).sum

/-- Number of vertices whose `visited` flag is clear. -/
def unvisited (g : Graph T) : Nat :=
  g.vertexSet.countP (fun x => !x.visited)

/-- Invariant of the loops of `topsort` on the graph `g0`: `g` is the current
state, `res` the ids already output, `L` the ids output or queued so far (in that
order) and `es` the edges of the vertex output last that are still to be handled. -/
def KahnInv (g0 g : Graph T) (res L : List T) (es : List (Edge T)) : Prop :=
  g.skel = g0.skel ∧ L.Nodup ∧ (∀ u ∈ L, u ∈ g0.ids) ∧
  (∀ w ∈ g0.ids, g.indegreeOf w = (inCount g0.vertexSet res w + edgeCount es w : Nat)) ∧
  (∀ w ∈ g0.ids, g.indegreeOf w = 0 ↔ w ∈ L) ∧
  (∀ u w, w ∈ L → g0.Adj u w → L.indexOf u < L.indexOf w)

/-- The vertex with id `u` is finished: visited and not on the recursion stack. -/
def isDone (g : Graph T) (u : T) : Bool := g.isVisited u && !g.isProcessing u

/-- Invariant of the depth-first search of `isDAG` on the graph `g0`: the
finished vertices are closed under edges and none of them lies on a cycle. -/
def DagInv (g0 g : Graph T) : Prop :=
  g.skel = g0.skel ∧
  (∀ u w, g.isDone u = true → g0.Adj u w → g.isDone w = true) ∧
  (∀ u, g.isDone u = true → ¬ Relation.TransGen g0.Adj u u)

/-- What a call that returned `b` from state `g` in state `g1` guarantees: on
`true` the invariant, an unchanged recursion stack and no flag cleared; on
`false` a cycle. -/
def DagPost (g0 g g1 : Graph T) (b : Bool) : Prop :=
  if b = true then
    DagInv g0 g1 ∧ (∀ u, g1.isProcessing u = g.isProcessing u) ∧
      (∀ u, g.isVisited u = true → g1.isVisited u = true) ∧ g1.unvisited ≤ g.unvisited
  else g0.HasCycle

/-- Contract of a recursive call `visit` of `dfsIsDAG` that may be used in states
with at most `k` unvisited vertices. -/
def DagVisitSpec (g0 : Graph T) (visit : Graph T → T → Option (Graph T × Bool)) (k : Nat) :
    Prop :=
  ∀ g v, DagInv g0 g → v ∈ g0.ids → g.isVisited v = false → g.isProcessing v = false →
    (∀ p, g.isProcessing p = true → Relation.ReflTransGen g0.Adj p v) → g.unvisited ≤ k →
    ∃ g1 b, visit g v = some (g1, b) ∧ DagPost g0 g g1 b ∧ (b = true → g1.isVisited v = true)

/-- Invariant of `dfs` on the graph `g0`: the result so far lists exactly the
visited vertices, each once. -/
def DfsInv (g0 g : Graph T) (res : List T) : Prop :=
  g.skel = g0.skel ∧ res.Nodup ∧ ∀ u, u ∈ res ↔ g.isVisited u = true

/-- Contract of a recursive call `visit` of `dfsVisit` that may be used in states
with at most `k` unvisited vertices. -/
def DfsVisitSpec (g0 : Graph T)
    (visit : Graph T → T → List T → Option (Graph T × List T)) (k : Nat) : Prop :=
  ∀ g v res, DfsInv g0 g res → v ∈ g0.ids → g.isVisited v = false → g.unvisited ≤ k →
    ∃ g1 res1, visit g v res = some (g1, res1) ∧ DfsInv g0 g1 res1 ∧
      (∃ t, res1 = res ++ v :: t) ∧ g1.unvisited ≤ g.unvisited

/-- Invariant of `bfs` from `s` on the graph `g0`: `L` lists the vertices
discovered so far (dequeued ones first, then the queue), `done` those whose
outgoing edges have all been examined. -/
def BfsInv (g0 : Graph T) (s : T) (g : Graph T) (done L : List T) : Prop :=
  g.skel = g0.skel ∧ L.Nodup ∧ (∀ u, u ∈ L ↔ g.isVisited u = true) ∧
  (∀ u ∈ L, g0.Reachable s u) ∧ (∀ u ∈ done, ∀ w, g0.Adj u w → w ∈ L) ∧
  L.head? = some s

/-- Invariant of `unweightedShortestPath` from `s` on the graph `g0`: `L` lists
the vertices discovered so far in order of discovery (dequeued ones first, then
the queue), `done` those whose edges have all been examined, and `c` is the
vertex at the front of the queue or being examined. -/
def UspInv (g0 : Graph T) (s : T) (g : Graph T) (done L : List T) (c : T) : Prop :=
  g.skel = g0.skel ∧ L.Nodup ∧ L.head? = some s ∧ g.getDist s = 0 ∧
  (∀ u ∈ g0.ids, u ∈ L ↔ g.getDist u ≠ (INT_INFINITY : ℚ)) ∧ (∀ u ∈ L, u ∈ g0.ids) ∧
  (∀ u ∈ L, ∃ k : Nat, g.getDist u = (k : ℚ) ∧ g0.Walk s u k ∧ k < L.length) ∧
  L.Pairwise (fun a b => g.getDist a ≤ g.getDist b) ∧
  (∀ u ∈ L, g.getDist u ≤ g.getDist c + 1) ∧
  (∀ u ∈ done, ∀ w, g0.Adj u w → w ∈ L ∧ g.getDist w ≤ g.getDist u + 1) ∧
  (∀ u, u ∉ L ∨ u = s → g.pathOf u = none) ∧
  (∀ u ∈ L, u ≠ s → ∃ p ∈ L, g.pathOf u = some p ∧ g0.Adj p u ∧
    g.getDist u = g.getDist p + 1)

/-- Number of vertices whose `processing` flag is clear. -/
def unprocessed (g : Graph T) : Nat :=
  g.vertexSet.countP (fun x => !x.processing)

/-- Invariant of `dijkstraShortestPath` from `s` on the graph `g0`: the priority
vector holds vertices of the graph, every predecessor pointer goes back along a
non-blocked edge, and a vertex other than `s` without a non-blocked incoming edge
is untouched. -/
def DijInv (g0 : Graph T) (s : T) (g : Graph T) (pq : List T) : Prop :=
  g.skel = g0.skel ∧ (∀ v ∈ pq, v ∈ g0.ids) ∧
  (∀ w v, g.pathOf w = some v → ∃ c, g0.OpenEdge v w c) ∧
  (∀ w ∈ g0.ids, w ≠ s → (∀ u c, ¬ g0.OpenEdge u w c) →
    g.getDist w = (INT_INFINITY : ℚ) ∧ g.pathOf w = none)

end Graph

/-! ## Example graphs -/

/-- An edge to `d` of weight `w`, blocked or not, with empty name and id 0. -/
def exEdge (d : Nat) (w : ℚ) (blocked : Bool) : Edge Nat :=
  ⟨d, w, "", 0, blocked, false⟩

/-- A vertex with id `i` and the given outgoing edges; the scratch members hold
stale values, as after earlier traversals. -/
def exVertex (i : Nat) (adj : List (Edge Nat)) : Vertex Nat :=
  ⟨i, adj, true, true, 7, "", 0, 0, 5, some i⟩

/-- Acyclic example: edges 0→1, 0→2, 1→2, 3→0. -/
def exDag : Graph Nat :=
  ⟨[exVertex 0 [exEdge 1 1 false, exEdge 2 1 false], exVertex 1 [exEdge 2 1 false],
    exVertex 2 [], exVertex 3 [exEdge 0 1 false]]⟩

/-- Cyclic example: edges 0→1, 1→2, 2→0, 3→0. -/
def exCycle : Graph Nat :=
  ⟨[exVertex 0 [exEdge 1 1 false], exVertex 1 [exEdge 2 1 false],
    exVertex 2 [exEdge 0 1 false], exVertex 3 [exEdge 0 1 false]]⟩

/-- The chain A→B→C of the specification, with A = 0, B = 1, C = 2; the edge
B→C is blocked and the weights are not 1. -/
def exChain : Graph Nat :=
  ⟨[exVertex 0 [exEdge 1 4 false], exVertex 1 [exEdge 2 9 true], exVertex 2 []]⟩

/-- The weighted example of the specification: A→B weight 5, A→C weight 2,
C→B weight 1, with A = 0, B = 1, C = 2. -/
def exWeighted : Graph Nat :=
  ⟨[exVertex 0 [exEdge 1 5 false, exEdge 2 2 false], exVertex 1 [],
    exVertex 2 [exEdge 1 1 false]]⟩

/-- The same graph with the edge C→B blocked. -/
def exBlocked : Graph Nat :=
  ⟨[exVertex 0 [exEdge 1 5 false, exEdge 2 2 false], exVertex 1 [],
    exVertex 2 [exEdge 1 1 true]]⟩

/-- Five vertices, non-negative integer weights, nothing blocked:
0→1 (1), 0→2 (5), 0→3 (10), 2→3 (1), 3→4 (1). The lightest path from 0 to 4 is
0→2→3→4 of weight 7. -/
def exDetour : Graph Nat :=
  ⟨[exVertex 0 [exEdge 1 1 false, exEdge 2 5 false, exEdge 3 10 false], exVertex 1 [],
    exVertex 2 [exEdge 3 1 false], exVertex 3 [exEdge 4 1 false], exVertex 4 []]⟩

/-- The mirror image of `exDetour` with the roles of 2 and 3 exchanged:
0→1 (1), 0→2 (10), 0→3 (5), 3→2 (1), 2→4 (1). -/
def exDetourMirror : Graph Nat :=
  ⟨[exVertex 0 [exEdge 1 1 false, exEdge 2 10 false, exEdge 3 5 false], exVertex 1 [],
    exVertex 2 [exEdge 4 1 false], exVertex 3 [exEdge 2 1 false], exVertex 4 []]⟩

/-- The order of the vertex addresses when `σ` lists the vertex ids by increasing
address. -/
def addrLess (σ : List Nat) (x y : Nat) : Bool := decide (σ.indexOf x < σ.indexOf y)

/-- Vertices allocated at increasing addresses, with the libstdc++ heap functions. -/
def gnuAscending : StdLib Nat := gnuLib (fun a b => decide (a < b))

/-- Vertices allocated at decreasing addresses, with the libstdc++ heap functions. -/
def gnuDescending : StdLib Nat := gnuLib (fun a b => decide (b < a))

/-! ## Construction and mutation of the graph -/

/-- The constructor `Edge<T>::Edge(d, w, tw, n, id, block)`. -/
def Edge.new {T : Type} (d : T) (w : ℚ) (tw : Bool) (n : String) (id : T) (block : Bool) :
    Edge T :=
  { dest := d, weight := w, two_ways := tw, name := n, id := id, blocked := block }

/-- The values found in the members that the constructor of `Vertex` does not
initialise (`visited`, `processing`, `indegree`, `path`). -/
structure Uninit (T : Type) where
  visited : Bool
  processing : Bool
  indegree : Int
  path : Option T

namespace Vertex

variable {T : Type} [DecidableEq T]

/-- The constructor as it is defined,
`Vertex<T>::Vertex(T in, string name, double lat, double lon)`: the third argument
goes to `latitude`, the fourth to `longitude`; `adj` is empty and `dist` is `0`. -/
def new (u : Uninit T) (info : T) (name : String) (lat lon : ℚ) : Vertex T :=
  { info := info, adj := [], visited := u.visited, processing := u.processing,
    indegree := u.indegree, name := name, latitude := lat, longitude := lon, dist := 0,
    path := u.path }

/-- Member `Vertex::getInfo`. -/
def getInfo (v : Vertex T) : T := v.info

/-- Member `Vertex::getAdj`. -/
def getAdj (v : Vertex T) : List (Edge T) := v.adj

/-- Member `Vertex::getName`. -/
def getName (v : Vertex T) : String := v.name

/-- Member `Vertex::getLongitude`. -/
def getLongitude (v : Vertex T) : ℚ := v.longitude

/-- Member `Vertex::getLatitude`. -/
def getLatitude (v : Vertex T) : ℚ := v.latitude

/-- Member `Vertex::addEdge`: `adj.push_back(Edge<T>(d, w, tw, n, id, block))`. -/
def addEdge (v : Vertex T) (d : T) (w : ℚ) (tw : Bool) (n : String) (id : T) (block : Bool) :
    Vertex T :=
  { v with adj := v.adj ++ [Edge.new d w tw n id block] }

/-- The loop of `Vertex::removeEdgeTo` on the edges still to be scanned: the first
edge whose destination is `d` is erased and `true` is returned; `false` when the
end is reached. -/
def eraseEdgeTo (d : T) : List (Edge T) → List (Edge T) × Bool
  | [] => ([], false)
  | e :: es =>
    if e.dest = d then (es, true)
    else ((e :: (eraseEdgeTo d es).1), (eraseEdgeTo d es).2)

/-- Member `Vertex::removeEdgeTo`: the vertex after the call, and the value returned. -/
def removeEdgeTo (v : Vertex T) (d : T) : Vertex T × Bool :=
  ({ v with adj := (eraseEdgeTo d v.adj).1 }, (eraseEdgeTo d v.adj).2)

end Vertex

namespace Graph

variable {T : Type} [DecidableEq T]

/-- The loop of `getIndex` from position `i` on: the position of the first vertex
with id `v`, or `-1`. -/
def getIndexFrom (v : T) : List (Vertex T) → Nat → Int
  | [], _ => -1
  | x :: xs, i => if x.info = v then (i : Int) else getIndexFrom v xs (i + 1)

/-- Member `Graph::getIndex`. -/
def getIndex (g : Graph T) (v : T) : Int := getIndexFrom v g.vertexSet 0

/-- Assignment through the pointer that `findVertex p` returns: only the first
vertex with id `p` is rewritten. It agrees with `modify` when the ids are distinct. -/
def modifyFirst (p : T) (f : Vertex T → Vertex T) : List (Vertex T) → List (Vertex T)
  | [] => []
  | x :: xs => if x.info = p then f x :: xs else x :: modifyFirst p f xs

/-- Member `Graph::addVertex`: the graph after the call, and the value returned.
The arguments `lon`, `lat` are passed on to the constructor in this order. -/
def addVertex (u : Uninit T) (g : Graph T) (info : T) (name : String) (lon lat : ℚ) :
    Graph T × Bool :=
  match g.findVertex info with
  | some _ => (g, false)
  | none => (⟨g.vertexSet ++ [Vertex.new u info name lon lat]⟩, true)

/-- Member `Graph::addEdge`: the graph after the call, and the value returned. -/
def addEdge (g : Graph T) (sourc dest : T) (w : ℚ) (tw : Bool) (n : String) (id : T)
    (block : Bool) : Graph T × Bool :=
  match g.findVertex sourc, g.findVertex dest with
  | some _, some v2 =>
    (⟨modifyFirst sourc (fun v1 => v1.addEdge v2.info w tw n id block) g.vertexSet⟩, true)
  | _, _ => (g, false)

/-- Member `Graph::removeEdge`: the graph after the call, and the value returned. -/
def removeEdge (g : Graph T) (sourc dest : T) : Graph T × Bool :=
  match g.findVertex sourc, g.findVertex dest with
  | some v1, some v2 =>
    (⟨modifyFirst sourc (fun v => (v.removeEdgeTo v2.info).1) g.vertexSet⟩,
      (v1.removeEdgeTo v2.info).2)
  | _, _ => (g, false)

/-- Member `Graph::removeVertex`: the first vertex with id `info` is erased from
the vertex set, then `removeEdgeTo` is called once on every remaining vertex. -/
def removeVertex (g : Graph T) (info : T) : Graph T × Bool :=
  match g.findVertex info with
  | none => (g, false)
  | some v =>
    (⟨(g.vertexSet.eraseP (fun x => decide (x.info = info))).map
      (fun u => (u.removeEdgeTo v.info).1)⟩, true)

/-- Member `Graph::setEdgeBlocked`: the two nested loops over all edges. -/
def setEdgeBlocked (g : Graph T) (v : T) (b : Bool) : Graph T :=
  ⟨g.vertexSet.map (fun x =>
    { x with adj := x.adj.map (fun e => if e.id = v then { e with blocked := b } else e) })⟩

/-! ## `maxNewChildren` -/

/-- The `for` loop of `maxNewChildren` over the outgoing edges of the dequeued
vertex: an unvisited destination is marked, pushed and counted. -/
def maxNewChildrenEdges :
    List (Edge T) → Graph T → List T → Int → Option (Graph T × List T × Int)
  | [], g, q, nChildren => some (g, q, nChildren)
  | e :: es, g, q, nChildren =>
    match g.findVertex e.dest with
    | none => none
    | some w =>
      if !w.visited then
        maxNewChildrenEdges es (g.modify e.dest (fun x => { x with visited := true }))
          (q ++ [e.dest]) (nChildren + 1)
      else maxNewChildrenEdges es g q nChildren

/-- The `while (!q.empty())` loop of `maxNewChildren`, with the running maximum
`maxChildren` and the vertex `inf` that attained it. -/
def maxNewChildrenLoop : Nat → Graph T → List T → Int → T → Option (Int × T)
  | 0, _, _, _, _ => none
  | fuel + 1, g, q, maxChildren, inf =>
    match q with
    | [] => some (maxChildren, inf)
    | v :: q1 =>
      match g.findVertex v with
      | none => none
      | some vx =>
        match maxNewChildrenEdges vx.adj g q1 0 with
        | none => none
        | some (g1, q2, nChildren) =>
          if nChildren > maxChildren then maxNewChildrenLoop fuel g1 q2 nChildren vx.info
          else maxNewChildrenLoop fuel g1 q2 maxChildren inf

/-- Member `Graph::maxNewChildren`: the value returned and the final content of
the reference parameter `inf`, whose content before the call is `inf`. -/
def maxNewChildren (g : Graph T) (source : T) (inf : T) : Option (Int × T) :=
  match g.findVertex source with
  | none => some (0, inf)
  | some s =>
    let g0 : Graph T := ⟨g.vertexSet.map (fun v => { v with visited := false })⟩
    maxNewChildrenLoop (g.vertexSet.length + 1)
      (g0.modify source (fun x => { x with visited := true })) [source] 0 s.info

/-! ## Vocabulary for the mutation claims -/

/-- The outgoing edges of the vertex that `findVertex a` returns (none if absent). -/
def adjOf (g : Graph T) (a : T) : List (Edge T) :=
  match g.findVertex a with
  | some x => x.adj
  | none => []

/-- The graphs obtained from the empty graph by a sequence of calls of
`addVertex`, `addEdge`, `removeEdge`, `removeVertex` and `setEdgeBlocked`. -/
inductive Built : Graph T → Prop
  | empty : Built ⟨[]⟩
  | addVertex {g : Graph T} (u : Uninit T) (info : T) (name : String) (lon lat : ℚ) :
      Built g → Built (g.addVertex u info name lon lat).1
  | addEdge {g : Graph T} (sourc dest : T) (w : ℚ) (tw : Bool) (n : String) (id : T)
      (block : Bool) : Built g → Built (g.addEdge sourc dest w tw n id block).1
  | removeEdge {g : Graph T} (sourc dest : T) : Built g → Built (g.removeEdge sourc dest).1
  | removeVertex {g : Graph T} (info : T) : Built g → Built (g.removeVertex info).1
  | setEdgeBlocked {g : Graph T} (v : T) (b : Bool) : Built g → Built (g.setEdgeBlocked v b)

/-- Star graph: the vertex `c` has exactly one edge to each of the pairwise
distinct vertices `leaves`, none of which is `c`, and the leaves have no outgoing
edge. -/
def IsStar (g : Graph T) (c : T) (leaves : List T) : Prop :=
  g.WellFormed ∧ c ∈ g.ids ∧ (g.adjOf c).map (fun e => e.dest) = leaves ∧
  leaves.Nodup ∧ c ∉ leaves ∧ ∀ l ∈ leaves, (g.adjOf l).length = 0

instance (g : Graph T) (c : T) (leaves : List T) : Decidable (g.IsStar c leaves) := by
  unfold IsStar; exact inferInstance

/-- The breadth-first search of `maxNewChildren` written down as a record: for
each dequeued vertex, in order, its id and the number of its neighbours visited
for the first time during that dequeue. -/
def newChildrenTrace : Nat → Graph T → List T → Option (List (T × Int))
  | 0, _, _ => none
  | fuel + 1, g, q =>
    match q with
    | [] => some []
    | v :: q1 =>
      match g.findVertex v with
      | none => none
      | some vx =>
        match maxNewChildrenEdges vx.adj g q1 0 with
        | none => none
        | some (g1, q2, nChildren) =>
          match newChildrenTrace fuel g1 q2 with
          | none => none
          | some tr => some ((vx.info, nChildren) :: tr)

/-- The record of the search that `maxNewChildren g source` performs. -/
def bfsCounts (g : Graph T) (source : T) : Option (List (T × Int)) :=
  let g0 : Graph T := ⟨g.vertexSet.map (fun v => { v with visited := false })⟩
  newChildrenTrace (g.vertexSet.length + 1)
    (g0.modify source (fun x => { x with visited := true })) [source]

end Graph

/-! ## Example graphs for the mutation claims -/

/-- Uninitialised members that happen to hold these values. -/
def exUninit : Uninit Nat := ⟨true, false, 3, some 9⟩

/-- Two vertices, 0 and 1, with two parallel edges 0→1. -/
def exParallel : Graph Nat :=
  ⟨[exVertex 0 [exEdge 1 1 false, exEdge 1 2 false], exVertex 1 []]⟩

/-- Fractional weights: 0→1 (6/5), 0→2 (59/10), 1→2 (4); the lightest path from 0
to 2 is 0→1→2 of weight 26/5. -/
def exFraction : Graph Nat :=
  ⟨[exVertex 0 [exEdge 1 (6 / 5) false, exEdge 2 (59 / 10) false],
    exVertex 1 [exEdge 2 4 false], exVertex 2 []]⟩

/-- A star with centre 0 and leaves 1, 2, 3. -/
def exStar : Graph Nat :=
  ⟨[exVertex 0 [exEdge 1 1 false, exEdge 2 1 false, exEdge 3 1 false], exVertex 1 [],
    exVertex 2 [], exVertex 3 []]⟩

/-! ## Basic facts: lookup, pointer assignment, skeleton -/

namespace Graph

variable {T : Type} [DecidableEq T]

theorem find_info {l : List (Vertex T)} {u : T} {x : Vertex T}
    (h : l.find? (fun v => decide (v.info = u)) = some x) : x.info = u := by
  have := List.find?_some h
  simpa using this

theorem findVertex_info {g : Graph T} {u : T} {x : Vertex T}
    (h : g.findVertex u = some x) : x.info = u := find_info h

theorem findVertex_mem {g : Graph T} {u : T} {x : Vertex T}
    (h : g.findVertex u = some x) : x ∈ g.vertexSet :=
  List.mem_of_find?_eq_some h

theorem findVertex_eq_none {g : Graph T} {u : T} :
    g.findVertex u = none ↔ u ∉ g.ids := by
  unfold findVertex ids
  rw [List.find?_eq_none]
  simp only [List.mem_map, decide_eq_true_eq, not_exists, not_and]

theorem findVertex_of_mem_ids {g : Graph T} {u : T} (h : u ∈ g.ids) :
    ∃ x, g.findVertex u = some x := by
  cases hx : g.findVertex u with
  | none => exact absurd h (findVertex_eq_none.mp hx)
  | some x => exact ⟨x, rfl⟩

theorem mem_ids_of_findVertex {g : Graph T} {u : T} {x : Vertex T}
    (h : g.findVertex u = some x) : u ∈ g.ids := by
  by_contra hc
  rw [findVertex_eq_none.mpr hc] at h
  cases h

theorem getVertex_eq_findVertex (g : Graph T) (u : T) : g.getVertex u = g.findVertex u := rfl

theorem find_of_mem_nodup {l : List (Vertex T)} (hnd : (l.map (fun v => v.info)).Nodup)
    {x : Vertex T} (hx : x ∈ l) : l.find? (fun v => decide (v.info = x.info)) = some x := by
  induction l with
  | nil => cases hx
  | cons a l ih =>
    rw [List.map_cons, List.nodup_cons] at hnd
    rcases List.mem_cons.mp hx with rfl | hx1
    · simp
    · have hne : a.info ≠ x.info := by
        intro he
        apply hnd.1
        rw [he]
        exact List.mem_map_of_mem _ hx1
      rw [List.find?_cons_of_neg _ (by simpa using hne)]
      exact ih hnd.2 hx1

theorem findVertex_of_mem {g : Graph T} (hnd : g.ids.Nodup) {x : Vertex T}
    (hx : x ∈ g.vertexSet) : g.findVertex x.info = some x :=
  find_of_mem_nodup hnd hx

theorem ids_modify (g : Graph T) (p : T) {f : Vertex T → Vertex T}
    (hf : ∀ x, (f x).info = x.info) : (g.modify p f).ids = g.ids := by
  unfold ids modify
  simp only [List.map_map]
  apply List.map_congr_left
  intro x _
  simp only [Function.comp]
  split <;> simp [hf]

theorem skel_modify (g : Graph T) (p : T) {f : Vertex T → Vertex T}
    (hf : ∀ x, (f x).info = x.info) (hf2 : ∀ x, (f x).adj = x.adj) :
    (g.modify p f).skel = g.skel := by
  unfold skel modify
  simp only [List.map_map]
  apply List.map_congr_left
  intro x _
  simp only [Function.comp]
  split <;> simp [hf, hf2]

theorem length_modify (g : Graph T) (p : T) (f : Vertex T → Vertex T) :
    (g.modify p f).vertexSet.length = g.vertexSet.length := by
  simp [modify]

theorem findVertex_modify (g : Graph T) (p q : T) {f : Vertex T → Vertex T}
    (hf : ∀ x, (f x).info = x.info) :
    (g.modify p f).findVertex q = if q = p then (g.findVertex q).map f else g.findVertex q := by
  unfold findVertex modify
  simp only
  induction g.vertexSet with
  | nil => simp
  | cons a l ih =>
    simp only [List.map_cons, List.find?_cons]
    by_cases ha : a.info = p
    · simp only [ha, if_true, hf]
      by_cases hq : q = p
      · subst hq
        simp
      · have : ¬ (p = q) := fun h => hq h.symm
        simp only [this, decide_False, hq, if_false]
        simpa [hq] using ih
    · simp only [ha, if_false]
      by_cases haq : a.info = q
      · have hqp : ¬ q = p := by rw [← haq]; exact ha
        simp [haq, hqp]
      · simp only [haq, decide_False]
        exact ih

theorem findVertex_modify_self (g : Graph T) (p : T) {f : Vertex T → Vertex T}
    (hf : ∀ x, (f x).info = x.info) :
    (g.modify p f).findVertex p = (g.findVertex p).map f := by
  rw [findVertex_modify g p p hf, if_pos rfl]

theorem findVertex_modify_ne (g : Graph T) {p q : T} {f : Vertex T → Vertex T}
    (hf : ∀ x, (f x).info = x.info) (h : q ≠ p) :
    (g.modify p f).findVertex q = g.findVertex q := by
  rw [findVertex_modify g p q hf, if_neg h]

theorem ids_of_skel {g g0 : Graph T} (h : g.skel = g0.skel) : g.ids = g0.ids := by
  have := congrArg (List.map Prod.fst) h
  simpa [skel, ids, List.map_map, Function.comp] using this

theorem length_of_skel {g g0 : Graph T} (h : g.skel = g0.skel) :
    g.vertexSet.length = g0.vertexSet.length := by
  have := congrArg List.length h
  simpa [skel] using this

theorem adj_iff_skel (g : Graph T) (u v : T) :
    g.Adj u v ↔ ∃ p ∈ g.skel, p.1 = u ∧ ∃ e ∈ p.2, e.dest = v := by
  unfold Adj skel
  constructor
  · rintro ⟨x, hx, hu, e, he, hv⟩
    exact ⟨(x.info, x.adj), List.mem_map_of_mem _ hx, hu, e, he, hv⟩
  · rintro ⟨p, hp, hu, e, he, hv⟩
    obtain ⟨x, hx, rfl⟩ := List.mem_map.mp hp
    exact ⟨x, hx, hu, e, he, hv⟩

theorem adj_of_skel {g g0 : Graph T} (h : g.skel = g0.skel) : g.Adj = g0.Adj := by
  funext u v
  rw [adj_iff_skel, adj_iff_skel, h]

theorem wellFormed_iff_skel (g : Graph T) :
    g.WellFormed ↔ (g.skel.map Prod.fst).Nodup ∧
      ∀ p ∈ g.skel, ∀ e ∈ p.2, e.dest ∈ g.skel.map Prod.fst := by
  have hids : g.skel.map Prod.fst = g.ids := by
    simp [skel, ids, List.map_map, Function.comp]
  rw [hids]
  unfold WellFormed
  constructor
  · rintro ⟨h1, h2⟩
    refine ⟨h1, ?_⟩
    intro p hp e he
    obtain ⟨x, hx, rfl⟩ := List.mem_map.mp hp
    exact h2 x hx e he
  · rintro ⟨h1, h2⟩
    refine ⟨h1, ?_⟩
    intro x hx e he
    exact h2 (x.info, x.adj) (List.mem_map_of_mem _ hx) e he

theorem wellFormed_of_skel {g g0 : Graph T} (h : g.skel = g0.skel) (hw : g0.WellFormed) :
    g.WellFormed := by
  rw [wellFormed_iff_skel] at hw ⊢
  rw [h]
  exact hw

/-- In a well-formed graph the edges out of `v` are exactly those of the vertex
found under the id `v`. -/
theorem adj_iff_of_find {g : Graph T} (hw : g.WellFormed) {v : T} {vx : Vertex T}
    (h : g.findVertex v = some vx) (w : T) : g.Adj v w ↔ ∃ e ∈ vx.adj, e.dest = w := by
  constructor
  · rintro ⟨x, hx, hu, e, he, hv⟩
    have h1 := findVertex_of_mem hw.1 hx
    rw [hu, h] at h1
    cases h1
    exact ⟨e, he, hv⟩
  · rintro ⟨e, he, hv⟩
    exact ⟨vx, findVertex_mem h, findVertex_info h, e, he, hv⟩

theorem dest_mem_ids_of_find {g : Graph T} (hw : g.WellFormed) {v : T} {vx : Vertex T}
    (h : g.findVertex v = some vx) : ∀ e ∈ vx.adj, e.dest ∈ g.ids :=
  hw.2 vx (findVertex_mem h)

theorem adj_left_mem {g : Graph T} {u v : T} (h : g.Adj u v) : u ∈ g.ids := by
  obtain ⟨x, hx, hu, _⟩ := h
  rw [← hu]
  exact List.mem_map_of_mem _ hx

theorem adj_right_mem {g : Graph T} (hw : g.WellFormed) {u v : T} (h : g.Adj u v) :
    v ∈ g.ids := by
  obtain ⟨x, hx, _, e, he, hv⟩ := h
  rw [← hv]
  exact hw.2 x hx e he

theorem transGen_left_mem {g : Graph T} {u v : T} (h : Relation.TransGen g.Adj u v) :
    u ∈ g.ids := by
  obtain ⟨b, hb, _⟩ := Relation.TransGen.head'_iff.mp h
  exact adj_left_mem hb

theorem reachable_mem {g : Graph T} (hw : g.WellFormed) {s v : T} (hs : s ∈ g.ids)
    (h : g.Reachable s v) : v ∈ g.ids := by
  induction h with
  | refl => exact hs
  | tail _ hbc _ => exact adj_right_mem hw hbc

end Graph

/-! ## `topsort`: the indegree counters -/

namespace Graph

variable {T : Type} [DecidableEq T]

theorem indegreeOf_modify (g : Graph T) (p w : T) (k : Int → Int) {x : Vertex T}
    (hx : g.findVertex p = some x) :
    (g.modify p (fun y => { y with indegree := k y.indegree })).indegreeOf w =
      if w = p then k (g.indegreeOf w) else g.indegreeOf w := by
  unfold indegreeOf
  rw [findVertex_modify g p w (by intro; rfl)]
  by_cases h : w = p
  · subst h
    simp [hx]
  · simp [h]

theorem edgeCount_cons (e : Edge T) (es : List (Edge T)) (w : T) :
    edgeCount (e :: es) w = edgeCount es w + if e.dest = w then 1 else 0 := by
  unfold edgeCount
  rw [List.countP_cons]
  simp

theorem edgeCount_eq_zero {es : List (Edge T)} {w : T} (h : edgeCount es w = 0) :
    ∀ e ∈ es, e.dest ≠ w := by
  unfold edgeCount at h
  rw [List.countP_eq_zero] at h
  intro e he
  simpa using h e he

theorem countEdges_spec (es : List (Edge T)) :
    ∀ g : Graph T, (∀ e ∈ es, e.dest ∈ g.ids) →
      ∃ g1, countEdges es g = some g1 ∧ g1.skel = g.skel ∧
        ∀ w, g1.indegreeOf w = g.indegreeOf w + (edgeCount es w : Nat) := by
  induction es with
  | nil =>
    intro g _
    exact ⟨g, rfl, rfl, fun w => by simp [edgeCount]⟩
  | cons e es ih =>
    intro g h
    obtain ⟨x, hx⟩ := findVertex_of_mem_ids (h e (List.mem_cons_self _ _))
    have hsk : (g.modify e.dest (fun w => { w with indegree := w.indegree + 1 })).skel = g.skel :=
      skel_modify g e.dest (by intro; rfl) (by intro; rfl)
    obtain ⟨g1, h1, h2, h3⟩ := ih (g.modify e.dest (fun w => { w with indegree := w.indegree + 1 }))
      (by
        intro e1 he1
        rw [ids_of_skel hsk]
        exact h e1 (List.mem_cons_of_mem _ he1))
    refine ⟨g1, ?_, h2.trans hsk, ?_⟩
    · simp only [countEdges, hx]
      exact h1
    · intro w
      rw [h3 w, indegreeOf_modify g e.dest w (fun i => i + 1) hx, edgeCount_cons]
      by_cases hw : w = e.dest
      · subst hw
        simp
        ring
      · have : ¬ e.dest = w := fun h => hw h.symm
        simp [hw, this]

theorem inCount_cons (x : Vertex T) (vs : List (Vertex T)) (S : List T) (w : T) :
    inCount (x :: vs) S w = (if x.info ∈ S then 0 else edgeCount x.adj w) + inCount vs S w := by
  simp [inCount]

theorem countAll_spec (vs : List (Vertex T)) :
    ∀ g : Graph T, (∀ x ∈ vs, ∀ e ∈ x.adj, e.dest ∈ g.ids) →
      ∃ g1, countAll vs g = some g1 ∧ g1.skel = g.skel ∧
        ∀ w, g1.indegreeOf w = g.indegreeOf w + (inCount vs [] w : Nat) := by
  induction vs with
  | nil =>
    intro g _
    exact ⟨g, rfl, rfl, fun w => by simp [inCount]⟩
  | cons x vs ih =>
    intro g h
    obtain ⟨g1, h1, h2, h3⟩ := countEdges_spec x.adj g (h x (List.mem_cons_self _ _))
    obtain ⟨g2, k1, k2, k3⟩ := ih g1 (by
      intro y hy e he
      rw [ids_of_skel h2]
      exact h y (List.mem_cons_of_mem _ hy) e he)
    refine ⟨g2, ?_, k2.trans h2, ?_⟩
    · simp only [countAll, h1]
      exact k1
    · intro w
      rw [k3 w, h3 w, inCount_cons]
      simp
      ring

theorem skel_resetIndegree (g : Graph T) : g.resetIndegree.skel = g.skel := by
  simp [resetIndegree, skel, List.map_map, Function.comp]

theorem indegreeOf_resetIndegree (g : Graph T) (w : T) : g.resetIndegree.indegreeOf w = 0 := by
  unfold indegreeOf resetIndegree findVertex
  simp only
  induction g.vertexSet with
  | nil => simp
  | cons a l ih =>
    simp only [List.map_cons, List.find?_cons]
    by_cases h : a.info = w
    · simp [h]
    · simp only [h, decide_False]
      exact ih

theorem inCount_eq_zero {vs : List (Vertex T)} {S : List T} {w : T}
    (h : inCount vs S w = 0) : ∀ x ∈ vs, x.info ∉ S → ∀ e ∈ x.adj, e.dest ≠ w := by
  induction vs with
  | nil => intro x hx; cases hx
  | cons a l ih =>
    rw [inCount_cons] at h
    intro x hx hxS
    rcases List.mem_cons.mp hx with rfl | hx1
    · have h0 : edgeCount x.adj w = 0 := by
        have := Nat.eq_zero_of_add_eq_zero_right h
        simpa [hxS] using this
      exact edgeCount_eq_zero h0
    · exact ih (Nat.eq_zero_of_add_eq_zero_left h) x hx1 hxS

theorem inCount_pos {vs : List (Vertex T)} {S : List T} {w : T}
    (h : inCount vs S w ≠ 0) : ∃ x ∈ vs, x.info ∉ S ∧ ∃ e ∈ x.adj, e.dest = w := by
  induction vs with
  | nil => simp [inCount] at h
  | cons a l ih =>
    rw [inCount_cons] at h
    by_cases h1 : inCount l S w = 0
    · rw [h1, Nat.add_zero] at h
      have haS : a.info ∉ S := by
        intro hc
        simp [hc] at h
      simp only [haS, if_false] at h
      unfold edgeCount at h
      have hpos : 0 < List.countP (fun e => decide (e.dest = w)) a.adj := Nat.pos_of_ne_zero h
      rw [List.countP_pos_iff] at hpos
      obtain ⟨e, he, hd⟩ := hpos
      exact ⟨a, List.mem_cons_self _ _, haS, e, he, by simpa using hd⟩
    · obtain ⟨x, hx, hxS, r⟩ := ih h1
      exact ⟨x, List.mem_cons_of_mem _ hx, hxS, r⟩

theorem inCount_not_mem {vs : List (Vertex T)} {S : List T} {v : T} (w : T)
    (h : v ∉ vs.map (fun x => x.info)) : inCount vs (S ++ [v]) w = inCount vs S w := by
  induction vs with
  | nil => rfl
  | cons a l ih =>
    rw [List.map_cons, List.mem_cons, not_or] at h
    rw [inCount_cons, inCount_cons, ih h.2]
    have : a.info ≠ v := fun hc => h.1 hc.symm
    simp [this]

theorem inCount_snoc {vs : List (Vertex T)} (hnd : (vs.map (fun x => x.info)).Nodup)
    {vx : Vertex T} (hx : vx ∈ vs) {S : List T} (hv : vx.info ∉ S) (w : T) :
    inCount vs S w = inCount vs (S ++ [vx.info]) w + edgeCount vx.adj w := by
  induction vs with
  | nil => cases hx
  | cons a l ih =>
    rw [List.map_cons, List.nodup_cons] at hnd
    rw [inCount_cons, inCount_cons]
    rcases List.mem_cons.mp hx with rfl | hx1
    · rw [inCount_not_mem w hnd.1]
      simp [hv]
      omega
    · have hne : a.info ≠ vx.info := by
        intro he
        apply hnd.1
        rw [he]
        exact List.mem_map_of_mem _ hx1
      rw [ih hnd.2 hx1]
      simp [hne]
      omega

end Graph

/-! ## `topsort`: the main loop -/

namespace Graph

variable {T : Type} [DecidableEq T]

theorem skel_find {g g0 : Graph T} (hsk : g.skel = g0.skel) {v : T} {vx : Vertex T}
    (h : g.findVertex v = some vx) : ∃ x0 ∈ g0.vertexSet, x0.info = v ∧ x0.adj = vx.adj := by
  have hm : (vx.info, vx.adj) ∈ g.skel := List.mem_map_of_mem _ (findVertex_mem h)
  rw [hsk] at hm
  obtain ⟨x0, hx0, he⟩ := List.mem_map.mp hm
  have h1 : x0.info = vx.info := congrArg Prod.fst he
  have h2 : x0.adj = vx.adj := congrArg Prod.snd he
  exact ⟨x0, hx0, h1.trans (findVertex_info h), h2⟩

theorem find_of_skel {g g0 : Graph T} (hsk : g.skel = g0.skel) {v : T} (hv : v ∈ g0.ids) :
    ∃ vx, g.findVertex v = some vx := by
  apply findVertex_of_mem_ids
  rw [ids_of_skel hsk]
  exact hv

theorem topsortEdges_spec {g0 : Graph T} (res : List T) (es : List (Edge T)) :
    ∀ (g : Graph T) (q : List T), KahnInv g0 g res (res ++ q) es →
      (∀ e ∈ es, e.dest ∈ g0.ids) →
      ∃ g1 q1, topsortEdges es g q = some (g1, q1) ∧ KahnInv g0 g1 res (res ++ q1) [] := by
  induction es with
  | nil =>
    intro g q h _
    exact ⟨g, q, rfl, h⟩
  | cons e es ih =>
    intro g q ⟨hsk, hnd, hsub, hind, hzero, hord⟩ hes
    have hd : e.dest ∈ g0.ids := hes e (List.mem_cons_self _ _)
    obtain ⟨w, hwf⟩ := find_of_skel hsk hd
    have hwi : w.indegree = g.indegreeOf e.dest := by simp [indegreeOf, hwf]
    have hpos : g.indegreeOf e.dest =
        ((inCount g0.vertexSet res e.dest + edgeCount es e.dest : Nat) : Int) + 1 := by
      rw [hind _ hd, edgeCount_cons]
      simp
      ring
    have hnotL : e.dest ∉ res ++ q := by
      intro hc
      have := (hzero _ hd).mpr hc
      omega
    have hsk1 : (g.modify e.dest (fun x => { x with indegree := x.indegree - 1 })).skel = g0.skel :=
      (skel_modify g e.dest (by intro; rfl) (by intro; rfl)).trans hsk
    have hind1 : ∀ w1 ∈ g0.ids,
        (g.modify e.dest (fun x => { x with indegree := x.indegree - 1 })).indegreeOf w1 =
          ((inCount g0.vertexSet res w1 + edgeCount es w1 : Nat) : Int) := by
      intro w1 hw1
      rw [indegreeOf_modify g e.dest w1 (fun i => i - 1) hwf]
      by_cases h : w1 = e.dest
      · subst h
        simp only [if_true]
        rw [hpos]
        ring
      · have h2 : ¬ e.dest = w1 := fun hc => h hc.symm
        simp only [h, if_false]
        rw [hind _ hw1, edgeCount_cons]
        simp [h2]
    have hes1 : ∀ e1 ∈ es, e1.dest ∈ g0.ids := fun e1 he1 => hes e1 (List.mem_cons_of_mem _ he1)
    simp only [topsortEdges, hwf]
    by_cases hz : w.indegree - 1 = 0
    · rw [if_pos hz]
      have hLeq : res ++ (q ++ [e.dest]) = (res ++ q) ++ [e.dest] := by simp
      have hcnt : inCount g0.vertexSet res e.dest = 0 := by
        rw [hwi, hpos] at hz
        omega
      apply ih _ (q ++ [e.dest]) ?_ hes1
      rw [hLeq]
      refine ⟨hsk1, ?_, ?_, hind1, ?_, ?_⟩
      · rw [List.nodup_append]
        refine ⟨hnd, List.nodup_singleton _, ?_⟩
        intro a ha hb
        rw [List.mem_singleton] at hb
        exact hnotL (hb ▸ ha)
      · intro u hu
        rcases List.mem_append.mp hu with h | h
        · exact hsub u h
        · rw [List.mem_singleton] at h
          exact h ▸ hd
      · intro w1 hw1
        rw [indegreeOf_modify g e.dest w1 (fun i => i - 1) hwf]
        by_cases h : w1 = e.dest
        · subst h
          simp only [if_true]
          rw [← hwi]
          simp [hz]
        · simp only [h, if_false]
          rw [hzero _ hw1]
          simp [h]
      · intro u w1 hw1 hadj
        by_cases h : w1 ∈ res ++ q
        · have h1 := hord u w1 h hadj
          have hu : u ∈ res ++ q :=
            List.indexOf_lt_length.mp (lt_of_lt_of_le h1 List.indexOf_le_length)
          rw [List.indexOf_append_of_mem hu, List.indexOf_append_of_mem h]
          exact h1
        · have hw1e : w1 = e.dest := by
            rcases List.mem_append.mp hw1 with h2 | h2
            · exact absurd h2 h
            · exact List.mem_singleton.mp h2
          subst hw1e
          have hu : u ∈ res := by
            by_contra hc
            obtain ⟨x, hx, hxu, e1, he1, hde⟩ := hadj
            exact inCount_eq_zero hcnt x hx (by rw [hxu]; exact hc) e1 he1 hde
          have hu2 : u ∈ res ++ q := List.mem_append_left _ hu
          rw [List.indexOf_append_of_mem hu2, List.indexOf_append_of_not_mem h]
          have := List.indexOf_lt_length.mpr hu2
          omega
    · rw [if_neg hz]
      apply ih _ q ?_ hes1
      refine ⟨hsk1, hnd, hsub, hind1, ?_, hord⟩
      intro w1 hw1
      rw [indegreeOf_modify g e.dest w1 (fun i => i - 1) hwf]
      by_cases h : w1 = e.dest
      · subst h
        simp only [if_true]
        rw [← hwi]
        constructor
        · intro hc
          exact absurd hc hz
        · intro hc
          exact absurd hc hnotL
      · simp only [h, if_false]
        exact hzero _ hw1

theorem kahn_length_le {g0 g : Graph T} {res L : List T} {es : List (Edge T)}
    (h : KahnInv g0 g res L es) : L.length ≤ g0.vertexSet.length := by
  obtain ⟨_, hnd, hsub, _⟩ := h
  have := (List.subperm_of_subset hnd (fun u hu => hsub u hu)).length_le
  simpa [ids] using this

theorem topsortLoop_spec {g0 : Graph T} (hw : g0.WellFormed) :
    ∀ (fuel : Nat) (g : Graph T) (q res : List T), KahnInv g0 g res (res ++ q) [] →
      g0.vertexSet.length + 1 ≤ fuel + res.length →
      ∃ out g1, topsortLoop fuel g q res = some out ∧ KahnInv g0 g1 out out [] := by
  intro fuel
  induction fuel with
  | zero =>
    intro g q res h hf
    have := kahn_length_le h
    simp at this hf
    omega
  | succ fuel ih =>
    intro g q res h hf
    cases q with
    | nil =>
      refine ⟨res, g, rfl, ?_⟩
      simpa using h
    | cons v q1 =>
      have hlen := kahn_length_le h
      obtain ⟨hsk, hnd, hsub, hind, hzero, hord⟩ := h
      have hv : v ∈ g0.ids := hsub v (by simp)
      obtain ⟨vx, hvx⟩ := find_of_skel hsk hv
      obtain ⟨x0, hx0, hx0i, hx0a⟩ := skel_find hsk hvx
      have hvres : v ∉ res := by
        intro hc
        rw [List.nodup_append] at hnd
        exact hnd.2.2 hc (List.mem_cons_self _ _)
      have hLeq : (res ++ [v]) ++ q1 = res ++ v :: q1 := by simp
      have hinv : KahnInv g0 g (res ++ [v]) ((res ++ [v]) ++ q1) vx.adj := by
        rw [hLeq]
        refine ⟨hsk, hnd, hsub, ?_, hzero, hord⟩
        intro w hw1
        rw [hind w hw1]
        have := inCount_snoc hw.1 hx0 (S := res) (by rw [hx0i]; exact hvres) w
        rw [hx0i, hx0a] at this
        rw [this]
        simp [edgeCount]
      have hes : ∀ e ∈ vx.adj, e.dest ∈ g0.ids := by
        intro e he
        rw [← hx0a] at he
        exact hw.2 x0 hx0 e he
      obtain ⟨g1, q2, h1, h2⟩ := topsortEdges_spec (res ++ [v]) vx.adj g q1 hinv hes
      have hvi : vx.info = v := findVertex_info hvx
      obtain ⟨out, g2, h3, h4⟩ := ih g1 q2 (res ++ [v]) h2 (by
        simp
        omega)
      refine ⟨out, g2, ?_, h4⟩
      simp only [topsortLoop, hvx, h1, hvi]
      exact h3

end Graph

/-! ## `topsort`: the result -/

namespace Graph

variable {T : Type} [DecidableEq T]

/-- In a finite set of vertices in which every member has a predecessor that is
again a member, there is a cycle. -/
theorem exists_cycle_of_pred (r : T → T → Prop) (l : List T) (P : T → Prop)
    (hne : ∃ w ∈ l, P w) (hstep : ∀ w ∈ l, P w → ∃ u ∈ l, P u ∧ r u w) :
    ∃ v, Relation.TransGen r v v := by
  by_contra hcon
  have hirr : ∀ v, ¬ Relation.TransGen r v v := fun v hv => hcon ⟨v, hv⟩
  let R : { x // x ∈ l } → { x // x ∈ l } → Prop := fun a b => Relation.TransGen r a.1 b.1
  haveI : IsTrans { x // x ∈ l } R := ⟨fun a b c hab hbc => Relation.TransGen.trans hab hbc⟩
  haveI : IsIrrefl { x // x ∈ l } R := ⟨fun a ha => hirr a.1 ha⟩
  have hwf : WellFounded R := Finite.wellFounded_of_trans_of_irrefl R
  obtain ⟨w, hwl, hPw⟩ := hne
  obtain ⟨m, hm, hmin⟩ := hwf.has_min { a | P a.1 } ⟨⟨w, hwl⟩, hPw⟩
  obtain ⟨u, hul, hPu, hru⟩ := hstep m.1 m.2 hm
  exact hmin ⟨u, hul⟩ hPu (Relation.TransGen.single hru)

theorem before_of_indexOf_lt {u v : T} :
    ∀ l : List T, v ∈ l → l.indexOf u < l.indexOf v → Before l u v := by
  intro l
  induction l with
  | nil => intro h; cases h
  | cons a t ih =>
    intro hv hlt
    by_cases hau : a = u
    · subst hau
      rw [List.indexOf_cons_self] at hlt
      have hne : a ≠ v := by
        intro hc
        subst hc
        rw [List.indexOf_cons_self] at hlt
        exact absurd hlt (lt_irrefl _)
      have hvt : v ∈ t := by
        rcases List.mem_cons.mp hv with h | h
        · exact absurd h.symm hne
        · exact h
      obtain ⟨l2, l3, ht⟩ := List.append_of_mem hvt
      exact ⟨[], l2, l3, by simp [ht]⟩
    · have hav : a ≠ v := by
        intro hc
        subst hc
        rw [List.indexOf_cons_self] at hlt
        exact absurd hlt (Nat.not_lt_zero _)
      rw [List.indexOf_cons_ne _ hau, List.indexOf_cons_ne _ hav] at hlt
      have hvt : v ∈ t := by
        rcases List.mem_cons.mp hv with h | h
        · exact absurd h.symm hav
        · exact h
      obtain ⟨l1, l2, l3, ht⟩ := ih hvt (Nat.lt_of_succ_lt_succ hlt)
      exact ⟨a :: l1, l2, l3, by simp [ht]⟩

/-- The run of `topsort` on a well-formed graph: the loops finish, and the list
`out` built by the main loop satisfies the loop invariant with an empty queue. -/
theorem topsort_run {g : Graph T} (hw : g.WellFormed) :
    ∃ out g1, KahnInv g g1 out out [] ∧
      g.topsort = some (if out.length ≠ g.vertexSet.length then [] else out) := by
  have hsk0 := skel_resetIndegree g
  obtain ⟨g1, h1, h2, h3⟩ := countAll_spec g.vertexSet g.resetIndegree (by
    intro x hx e he
    rw [ids_of_skel hsk0]
    exact hw.2 x hx e he)
  have hsk1 : g1.skel = g.skel := h2.trans hsk0
  have hw1 : g1.WellFormed := wellFormed_of_skel hsk1 hw
  have hind : ∀ w, g1.indegreeOf w = (inCount g.vertexSet [] w : Nat) := by
    intro w
    rw [h3 w, indegreeOf_resetIndegree]
    simp
  have hq : ∀ w, w ∈ (g1.vertexSet.filter (fun v => decide (v.indegree = 0))).map
      (fun v => v.info) ↔ (w ∈ g.ids ∧ g1.indegreeOf w = 0) := by
    intro w
    simp only [List.mem_map, List.mem_filter, decide_eq_true_eq]
    constructor
    · rintro ⟨x, ⟨hx, hx0⟩, rfl⟩
      refine ⟨?_, ?_⟩
      · rw [← ids_of_skel hsk1]
        exact List.mem_map_of_mem _ hx
      · simp [indegreeOf, findVertex_of_mem hw1.1 hx, hx0]
    · rintro ⟨hwi, hw0⟩
      obtain ⟨x, hx⟩ := find_of_skel hsk1 hwi
      refine ⟨x, ⟨findVertex_mem hx, ?_⟩, findVertex_info hx⟩
      simpa [indegreeOf, hx] using hw0
  have hinv : KahnInv g g1 []
      ([] ++ (g1.vertexSet.filter (fun v => decide (v.indegree = 0))).map (fun v => v.info))
      [] := by
    rw [List.nil_append]
    refine ⟨hsk1, ?_, ?_, ?_, ?_, ?_⟩
    · have hs : ((g1.vertexSet.filter (fun v => decide (v.indegree = 0))).map
          (fun v => v.info)).Sublist g1.ids :=
        List.Sublist.map _ (List.filter_sublist _)
      exact List.Nodup.sublist hs hw1.1
    · intro u hu
      exact ((hq u).mp hu).1
    · intro w _
      rw [hind w]
      simp [edgeCount]
    · intro w hwi
      rw [hq w]
      simp [hwi]
    · intro u w hwq hadj
      exfalso
      have h0 := ((hq w).mp hwq).2
      rw [hind w] at h0
      obtain ⟨x, hx, _, e, he, hde⟩ := hadj
      exact inCount_eq_zero (by exact_mod_cast h0) x hx (by simp) e he hde
  obtain ⟨out, g2, h4, h5⟩ := topsortLoop_spec hw (g.vertexSet.length + 1) g1 _ [] hinv (by simp)
  refine ⟨out, g2, h5, ?_⟩
  simp only [topsort, h1, h4]
  split <;> rfl

/-- Without a cycle the main loop outputs every vertex. -/
theorem kahn_complete {g g1 : Graph T} {out : List T} (h : KahnInv g g1 out out [])
    (hac : ¬ g.HasCycle) : ∀ w ∈ g.ids, w ∈ out := by
  obtain ⟨hsk, hnd, hsub, hind, hzero, hord⟩ := h
  by_contra hcon
  push_neg at hcon
  apply hac
  apply exists_cycle_of_pred g.Adj g.ids (fun w => w ∉ out) hcon
  intro w hw hwo
  have h0 : g1.indegreeOf w ≠ 0 := fun hc => hwo ((hzero w hw).mp hc)
  rw [hind w hw] at h0
  have h1 : inCount g.vertexSet out w ≠ 0 := by
    intro hc
    apply h0
    simp [hc, edgeCount]
  obtain ⟨x, hx, hxo, e, he, hde⟩ := inCount_pos h1
  exact ⟨x.info, List.mem_map_of_mem _ hx, hxo, x, hx, rfl, e, he, hde⟩

/-- If the main loop outputs every vertex, the output respects every edge, so
there is no cycle. -/
theorem kahn_sound {g g1 : Graph T} (hw : g.WellFormed) {out : List T}
    (h : KahnInv g g1 out out []) (hall : ∀ w ∈ g.ids, w ∈ out) : ¬ g.HasCycle := by
  obtain ⟨hsk, hnd, hsub, hind, hzero, hord⟩ := h
  have key : ∀ a b, Relation.TransGen g.Adj a b → out.indexOf a < out.indexOf b := by
    intro a b hab
    induction hab with
    | single h1 => exact hord _ _ (hall _ (adj_right_mem hw h1)) h1
    | tail _ h2 ih => exact lt_trans ih (hord _ _ (hall _ (adj_right_mem hw h2)) h2)
  rintro ⟨v, hv⟩
  exact absurd (key v v hv) (lt_irrefl _)

theorem kahn_perm {g g1 : Graph T} (hw : g.WellFormed) {out : List T}
    (h : KahnInv g g1 out out []) (hall : ∀ w ∈ g.ids, w ∈ out) : out.Perm g.ids := by
  obtain ⟨hsk, hnd, hsub, hind, hzero, hord⟩ := h
  apply (List.subperm_of_subset hnd (fun u hu => hsub u hu)).perm_of_length_le
  exact (List.subperm_of_subset hw.1 (fun u hu => hall u hu)).length_le

theorem kahn_all_of_length {g g1 : Graph T} (hw : g.WellFormed) {out : List T}
    (h : KahnInv g g1 out out []) (hlen : out.length = g.vertexSet.length) :
    ∀ w ∈ g.ids, w ∈ out := by
  obtain ⟨hsk, hnd, hsub, hind, hzero, hord⟩ := h
  have hp : out.Perm g.ids := by
    apply (List.subperm_of_subset hnd (fun u hu => hsub u hu)).perm_of_length_le
    rw [hlen]
    simp [ids]
  intro w hwi
  exact hp.mem_iff.mpr hwi

/-- The length test at the end of `topsort` succeeds exactly on acyclic graphs. -/
theorem topsort_length_iff {g g1 : Graph T} (hw : g.WellFormed) {out : List T}
    (h : KahnInv g g1 out out []) : out.length = g.vertexSet.length ↔ ¬ g.HasCycle := by
  constructor
  · intro hlen
    exact kahn_sound hw h (kahn_all_of_length hw h hlen)
  · intro hac
    have := (kahn_perm hw h (kahn_complete h hac)).length_eq
    simpa [ids] using this

end Graph

/-! ## Flags under pointer assignment -/

namespace Graph

variable {T : Type} [DecidableEq T]

theorem isVisited_modify (g : Graph T) (p u : T) (f : Vertex T → Vertex T)
    (hf : ∀ x, (f x).info = x.info) :
    (g.modify p f).isVisited u =
      if u = p then (match g.findVertex u with | some x => (f x).visited | none => false)
      else g.isVisited u := by
  unfold isVisited
  rw [findVertex_modify g p u hf]
  by_cases h : u = p
  · simp only [h, if_true]
    cases g.findVertex p <;> rfl
  · simp only [h, if_false]

theorem isProcessing_modify (g : Graph T) (p u : T) (f : Vertex T → Vertex T)
    (hf : ∀ x, (f x).info = x.info) :
    (g.modify p f).isProcessing u =
      if u = p then (match g.findVertex u with | some x => (f x).processing | none => false)
      else g.isProcessing u := by
  unfold isProcessing
  rw [findVertex_modify g p u hf]
  by_cases h : u = p
  · simp only [h, if_true]
    cases g.findVertex p <;> rfl
  · simp only [h, if_false]

theorem isVisited_setVisited (g : Graph T) {p : T} {x : Vertex T} (hx : g.findVertex p = some x)
    (b : Bool) (u : T) :
    (g.modify p (fun y => { y with visited := b })).isVisited u =
      if u = p then b else g.isVisited u := by
  rw [isVisited_modify g p u _ (by intro; rfl)]
  by_cases h : u = p
  · subst h
    simp [hx]
  · simp [h]

theorem isVisited_setProcessing (g : Graph T) (p : T) (b : Bool) (u : T) :
    (g.modify p (fun y => { y with processing := b })).isVisited u = g.isVisited u := by
  rw [isVisited_modify g p u _ (by intro; rfl)]
  by_cases h : u = p
  · subst h
    simp only [if_true, isVisited]
  · simp [h]

theorem isProcessing_setProcessing (g : Graph T) {p : T} {x : Vertex T}
    (hx : g.findVertex p = some x) (b : Bool) (u : T) :
    (g.modify p (fun y => { y with processing := b })).isProcessing u =
      if u = p then b else g.isProcessing u := by
  rw [isProcessing_modify g p u _ (by intro; rfl)]
  by_cases h : u = p
  · subst h
    simp [hx]
  · simp [h]

theorem isProcessing_setVisited (g : Graph T) (p : T) (b : Bool) (u : T) :
    (g.modify p (fun y => { y with visited := b })).isProcessing u = g.isProcessing u := by
  rw [isProcessing_modify g p u _ (by intro; rfl)]
  by_cases h : u = p
  · subst h
    simp only [if_true, isProcessing]
  · simp [h]

theorem countP_map_le {α : Type} (p : α → Bool) (m : α → α) (hm : ∀ y, p (m y) = true → p y = true) :
    ∀ l : List α, List.countP p (l.map m) ≤ List.countP p l := by
  intro l
  induction l with
  | nil => simp
  | cons a t ih =>
    rw [List.map_cons, List.countP_cons, List.countP_cons]
    by_cases h : p (m a) = true
    · simp only [h, hm a h, if_true]
      omega
    · simp only [h, if_false, Bool.false_eq_true]
      by_cases h2 : p a = true
      · simp only [h2, if_true]
        omega
      · simp only [h2, if_false, Bool.false_eq_true]
        omega

theorem countP_map_lt {α : Type} (p : α → Bool) (m : α → α) (hm : ∀ y, p (m y) = true → p y = true) :
    ∀ l : List α, (∃ x ∈ l, p x = true ∧ p (m x) = false) →
      List.countP p (l.map m) < List.countP p l := by
  intro l
  induction l with
  | nil => rintro ⟨x, hx, _⟩; cases hx
  | cons a t ih =>
    rintro ⟨x, hx, hpx, hpm⟩
    rw [List.map_cons, List.countP_cons, List.countP_cons]
    rcases List.mem_cons.mp hx with rfl | hxt
    · have := countP_map_le p m hm t
      have hpm2 : ¬ (p (m x) = true) := by simp [hpm]
      simp only [hpx, hpm, if_true, if_false, Bool.false_eq_true]
      omega
    · have := ih ⟨x, hxt, hpx, hpm⟩
      by_cases h : p (m a) = true
      · simp only [h, hm a h, if_true]
        omega
      · simp only [h, if_false, Bool.false_eq_true]
        by_cases h2 : p a = true
        · simp only [h2, if_true]
          omega
        · simp only [h2, if_false, Bool.false_eq_true]
          omega

theorem unvisited_modify_le (g : Graph T) (p : T) (f : Vertex T → Vertex T)
    (hf : ∀ x, (f x).visited = false → x.visited = false) :
    (g.modify p f).unvisited ≤ g.unvisited := by
  unfold unvisited modify
  apply countP_map_le
  intro y
  by_cases h : y.info = p
  · simp only [h, if_true]
    intro h1
    simpa using hf y (by simpa using h1)
  · simp [h]

theorem unvisited_setVisited_lt (g : Graph T) {v : T} {vx : Vertex T}
    (hx : g.findVertex v = some vx) (hv : vx.visited = false) :
    (g.modify v (fun y => { y with visited := true })).unvisited < g.unvisited := by
  unfold unvisited modify
  apply countP_map_lt
  · intro y
    by_cases h : y.info = v
    · simp [h]
    · simp [h]
  · refine ⟨vx, findVertex_mem hx, by simp [hv], ?_⟩
    simp [findVertex_info hx]

theorem unvisited_pos (g : Graph T) {v : T} (hv : v ∈ g.ids) (h : g.isVisited v = false) :
    0 < g.unvisited := by
  obtain ⟨x, hx⟩ := findVertex_of_mem_ids hv
  unfold unvisited
  rw [List.countP_pos_iff]
  refine ⟨x, findVertex_mem hx, ?_⟩
  simpa [isVisited, hx] using h

theorem isDone_eq (g : Graph T) (u : T) :
    g.isDone u = true ↔ g.isVisited u = true ∧ g.isProcessing u = false := by
  simp [isDone]

end Graph

/-! ## `isDAG`: the depth-first search -/

namespace Graph

variable {T : Type} [DecidableEq T]

theorem dagPost_true {g0 g g1 : Graph T} :
    DagPost g0 g g1 true ↔
      (DagInv g0 g1 ∧ (∀ u, g1.isProcessing u = g.isProcessing u) ∧
        (∀ u, g.isVisited u = true → g1.isVisited u = true) ∧ g1.unvisited ≤ g.unvisited) := by
  simp [DagPost]

theorem dagPost_false {g0 g g1 : Graph T} : DagPost g0 g g1 false ↔ g0.HasCycle := by
  simp [DagPost]

theorem dagPost_refl {g0 g : Graph T} (h : DagInv g0 g) : DagPost g0 g g true :=
  dagPost_true.mpr ⟨h, fun _ => rfl, fun _ h => h, le_refl _⟩

theorem dagPost_trans {g0 g g1 g2 : Graph T} {b : Bool} (h1 : DagPost g0 g g1 true)
    (h2 : DagPost g0 g1 g2 b) : DagPost g0 g g2 b := by
  cases b with
  | false => exact dagPost_false.mpr (dagPost_false.mp h2)
  | true =>
    obtain ⟨_, a2, a3, a4⟩ := dagPost_true.mp h1
    obtain ⟨b1, b2, b3, b4⟩ := dagPost_true.mp h2
    exact dagPost_true.mpr ⟨b1, fun u => (b2 u).trans (a2 u), fun u hu => b3 u (a3 u hu),
      le_trans b4 a4⟩

theorem isDone_mono {g0 g g1 : Graph T} (h : DagPost g0 g g1 true) {u : T}
    (hu : g.isDone u = true) : g1.isDone u = true := by
  obtain ⟨_, a2, a3, _⟩ := dagPost_true.mp h
  rw [isDone_eq] at hu ⊢
  exact ⟨a3 u hu.1, (a2 u).trans hu.2⟩

theorem dfsIsDAGEdges_spec {g0 : Graph T} (hw : g0.WellFormed)
    {visit : Graph T → T → Option (Graph T × Bool)} {k : Nat}
    (hvisit : DagVisitSpec g0 visit k) (v : T) (es : List (Edge T)) :
    ∀ g : Graph T, DagInv g0 g → (∀ e ∈ es, g0.Adj v e.dest) → g.isProcessing v = true →
      (∀ p, g.isProcessing p = true → Relation.ReflTransGen g0.Adj p v) → g.unvisited ≤ k →
      ∃ g1 b, dfsIsDAGEdges visit es g = some (g1, b) ∧ DagPost g0 g g1 b ∧
        (b = true → ∀ e ∈ es, g1.isDone e.dest = true) := by
  induction es with
  | nil =>
    intro g hinv _ _ _ _
    exact ⟨g, true, rfl, dagPost_refl hinv, fun _ e he => by cases he⟩
  | cons e es ih =>
    intro g hinv hes hpv hstack hk
    have hadj : g0.Adj v e.dest := hes e (List.mem_cons_self _ _)
    have hes1 : ∀ e1 ∈ es, g0.Adj v e1.dest := fun e1 he1 => hes e1 (List.mem_cons_of_mem _ he1)
    have hd : e.dest ∈ g0.ids := adj_right_mem hw hadj
    obtain ⟨w, hwf⟩ := find_of_skel hinv.1 hd
    have hwp : g.isProcessing e.dest = w.processing := by simp [isProcessing, hwf]
    have hwv : g.isVisited e.dest = w.visited := by simp [isVisited, hwf]
    simp only [dfsIsDAGEdges, hwf]
    by_cases hp : w.processing = true
    · rw [if_pos hp]
      refine ⟨g, false, rfl, dagPost_false.mpr ?_, by simp⟩
      exact ⟨e.dest, Relation.TransGen.tail' (hstack _ (hwp.trans hp)) hadj⟩
    · rw [if_neg hp]
      have hp2 : w.processing = false := by simpa using hp
      by_cases hv : w.visited = true
      · simp only [hv, Bool.not_true, Bool.false_eq_true, if_false]
        obtain ⟨g1, b, h1, h2, h3⟩ := ih g hinv hes1 hpv hstack hk
        refine ⟨g1, b, h1, h2, ?_⟩
        intro hb e1 he1
        subst hb
        rcases List.mem_cons.mp he1 with rfl | he2
        · apply isDone_mono h2
          rw [isDone_eq]
          exact ⟨hwv.trans hv, hwp.trans hp2⟩
        · exact h3 rfl e1 he2
      · have hv2 : w.visited = false := by simpa using hv
        simp only [hv2, Bool.not_false, if_true]
        obtain ⟨g1, b, h1, h2, h3⟩ := hvisit g e.dest hinv hd (hwv.trans hv2) (hwp.trans hp2)
          (fun p hpp => Relation.ReflTransGen.tail (hstack p hpp) hadj) hk
        rw [h1]
        cases b with
        | false =>
          exact ⟨g1, false, rfl, dagPost_false.mpr (dagPost_false.mp h2), by simp⟩
        | true =>
          obtain ⟨a1, a2, a3, a4⟩ := dagPost_true.mp h2
          obtain ⟨g2, b, k1, k2, k3⟩ := ih g1 a1 hes1 ((a2 v).trans hpv)
            (fun p hpp => hstack p ((a2 p).symm.trans hpp)) (le_trans a4 hk)
          refine ⟨g2, b, k1, dagPost_trans h2 k2, ?_⟩
          intro hb e1 he1
          subst hb
          rcases List.mem_cons.mp he1 with rfl | he2
          · apply isDone_mono k2
            rw [isDone_eq]
            exact ⟨h3 rfl, (a2 _).trans (hwp.trans hp2)⟩
          · exact k3 rfl e1 he2

theorem isDone_closed_reach {g0 g : Graph T} (h : DagInv g0 g) {u w : T}
    (hu : g.isDone u = true) (hr : Relation.ReflTransGen g0.Adj u w) : g.isDone w = true := by
  induction hr with
  | refl => exact hu
  | tail _ hbc ih => exact h.2.1 _ _ ih hbc

theorem dfsIsDAG_spec {g0 : Graph T} (hw : g0.WellFormed) :
    ∀ fuel : Nat, DagVisitSpec g0 (dfsIsDAG fuel) fuel := by
  intro fuel
  induction fuel with
  | zero =>
    intro g v hinv hv hvis _ _ hk
    have := unvisited_pos g (by rw [ids_of_skel hinv.1]; exact hv) hvis
    omega
  | succ fuel ih =>
    intro g v hinv hv hvis hproc hstack hk
    obtain ⟨hsk, hclosed, hacyc⟩ := hinv
    obtain ⟨vx, hvx⟩ := find_of_skel hsk hv
    have hwg : g.WellFormed := wellFormed_of_skel hsk hw
    have hvxv : vx.visited = false := by simpa [isVisited, hvx] using hvis
    -- the state after the two assignments
    have hfa : (g.modify v (fun x => { x with visited := true })).findVertex v =
        some { vx with visited := true } := by
      rw [findVertex_modify_self g v (by intro; rfl), hvx]
      rfl
    have hsa : (g.modify v (fun x => { x with visited := true })).skel = g.skel :=
      skel_modify g v (by intro; rfl) (by intro; rfl)
    have hsb : ((g.modify v (fun x => { x with visited := true })).modify v
        (fun x => { x with processing := true })).skel = g0.skel :=
      (skel_modify _ v (by intro; rfl) (by intro; rfl)).trans (hsa.trans hsk)
    have hvis1 : ∀ u, ((g.modify v (fun x => { x with visited := true })).modify v
        (fun x => { x with processing := true })).isVisited u =
          if u = v then true else g.isVisited u := by
      intro u
      rw [isVisited_setProcessing, isVisited_setVisited g hvx]
    have hproc1 : ∀ u, ((g.modify v (fun x => { x with visited := true })).modify v
        (fun x => { x with processing := true })).isProcessing u =
          if u = v then true else g.isProcessing u := by
      intro u
      rw [isProcessing_setProcessing _ hfa, isProcessing_setVisited]
    have hdone1 : ∀ u, ((g.modify v (fun x => { x with visited := true })).modify v
        (fun x => { x with processing := true })).isDone u = true ↔ (u ≠ v ∧ g.isDone u = true) := by
      intro u
      rw [isDone_eq, isDone_eq, hvis1, hproc1]
      by_cases h : u = v
      · simp [h]
      · simp [h]
    have hun1 : ((g.modify v (fun x => { x with visited := true })).modify v
        (fun x => { x with processing := true })).unvisited ≤ fuel := by
      have h1 := unvisited_setVisited_lt g hvx hvxv
      have h2 := unvisited_modify_le (g.modify v (fun x => { x with visited := true })) v
        (fun x => { x with processing := true }) (fun _ h => h)
      omega
    have hun1b : ((g.modify v (fun x => { x with visited := true })).modify v
        (fun x => { x with processing := true })).unvisited ≤ g.unvisited := by
      have h1 := unvisited_setVisited_lt g hvx hvxv
      have h2 := unvisited_modify_le (g.modify v (fun x => { x with visited := true })) v
        (fun x => { x with processing := true }) (fun _ h => h)
      omega
    have hinv1 : DagInv g0 ((g.modify v (fun x => { x with visited := true })).modify v
        (fun x => { x with processing := true })) := by
      refine ⟨hsb, ?_, ?_⟩
      · intro u w hu hadj
        obtain ⟨hne, hdu⟩ := (hdone1 u).mp hu
        have hdw := hclosed u w hdu hadj
        refine (hdone1 w).mpr ⟨?_, hdw⟩
        intro hc
        subst hc
        rw [isDone_eq] at hdw
        rw [hdw.1] at hvis
        cases hvis
      · intro u hu
        exact hacyc u ((hdone1 u).mp hu).2
    have hes : ∀ e ∈ vx.adj, g0.Adj v e.dest := by
      intro e he
      rw [← adj_of_skel hsk]
      exact (adj_iff_of_find hwg hvx e.dest).mpr ⟨e, he, rfl⟩
    obtain ⟨g2, b, h1, h2, h3⟩ := dfsIsDAGEdges_spec hw ih v vx.adj _ hinv1 hes
      (by rw [hproc1]; simp)
      (by
        intro p hp
        rw [hproc1] at hp
        by_cases h : p = v
        · subst h
          exact Relation.ReflTransGen.refl
        · simp only [h, if_false] at hp
          exact hstack p hp)
      hun1
    simp only [dfsIsDAG, hvx, h1]
    cases b with
    | false =>
      exact ⟨g2, false, rfl, dagPost_false.mpr (dagPost_false.mp h2), by simp⟩
    | true =>
      obtain ⟨a1, a2, a3, a4⟩ := dagPost_true.mp h2
      obtain ⟨x2, hx2⟩ := find_of_skel a1.1 hv
      have hsk3 : (g2.modify v (fun x => { x with processing := false })).skel = g0.skel :=
        (skel_modify g2 v (by intro; rfl) (by intro; rfl)).trans a1.1
      have hv2 : g2.isVisited v = true := a3 v (by rw [hvis1]; simp)
      have hp2 : g2.isProcessing v = true := by rw [a2, hproc1]; simp
      have hdone3 : ∀ u, (g2.modify v (fun x => { x with processing := false })).isDone u = true ↔
          (u = v ∨ g2.isDone u = true) := by
        intro u
        rw [isDone_eq, isDone_eq, isVisited_setProcessing, isProcessing_setProcessing g2 hx2]
        by_cases h : u = v
        · subst h
          simp [hv2]
        · simp [h]
      have hsucc : ∀ w, g0.Adj v w → g2.isDone w = true := by
        intro w hadj
        rw [← adj_of_skel hsk] at hadj
        obtain ⟨e, he, hde⟩ := (adj_iff_of_find hwg hvx w).mp hadj
        rw [← hde]
        exact h3 rfl e he
      refine ⟨_, true, rfl, dagPost_true.mpr ⟨⟨hsk3, ?_, ?_⟩, ?_, ?_, ?_⟩, ?_⟩
      · intro u w hu hadj
        apply (hdone3 w).mpr
        right
        rcases (hdone3 u).mp hu with h | h
        · subst h
          exact hsucc w hadj
        · exact a1.2.1 u w h hadj
      · intro u hu hcyc
        rcases (hdone3 u).mp hu with h | h
        · subst h
          obtain ⟨w, hadj, hreach⟩ := Relation.TransGen.head'_iff.mp hcyc
          have := isDone_closed_reach a1 (hsucc w hadj) hreach
          rw [isDone_eq, hp2] at this
          cases this.2
        · exact a1.2.2 u h hcyc
      · intro u
        rw [isProcessing_setProcessing g2 hx2, a2, hproc1]
        by_cases h : u = v
        · subst h
          simp [hproc]
        · simp [h]
      · intro u hu
        rw [isVisited_setProcessing]
        apply a3
        rw [hvis1]
        by_cases h : u = v
        · simp [h]
        · simp [h, hu]
      · have := unvisited_modify_le g2 v (fun x => { x with processing := false }) (fun _ h => h)
        omega
      · intro _
        rw [isVisited_setProcessing]
        exact hv2

end Graph

/-! ## `isDAG`: the outer loop and the result -/

namespace Graph

variable {T : Type} [DecidableEq T]

theorem isDAGLoop_spec {g0 : Graph T} (hw : g0.WellFormed) (fuel : Nat) (vs : List T) :
    ∀ g : Graph T, DagInv g0 g → (∀ v ∈ vs, v ∈ g0.ids) → (∀ p, g.isProcessing p = false) →
      g.unvisited ≤ fuel →
      ∃ b, isDAGLoop fuel vs g = some b ∧
        (if b = true then
          ∃ g1, DagInv g0 g1 ∧ (∀ p, g1.isProcessing p = false) ∧
            (∀ u, g.isVisited u = true → g1.isVisited u = true) ∧
            ∀ v ∈ vs, g1.isVisited v = true
        else g0.HasCycle) := by
  induction vs with
  | nil =>
    intro g hinv _ hp _
    exact ⟨true, rfl, by simpa using ⟨g, hinv, hp, fun _ h => h⟩⟩
  | cons v vs ih =>
    intro g hinv hvs hp hk
    have hv : v ∈ g0.ids := hvs v (List.mem_cons_self _ _)
    have hvs1 : ∀ u ∈ vs, u ∈ g0.ids := fun u hu => hvs u (List.mem_cons_of_mem _ hu)
    obtain ⟨vx, hvx⟩ := find_of_skel hinv.1 hv
    have hvv : g.isVisited v = vx.visited := by simp [isVisited, hvx]
    simp only [isDAGLoop, hvx]
    by_cases hvis : vx.visited = true
    · simp only [hvis, Bool.not_true, Bool.false_eq_true, if_false]
      obtain ⟨b, h1, h2⟩ := ih g hinv hvs1 hp hk
      refine ⟨b, h1, ?_⟩
      cases b with
      | false => simpa using h2
      | true =>
        simp only [if_true] at h2 ⊢
        obtain ⟨g1, a1, a2, a3, a4⟩ := h2
        refine ⟨g1, a1, a2, a3, ?_⟩
        intro u hu
        rcases List.mem_cons.mp hu with rfl | hu1
        · exact a3 _ (hvv.trans hvis)
        · exact a4 u hu1
    · have hvis2 : vx.visited = false := by simpa using hvis
      simp only [hvis2, Bool.not_false, if_true]
      obtain ⟨g1, b, h1, h2, h3⟩ := dfsIsDAG_spec hw fuel g v hinv hv (hvv.trans hvis2) (hp v)
        (fun p hpp => by rw [hp p] at hpp; cases hpp) hk
      rw [h1]
      cases b with
      | false =>
        exact ⟨false, rfl, by simpa using dagPost_false.mp h2⟩
      | true =>
        obtain ⟨a1, a2, a3, a4⟩ := dagPost_true.mp h2
        obtain ⟨b, k1, k2⟩ := ih g1 a1 hvs1 (fun p => (a2 p).trans (hp p)) (le_trans a4 hk)
        refine ⟨b, k1, ?_⟩
        cases b with
        | false => simpa using k2
        | true =>
          simp only [if_true] at k2 ⊢
          obtain ⟨g2, b1, b2, b3, b4⟩ := k2
          refine ⟨g2, b1, b2, fun u hu => b3 u (a3 u hu), ?_⟩
          intro u hu
          rcases List.mem_cons.mp hu with rfl | hu1
          · exact b3 _ (h3 rfl)
          · exact b4 u hu1

theorem find_map_clear (f : Vertex T → Vertex T) (hf : ∀ x, (f x).info = x.info) (u : T) :
    ∀ l : List (Vertex T), (l.map f).find? (fun v => decide (v.info = u)) =
      (l.find? (fun v => decide (v.info = u))).map f := by
  intro l
  induction l with
  | nil => rfl
  | cons a t ih =>
    simp only [List.map_cons, List.find?_cons, hf]
    by_cases h : a.info = u
    · simp [h]
    · simp only [h, decide_False]
      exact ih

/-- The run of `isDAG` on a well-formed graph: it returns, and the value is
`true` exactly when the graph has no cycle. -/
theorem isDAG_run {g : Graph T} (hw : g.WellFormed) :
    ∃ b, g.isDAG = some b ∧ (b = true ↔ ¬ g.HasCycle) := by
  have hfind : ∀ u, (Graph.mk (g.vertexSet.map
      (fun v => { v with visited := false, processing := false }))).findVertex u =
        (g.findVertex u).map (fun v => { v with visited := false, processing := false }) :=
    fun u => find_map_clear _ (by intro; rfl) u g.vertexSet
  have hsk : (Graph.mk (g.vertexSet.map
      (fun v => { v with visited := false, processing := false }))).skel = g.skel := by
    simp [skel, List.map_map, Function.comp]
  have hvis : ∀ u, (Graph.mk (g.vertexSet.map
      (fun v => { v with visited := false, processing := false }))).isVisited u = false := by
    intro u
    unfold isVisited
    rw [hfind]
    cases g.findVertex u <;> rfl
  have hproc : ∀ u, (Graph.mk (g.vertexSet.map
      (fun v => { v with visited := false, processing := false }))).isProcessing u = false := by
    intro u
    unfold isProcessing
    rw [hfind]
    cases g.findVertex u <;> rfl
  have hinv : DagInv g (Graph.mk (g.vertexSet.map
      (fun v => { v with visited := false, processing := false }))) := by
    refine ⟨hsk, ?_, ?_⟩
    · intro u w hu
      rw [isDone_eq, hvis] at hu
      cases hu.1
    · intro u hu
      rw [isDone_eq, hvis] at hu
      cases hu.1
  obtain ⟨b, h1, h2⟩ := isDAGLoop_spec hw g.vertexSet.length g.ids
    _ hinv (fun v hv => hv) hproc (by
      unfold unvisited
      have := List.countP_le_length (fun x : Vertex T => !x.visited)
        (l := g.vertexSet.map (fun v => { v with visited := false, processing := false }))
      simpa using this)
  refine ⟨b, h1, ?_⟩
  cases b with
  | false =>
    simp only [Bool.false_eq_true, if_false] at h2
    simp [h2]
  | true =>
    simp only [if_true] at h2
    obtain ⟨g1, a1, a2, _, a4⟩ := h2
    simp only [true_iff]
    rintro ⟨v, hv⟩
    have hvi : v ∈ g.ids := transGen_left_mem hv
    exact a1.2.2 v (by rw [isDone_eq]; exact ⟨a4 v hvi, a2 v⟩) hv

end Graph

/-! ## `dfs` -/

namespace Graph

variable {T : Type} [DecidableEq T]

theorem dfsVisitEdges_spec {g0 : Graph T}
    {visit : Graph T → T → List T → Option (Graph T × List T)} {k : Nat}
    (hvisit : DfsVisitSpec g0 visit k) (es : List (Edge T)) :
    ∀ (g : Graph T) (res : List T), DfsInv g0 g res → (∀ e ∈ es, e.dest ∈ g0.ids) →
      g.unvisited ≤ k →
      ∃ g1 res1, dfsVisitEdges visit es g res = some (g1, res1) ∧ DfsInv g0 g1 res1 ∧
        (∃ t, res1 = res ++ t) ∧ g1.unvisited ≤ g.unvisited := by
  induction es with
  | nil =>
    intro g res hinv _ _
    exact ⟨g, res, rfl, hinv, ⟨[], by simp⟩, le_refl _⟩
  | cons e es ih =>
    intro g res hinv hes hk
    have hd : e.dest ∈ g0.ids := hes e (List.mem_cons_self _ _)
    have hes1 : ∀ e1 ∈ es, e1.dest ∈ g0.ids := fun e1 he1 => hes e1 (List.mem_cons_of_mem _ he1)
    obtain ⟨w, hwf⟩ := find_of_skel hinv.1 hd
    have hwv : g.isVisited e.dest = w.visited := by simp [isVisited, hwf]
    simp only [dfsVisitEdges, hwf]
    by_cases hv : w.visited = true
    · simp only [hv, Bool.not_true, Bool.false_eq_true, if_false]
      exact ih g res hinv hes1 hk
    · have hv2 : w.visited = false := by simpa using hv
      simp only [hv2, Bool.not_false, if_true]
      obtain ⟨g1, res1, h1, h2, ⟨t, h3⟩, h4⟩ := hvisit g e.dest res hinv hd (hwv.trans hv2) hk
      rw [h1]
      obtain ⟨g2, res2, k1, k2, ⟨t2, k3⟩, k4⟩ := ih g1 res1 h2 hes1 (le_trans h4 hk)
      refine ⟨g2, res2, k1, k2, ⟨e.dest :: t ++ t2, ?_⟩, le_trans k4 h4⟩
      rw [k3, h3]
      simp

theorem dfsVisit_spec {g0 : Graph T} (hw : g0.WellFormed) :
    ∀ fuel : Nat, DfsVisitSpec g0 (dfsVisit fuel) fuel := by
  intro fuel
  induction fuel with
  | zero =>
    intro g v res hinv hv hvis hk
    have := unvisited_pos g (by rw [ids_of_skel hinv.1]; exact hv) hvis
    omega
  | succ fuel ih =>
    intro g v res hinv hv hvis hk
    obtain ⟨hsk, hnd, hmem⟩ := hinv
    obtain ⟨vx, hvx⟩ := find_of_skel hsk hv
    have hvxv : vx.visited = false := by simpa [isVisited, hvx] using hvis
    have hvi : vx.info = v := findVertex_info hvx
    have hlt := unvisited_setVisited_lt g hvx hvxv
    have hvres : v ∉ res := by
      intro hc
      rw [(hmem v).mp hc] at hvis
      cases hvis
    have hinv1 : DfsInv g0 (g.modify v (fun x => { x with visited := true })) (res ++ [v]) := by
      refine ⟨(skel_modify g v (by intro; rfl) (by intro; rfl)).trans hsk, ?_, ?_⟩
      · rw [List.nodup_append]
        refine ⟨hnd, List.nodup_singleton _, ?_⟩
        intro a ha hb
        rw [List.mem_singleton] at hb
        exact hvres (hb ▸ ha)
      · intro u
        rw [isVisited_setVisited g hvx, List.mem_append, List.mem_singleton, hmem u]
        by_cases h : u = v
        · simp [h]
        · simp [h]
    have hes : ∀ e ∈ vx.adj, e.dest ∈ g0.ids := by
      obtain ⟨x0, hx0, _, hx0a⟩ := skel_find hsk hvx
      intro e he
      rw [← hx0a] at he
      exact hw.2 x0 hx0 e he
    obtain ⟨g1, res1, h1, h2, ⟨t, h3⟩, h4⟩ :=
      dfsVisitEdges_spec ih vx.adj _ (res ++ [v]) hinv1 hes (by omega)
    refine ⟨g1, res1, ?_, h2, ⟨t, ?_⟩, by omega⟩
    · simp only [dfsVisit, hvx, hvi]
      exact h1
    · rw [h3]
      simp

theorem dfsLoop_spec {g0 : Graph T} (hw : g0.WellFormed) (fuel : Nat) (vs : List T) :
    ∀ (g : Graph T) (res : List T), DfsInv g0 g res → (∀ v ∈ vs, v ∈ g0.ids) →
      g.unvisited ≤ fuel →
      ∃ out g1, dfsLoop fuel vs g res = some out ∧ DfsInv g0 g1 out ∧ (∃ t, out = res ++ t) ∧
        (∀ v ∈ vs, v ∈ out) ∧
        (∀ v vs1, vs = v :: vs1 → g.isVisited v = false → ∃ t, out = res ++ v :: t) := by
  induction vs with
  | nil =>
    intro g res hinv _ _
    exact ⟨res, g, rfl, hinv, ⟨[], by simp⟩, fun v hv => (by cases hv),
      fun v vs1 h => (by cases h)⟩
  | cons v vs ih =>
    intro g res hinv hvs hk
    have hv : v ∈ g0.ids := hvs v (List.mem_cons_self _ _)
    have hvs1 : ∀ u ∈ vs, u ∈ g0.ids := fun u hu => hvs u (List.mem_cons_of_mem _ hu)
    obtain ⟨vx, hvx⟩ := find_of_skel hinv.1 hv
    have hvv : g.isVisited v = vx.visited := by simp [isVisited, hvx]
    simp only [dfsLoop, hvx]
    by_cases hvis : vx.visited = true
    · simp only [hvis, Bool.not_true, Bool.false_eq_true, if_false]
      obtain ⟨out, g1, h1, h2, ⟨t, h3⟩, h4, _⟩ := ih g res hinv hvs1 hk
      refine ⟨out, g1, h1, h2, ⟨t, h3⟩, ?_, ?_⟩
      · intro u hu
        rcases List.mem_cons.mp hu with rfl | hu1
        · rw [h3]
          exact List.mem_append_left _ ((hinv.2.2 _).mpr (hvv.trans hvis))
        · exact h4 u hu1
      · intro v1 vs1 he hc
        cases he
        rw [hvv, hvis] at hc
        cases hc
    · have hvis2 : vx.visited = false := by simpa using hvis
      simp only [hvis2, Bool.not_false, if_true]
      obtain ⟨g1, res1, h1, h2, ⟨t, h3⟩, h4⟩ :=
        dfsVisit_spec hw fuel g v res hinv hv (hvv.trans hvis2) hk
      rw [h1]
      obtain ⟨out, g2, k1, k2, ⟨t2, k3⟩, k4, _⟩ := ih g1 res1 h2 hvs1 (le_trans h4 hk)
      refine ⟨out, g2, k1, k2, ⟨v :: t ++ t2, by rw [k3, h3]; simp⟩, ?_, ?_⟩
      · intro u hu
        rcases List.mem_cons.mp hu with rfl | hu1
        · rw [k3, h3]
          simp
        · exact k4 u hu1
      · intro v1 vs1 he _
        cases he
        exact ⟨t ++ t2, by rw [k3, h3]; simp⟩

/-- The run of `dfs` on a well-formed graph. -/
theorem dfs_run {g : Graph T} (hw : g.WellFormed) :
    ∃ res, g.dfs = some res ∧ res.Perm g.ids ∧ res.head? = g.ids.head? := by
  have hfind : ∀ u, (Graph.mk (g.vertexSet.map (fun v => { v with visited := false }))).findVertex u =
      (g.findVertex u).map (fun v => { v with visited := false }) :=
    fun u => find_map_clear _ (by intro; rfl) u g.vertexSet
  have hsk : (Graph.mk (g.vertexSet.map (fun v => { v with visited := false }))).skel = g.skel := by
    simp [skel, List.map_map, Function.comp]
  have hvis : ∀ u, (Graph.mk (g.vertexSet.map (fun v => { v with visited := false }))).isVisited u
      = false := by
    intro u
    unfold isVisited
    rw [hfind]
    cases g.findVertex u <;> rfl
  have hinv : DfsInv g (Graph.mk (g.vertexSet.map (fun v => { v with visited := false }))) [] := by
    refine ⟨hsk, List.nodup_nil, ?_⟩
    intro u
    rw [hvis]
    simp
  obtain ⟨out, g1, h1, h2, _, h4, h5⟩ := dfsLoop_spec hw g.vertexSet.length g.ids _ [] hinv
    (fun v hv => hv) (by
      unfold unvisited
      have := List.countP_le_length (fun x : Vertex T => !x.visited)
        (l := g.vertexSet.map (fun v => { v with visited := false }))
      simpa using this)
  have hsub : ∀ u ∈ out, u ∈ g.ids := by
    intro u hu
    have hv := (h2.2.2 u).mp hu
    by_contra hc
    rw [← ids_of_skel h2.1] at hc
    simp [isVisited, findVertex_eq_none.mpr hc] at hv
  refine ⟨out, h1, ?_, ?_⟩
  · apply (List.subperm_of_subset h2.2.1 (fun u hu => hsub u hu)).perm_of_length_le
    exact (List.subperm_of_subset hw.1 (fun u hu => h4 u hu)).length_le
  · cases hids : g.ids with
    | nil =>
      have : out = [] := by
        cases out with
        | nil => rfl
        | cons a t =>
          have := hsub a (List.mem_cons_self _ _)
          rw [hids] at this
          cases this
      rw [this]
    | cons v vs1 =>
      obtain ⟨t, ht⟩ := h5 v vs1 hids (hvis v)
      rw [ht]
      rfl

end Graph

/-! ## `bfs` -/

namespace Graph

variable {T : Type} [DecidableEq T]

theorem visited_mem_ids {g0 g : Graph T} (hsk : g.skel = g0.skel) {u : T}
    (h : g.isVisited u = true) : u ∈ g0.ids := by
  by_contra hc
  rw [← ids_of_skel hsk] at hc
  simp [isVisited, findVertex_eq_none.mpr hc] at h

theorem bfs_length_le {g0 g : Graph T} {s : T} {done L : List T}
    (h : BfsInv g0 s g done L) : L.length ≤ g0.vertexSet.length := by
  obtain ⟨hsk, hnd, hvis, _⟩ := h
  have := (List.subperm_of_subset hnd
    (fun u hu => visited_mem_ids hsk ((hvis u).mp hu))).length_le
  simpa [ids] using this

theorem head_append_singleton {l : List T} {s w : T} (h : l.head? = some s) :
    (l ++ [w]).head? = some s := by
  cases l with
  | nil => cases h
  | cons a t => simpa using h

theorem bfsEdges_spec {g0 : Graph T} (hw : g0.WellFormed) (s v : T) (done : List T)
    (es : List (Edge T)) :
    ∀ (g : Graph T) (q : List T), BfsInv g0 s g done (done ++ v :: q) →
      (∀ e ∈ es, g0.Adj v e.dest) →
      ∃ g1 q1, bfsEdges es g q = some (g1, q1) ∧ BfsInv g0 s g1 done (done ++ v :: q1) ∧
        (∀ e ∈ es, e.dest ∈ done ++ v :: q1) ∧ (∃ t, q1 = q ++ t) := by
  induction es with
  | nil =>
    intro g q h _
    exact ⟨g, q, rfl, h, fun e he => (by cases he), ⟨[], by simp⟩⟩
  | cons e es ih =>
    intro g q hinv hes
    have hadj : g0.Adj v e.dest := hes e (List.mem_cons_self _ _)
    have hes1 : ∀ e1 ∈ es, g0.Adj v e1.dest := fun e1 he1 => hes e1 (List.mem_cons_of_mem _ he1)
    have hd : e.dest ∈ g0.ids := adj_right_mem hw hadj
    obtain ⟨hsk, hnd, hvis, hreach, hclosed, hhead⟩ := hinv
    obtain ⟨w, hwf⟩ := find_of_skel hsk hd
    have hwv : g.isVisited e.dest = w.visited := by simp [isVisited, hwf]
    simp only [bfsEdges, hwf]
    by_cases hv : w.visited = true
    · simp only [hv, Bool.not_true, Bool.false_eq_true, if_false]
      obtain ⟨g1, q1, h1, h2, h3, ⟨t, h4⟩⟩ := ih g q ⟨hsk, hnd, hvis, hreach, hclosed, hhead⟩ hes1
      refine ⟨g1, q1, h1, h2, ?_, ⟨t, h4⟩⟩
      intro e1 he1
      rcases List.mem_cons.mp he1 with rfl | he2
      · have hm : e1.dest ∈ done ++ v :: q := (hvis _).mpr (hwv.trans hv)
        rw [h4]
        rcases List.mem_append.mp hm with h | h
        · exact List.mem_append_left _ h
        · apply List.mem_append_right
          rcases List.mem_cons.mp h with h | h
          · rw [h]
            exact List.mem_cons_self _ _
          · exact List.mem_cons_of_mem _ (List.mem_append_left _ h)
      · exact h3 e1 he2
    · have hv2 : w.visited = false := by simpa using hv
      simp only [hv2, Bool.not_false, if_true]
      have hnotL : e.dest ∉ done ++ v :: q := by
        intro hc
        rw [(hvis _).mp hc] at hwv
        rw [← hwv] at hv2
        cases hv2
      have hLeq : done ++ v :: (q ++ [e.dest]) = (done ++ v :: q) ++ [e.dest] := by simp
      have hvL : v ∈ done ++ v :: q := by simp
      have hinv1 : BfsInv g0 s (g.modify e.dest (fun x => { x with visited := true })) done
          (done ++ v :: (q ++ [e.dest])) := by
        rw [hLeq]
        refine ⟨(skel_modify g e.dest (by intro; rfl) (by intro; rfl)).trans hsk, ?_, ?_, ?_,
          ?_, head_append_singleton hhead⟩
        · rw [List.nodup_append]
          refine ⟨hnd, List.nodup_singleton _, ?_⟩
          intro a ha hb
          rw [List.mem_singleton] at hb
          exact hnotL (hb ▸ ha)
        · intro u
          rw [isVisited_setVisited g hwf, List.mem_append, List.mem_singleton, hvis u]
          by_cases h : u = e.dest
          · simp [h]
          · simp [h]
        · intro u hu
          rcases List.mem_append.mp hu with h | h
          · exact hreach u h
          · rw [List.mem_singleton] at h
            rw [h]
            exact Relation.ReflTransGen.tail (hreach v hvL) hadj
        · intro u hu w1 hadj1
          exact List.mem_append_left _ (hclosed u hu w1 hadj1)
      obtain ⟨g1, q1, h1, h2, h3, ⟨t, h4⟩⟩ := ih _ (q ++ [e.dest]) hinv1 hes1
      refine ⟨g1, q1, h1, h2, ?_, ⟨e.dest :: t, by rw [h4]; simp⟩⟩
      intro e1 he1
      rcases List.mem_cons.mp he1 with rfl | he2
      · rw [h4]
        simp
      · exact h3 e1 he2

theorem bfsLoop_spec {g0 : Graph T} (hw : g0.WellFormed) (s : T) :
    ∀ (fuel : Nat) (g : Graph T) (q res : List T), BfsInv g0 s g res (res ++ q) →
      g0.vertexSet.length + 1 ≤ fuel + res.length →
      ∃ out g1, bfsLoop fuel g q res = some out ∧ BfsInv g0 s g1 out out := by
  intro fuel
  induction fuel with
  | zero =>
    intro g q res h hf
    have := bfs_length_le h
    simp at this hf
    omega
  | succ fuel ih =>
    intro g q res h hf
    cases q with
    | nil =>
      refine ⟨res, g, rfl, ?_⟩
      simpa using h
    | cons v q1 =>
      have hlen := bfs_length_le h
      have hsk := h.1
      have hv : v ∈ g0.ids := visited_mem_ids hsk ((h.2.2.1 v).mp (by simp))
      obtain ⟨vx, hvx⟩ := find_of_skel hsk hv
      have hwg : g.WellFormed := wellFormed_of_skel hsk hw
      have hvi : vx.info = v := findVertex_info hvx
      have hes : ∀ e ∈ vx.adj, g0.Adj v e.dest := by
        intro e he
        rw [← adj_of_skel hsk]
        exact (adj_iff_of_find hwg hvx e.dest).mpr ⟨e, he, rfl⟩
      obtain ⟨g1, q2, h1, h2, h3, _⟩ := bfsEdges_spec hw s v res vx.adj g q1 h hes
      have hLeq : (res ++ [v]) ++ q2 = res ++ v :: q2 := by simp
      have hinv2 : BfsInv g0 s g1 (res ++ [v]) ((res ++ [v]) ++ q2) := by
        rw [hLeq]
        obtain ⟨a1, a2, a3, a4, a5, a6⟩ := h2
        refine ⟨a1, a2, a3, a4, ?_, a6⟩
        intro u hu w1 hadj1
        rcases List.mem_append.mp hu with h | h
        · exact a5 u h w1 hadj1
        · rw [List.mem_singleton] at h
          subst h
          rw [← adj_of_skel hsk] at hadj1
          obtain ⟨e, he, hde⟩ := (adj_iff_of_find hwg hvx w1).mp hadj1
          rw [← hde]
          exact h3 e he
      obtain ⟨out, g2, h4, h5⟩ := ih g1 q2 (res ++ [v]) hinv2 (by
        simp at hlen ⊢
        omega)
      refine ⟨out, g2, ?_, h5⟩
      simp only [bfsLoop, hvx, h1, hvi]
      exact h4

/-- The run of `bfs` from a vertex of a well-formed graph. -/
theorem bfs_run {g : Graph T} (hw : g.WellFormed) {s : T} (hs : s ∈ g.ids) :
    ∃ res, g.bfs s = some res ∧ res.head? = some s ∧ res.Nodup ∧
      ∀ u, u ∈ res ↔ g.Reachable s u := by
  obtain ⟨sx, hsx⟩ := findVertex_of_mem_ids hs
  have hfind : ∀ u, (Graph.mk (g.vertexSet.map (fun v => { v with visited := false }))).findVertex u =
      (g.findVertex u).map (fun v => { v with visited := false }) :=
    fun u => find_map_clear _ (by intro; rfl) u g.vertexSet
  have hsk : (Graph.mk (g.vertexSet.map (fun v => { v with visited := false }))).skel = g.skel := by
    simp [skel, List.map_map, Function.comp]
  have hvis : ∀ u, (Graph.mk (g.vertexSet.map (fun v => { v with visited := false }))).isVisited u
      = false := by
    intro u
    unfold isVisited
    rw [hfind]
    cases g.findVertex u <;> rfl
  have hfs : (Graph.mk (g.vertexSet.map (fun v => { v with visited := false }))).findVertex s =
      some { sx with visited := false } := by
    rw [hfind, hsx]
    rfl
  have hinv : BfsInv g s ((Graph.mk (g.vertexSet.map (fun v => { v with visited := false }))).modify
      s (fun x => { x with visited := true })) [] ([] ++ [s]) := by
    refine ⟨(skel_modify _ s (by intro; rfl) (by intro; rfl)).trans hsk, by simp, ?_, ?_, ?_, rfl⟩
    · intro u
      rw [isVisited_setVisited _ hfs, hvis]
      by_cases h : u = s
      · simp [h]
      · simp [h]
    · intro u hu
      simp at hu
      rw [hu]
      exact Relation.ReflTransGen.refl
    · intro u hu
      cases hu
  obtain ⟨out, g1, h1, h2⟩ := bfsLoop_spec hw s (g.vertexSet.length + 1) _ [s] [] hinv (by simp)
  obtain ⟨a1, a2, a3, a4, a5, a6⟩ := h2
  refine ⟨out, ?_, a6, a2, ?_⟩
  · simp only [bfs, hsx]
    exact h1
  · intro u
    constructor
    · exact a4 u
    · intro hr
      induction hr with
      | refl =>
        cases out with
        | nil => cases a6
        | cons a t =>
          simp at a6
          rw [a6]
          exact List.mem_cons_self _ _
      | tail _ hbc ih => exact a5 _ ih _ hbc

theorem bfs_absent {g : Graph T} {s : T} (hs : s ∉ g.ids) : g.bfs s = some [] := by
  simp only [bfs, findVertex_eq_none.mpr hs]

end Graph

/-! ## `dist` and `path` under pointer assignment -/

namespace Graph

variable {T : Type} [DecidableEq T]

theorem getDist_modify (g : Graph T) (p u : T) (f : Vertex T → Vertex T)
    (hf : ∀ x, (f x).info = x.info) :
    (g.modify p f).getDist u =
      if u = p then (match g.findVertex u with | some x => (f x).dist | none => 0)
      else g.getDist u := by
  unfold getDist
  rw [findVertex_modify g p u hf]
  by_cases h : u = p
  · simp only [h, if_true]
    cases g.findVertex p <;> rfl
  · simp only [h, if_false]

theorem pathOf_modify (g : Graph T) (p u : T) (f : Vertex T → Vertex T)
    (hf : ∀ x, (f x).info = x.info) :
    (g.modify p f).pathOf u =
      if u = p then (g.findVertex u).bind (fun x => (f x).path) else g.pathOf u := by
  unfold pathOf
  rw [findVertex_modify g p u hf]
  by_cases h : u = p
  · simp only [h, if_true]
    cases g.findVertex p <;> rfl
  · simp only [h, if_false]

theorem getDist_setDist (g : Graph T) {p : T} {x : Vertex T} (hx : g.findVertex p = some x)
    (d : ℚ) (u : T) :
    (g.modify p (fun y => { y with dist := d })).getDist u = if u = p then d else g.getDist u := by
  rw [getDist_modify g p u _ (by intro; rfl)]
  by_cases h : u = p
  · subst h
    simp [hx]
  · simp [h]

theorem getDist_setPath (g : Graph T) (p : T) (r : Option T) (u : T) :
    (g.modify p (fun y => { y with path := r })).getDist u = g.getDist u := by
  rw [getDist_modify g p u _ (by intro; rfl)]
  by_cases h : u = p
  · subst h
    simp only [if_true, getDist]
  · simp [h]

theorem getDist_setProcessing (g : Graph T) (p : T) (b : Bool) (u : T) :
    (g.modify p (fun y => { y with processing := b })).getDist u = g.getDist u := by
  rw [getDist_modify g p u _ (by intro; rfl)]
  by_cases h : u = p
  · subst h
    simp only [if_true, getDist]
  · simp [h]

theorem pathOf_setPath (g : Graph T) {p : T} {x : Vertex T} (hx : g.findVertex p = some x)
    (r : Option T) (u : T) :
    (g.modify p (fun y => { y with path := r })).pathOf u = if u = p then r else g.pathOf u := by
  rw [pathOf_modify g p u _ (by intro; rfl)]
  by_cases h : u = p
  · subst h
    simp [hx]
  · simp [h]

theorem pathOf_setDist (g : Graph T) (p : T) (d : ℚ) (u : T) :
    (g.modify p (fun y => { y with dist := d })).pathOf u = g.pathOf u := by
  rw [pathOf_modify g p u _ (by intro; rfl)]
  by_cases h : u = p
  · subst h
    simp only [if_true, pathOf]
  · simp [h]

theorem pathOf_setProcessing (g : Graph T) (p : T) (b : Bool) (u : T) :
    (g.modify p (fun y => { y with processing := b })).pathOf u = g.pathOf u := by
  rw [pathOf_modify g p u _ (by intro; rfl)]
  by_cases h : u = p
  · subst h
    simp only [if_true, pathOf]
  · simp [h]

theorem distOf_eq_getDist {g : Graph T} {u : T} (hu : u ∈ g.ids) :
    g.distOf u = some (g.getDist u) := by
  obtain ⟨x, hx⟩ := findVertex_of_mem_ids hu
  simp [distOf, getDist, hx]

theorem usp_length_le {g0 g : Graph T} {s c : T} {done L : List T}
    (h : UspInv g0 s g done L c) : L.length ≤ g0.vertexSet.length := by
  obtain ⟨_, hnd, _, _, _, hsub, _⟩ := h
  have := (List.subperm_of_subset hnd (fun u hu => hsub u hu)).length_le
  simpa [ids] using this

theorem length_lt_of_not_mem {l1 l2 : List T} (hnd : l1.Nodup) (hsub : ∀ u ∈ l1, u ∈ l2)
    {w : T} (hw : w ∈ l2) (hn : w ∉ l1) : l1.length < l2.length := by
  have hnd2 : (w :: l1).Nodup := List.nodup_cons.mpr ⟨hn, hnd⟩
  have := (List.subperm_of_subset hnd2 (fun u hu => by
    rcases List.mem_cons.mp hu with h | h
    · rw [h]; exact hw
    · exact hsub u h)).length_le
  simpa using this

end Graph

/-! ## `unweightedShortestPath`: the loops -/

namespace Graph

variable {T : Type} [DecidableEq T]

theorem int_infinity_cast : ((INT_INFINITY : Int) : ℚ) = 2147483647 := by
  simp [INT_INFINITY]

theorem unweightedEdges_spec {g0 : Graph T} (hw : g0.WellFormed)
    (hn : g0.vertexSet.length ≤ 2147483647) (s v : T) (done : List T) (es : List (Edge T)) :
    ∀ (g : Graph T) (q : List T), UspInv g0 s g done (done ++ v :: q) v →
      (∀ e ∈ es, g0.Adj v e.dest) →
      ∃ g1 q1, unweightedEdges v es g q = some (g1, q1) ∧
        UspInv g0 s g1 done (done ++ v :: q1) v ∧
        (∀ e ∈ es, e.dest ∈ done ++ v :: q1) ∧ (∃ t, q1 = q ++ t) := by
  induction es with
  | nil =>
    intro g q h _
    exact ⟨g, q, rfl, h, fun e he => (by cases he), ⟨[], by simp⟩⟩
  | cons e es ih =>
    intro g q hinv hes
    have hadj : g0.Adj v e.dest := hes e (List.mem_cons_self _ _)
    have hes1 : ∀ e1 ∈ es, g0.Adj v e1.dest := fun e1 he1 => hes e1 (List.mem_cons_of_mem _ he1)
    have hd : e.dest ∈ g0.ids := adj_right_mem hw hadj
    have hlen := usp_length_le hinv
    obtain ⟨hsk, hnd, hhead, hs0, hiff, hsub, hwalk, hpw, hbound, hclosed, hpn, hpp⟩ := hinv
    have hvL : v ∈ done ++ v :: q := by simp
    obtain ⟨w, hwf⟩ := find_of_skel hsk hd
    obtain ⟨vx, hvx⟩ := find_of_skel hsk (hsub v hvL)
    have hwd : g.getDist e.dest = w.dist := by simp [getDist, hwf]
    have hvd : g.getDist v = vx.dist := by simp [getDist, hvx]
    simp only [unweightedEdges, hwf, hvx]
    by_cases hinf : w.dist = (INT_INFINITY : ℚ)
    · rw [if_pos hinf]
      have hnotL : e.dest ∉ done ++ v :: q := by
        intro hc
        exact (hiff _ hd).mp hc (hwd.trans hinf)
      have hsL : s ∈ done ++ v :: q := by
        cases hL : done ++ v :: q with
        | nil => rw [hL] at hhead; cases hhead
        | cons a t =>
          rw [hL] at hhead
          simp at hhead
          rw [hhead]
          exact List.mem_cons_self _ _
      have hne : ∀ u ∈ done ++ v :: q, u ≠ e.dest := fun u hu hc => hnotL (hc ▸ hu)
      have hfa : (g.modify e.dest (fun x => { x with dist := vx.dist + 1 })).findVertex e.dest =
          some { w with dist := vx.dist + 1 } := by
        rw [findVertex_modify_self g e.dest (by intro; rfl), hwf]
        rfl
      have hD : ∀ u, ((g.modify e.dest (fun x => { x with dist := vx.dist + 1 })).modify e.dest
          (fun x => { x with path := some v })).getDist u =
            if u = e.dest then g.getDist v + 1 else g.getDist u := by
        intro u
        rw [getDist_setPath, getDist_setDist g hwf, hvd]
      have hP : ∀ u, ((g.modify e.dest (fun x => { x with dist := vx.dist + 1 })).modify e.dest
          (fun x => { x with path := some v })).pathOf u =
            if u = e.dest then some v else g.pathOf u := by
        intro u
        rw [pathOf_setPath _ hfa, pathOf_setDist]
      have hDL : ∀ u ∈ done ++ v :: q, ((g.modify e.dest
          (fun x => { x with dist := vx.dist + 1 })).modify e.dest
          (fun x => { x with path := some v })).getDist u = g.getDist u := by
        intro u hu
        rw [hD, if_neg (hne u hu)]
      have hDw : ((g.modify e.dest (fun x => { x with dist := vx.dist + 1 })).modify e.dest
          (fun x => { x with path := some v })).getDist e.dest = g.getDist v + 1 := by
        rw [hD, if_pos rfl]
      obtain ⟨kv, hkv1, hkv2, hkv3⟩ := hwalk v hvL
      have hLlt : (done ++ v :: q).length < g0.ids.length :=
        length_lt_of_not_mem hnd hsub hd hnotL
      have hLeq : done ++ v :: (q ++ [e.dest]) = (done ++ v :: q) ++ [e.dest] := by simp
      have hinv1 : UspInv g0 s ((g.modify e.dest (fun x => { x with dist := vx.dist + 1 })).modify
          e.dest (fun x => { x with path := some v })) done (done ++ v :: (q ++ [e.dest])) v := by
        rw [hLeq]
        refine ⟨?_, ?_, head_append_singleton hhead, ?_, ?_, ?_, ?_, ?_, ?_, ?_, ?_, ?_⟩
        · exact (skel_modify _ e.dest (by intro; rfl) (by intro; rfl)).trans
            ((skel_modify g e.dest (by intro; rfl) (by intro; rfl)).trans hsk)
        · rw [List.nodup_append]
          refine ⟨hnd, List.nodup_singleton _, ?_⟩
          intro a ha hb
          rw [List.mem_singleton] at hb
          exact hnotL (hb ▸ ha)
        · rw [hDL s hsL]
          exact hs0
        · intro u hu
          rw [List.mem_append, List.mem_singleton, hD]
          by_cases h : u = e.dest
          · subst h
            simp only [or_true, if_true, true_iff]
            rw [hkv1, int_infinity_cast]
            intro hc
            have h2 : kv + 1 = 2147483647 := by exact_mod_cast hc
            simp only [ids, List.length_map] at hLlt
            omega
          · simp only [h, or_false, if_false]
            exact hiff u hu
        · intro u hu
          rcases List.mem_append.mp hu with h | h
          · exact hsub u h
          · rw [List.mem_singleton] at h
            exact h ▸ hd
        · intro u hu
          rcases List.mem_append.mp hu with h | h
          · obtain ⟨k, hk1, hk2, hk3⟩ := hwalk u h
            refine ⟨k, ?_, hk2, ?_⟩
            · rw [hDL u h]
              exact hk1
            · simp at hk3 ⊢
              omega
          · rw [List.mem_singleton] at h
            subst h
            refine ⟨kv + 1, ?_, Walk.snoc hkv2 hadj, ?_⟩
            · rw [hDw, hkv1]
              push_cast
              rfl
            · simp at hkv3 ⊢
              omega
        · rw [List.pairwise_append]
          refine ⟨?_, List.pairwise_singleton _ _, ?_⟩
          · refine List.Pairwise.imp_of_mem ?_ hpw
            intro a b ha hb hab
            rw [hDL a ha, hDL b hb]
            exact hab
          · intro a ha b hb
            rw [List.mem_singleton] at hb
            subst hb
            rw [hDL a ha, hDw]
            exact hbound a ha
        · intro u hu
          rw [hDL v hvL]
          rcases List.mem_append.mp hu with h | h
          · rw [hDL u h]
            exact hbound u h
          · rw [List.mem_singleton] at h
            subst h
            rw [hDw]
        · intro u hu w1 hadj1
          obtain ⟨h1, h2⟩ := hclosed u hu w1 hadj1
          refine ⟨List.mem_append_left _ h1, ?_⟩
          rw [hDL w1 h1, hDL u (List.mem_append_left _ hu)]
          exact h2
        · intro u hu
          have hune : u ≠ e.dest := by
            rcases hu with h | h
            · intro hc
              apply h
              rw [hc]
              simp
            · rw [h]
              exact hne s hsL
          rw [hP, if_neg hune]
          apply hpn
          rcases hu with h | h
          · left
            intro hc
            exact h (List.mem_append_left _ hc)
          · right
            exact h
        · intro u hu hus
          rcases List.mem_append.mp hu with h | h
          · obtain ⟨p, hp1, hp2, hp3, hp4⟩ := hpp u h hus
            refine ⟨p, List.mem_append_left _ hp1, ?_, hp3, ?_⟩
            · rw [hP, if_neg (hne u h)]
              exact hp2
            · rw [hDL u h, hDL p hp1]
              exact hp4
          · rw [List.mem_singleton] at h
            subst h
            refine ⟨v, List.mem_append_left _ hvL, ?_, hadj, ?_⟩
            · rw [hP, if_pos rfl]
            · rw [hDw, hDL v hvL]
      obtain ⟨g1, q1, h1, h2, h3, ⟨t, h4⟩⟩ := ih _ (q ++ [e.dest]) hinv1 hes1
      refine ⟨g1, q1, h1, h2, ?_, ⟨e.dest :: t, by rw [h4]; simp⟩⟩
      intro e1 he1
      rcases List.mem_cons.mp he1 with rfl | he2
      · rw [h4]
        simp
      · exact h3 e1 he2
    · rw [if_neg hinf]
      have hin : e.dest ∈ done ++ v :: q := by
        apply (hiff _ hd).mpr
        rw [hwd]
        exact hinf
      obtain ⟨g1, q1, h1, h2, h3, ⟨t, h4⟩⟩ := ih g q
        ⟨hsk, hnd, hhead, hs0, hiff, hsub, hwalk, hpw, hbound, hclosed, hpn, hpp⟩ hes1
      refine ⟨g1, q1, h1, h2, ?_, ⟨t, h4⟩⟩
      intro e1 he1
      rcases List.mem_cons.mp he1 with rfl | he2
      · rw [h4]
        rcases List.mem_append.mp hin with h | h
        · exact List.mem_append_left _ h
        · apply List.mem_append_right
          rcases List.mem_cons.mp h with h | h
          · rw [h]
            exact List.mem_cons_self _ _
          · exact List.mem_cons_of_mem _ (List.mem_append_left _ h)
      · exact h3 e1 he2

end Graph

/-! ## `unweightedShortestPath`: the result, and `getPath` after it -/

namespace Graph

variable {T : Type} [DecidableEq T]

theorem unweightedLoop_spec {g0 : Graph T} (hw : g0.WellFormed)
    (hn : g0.vertexSet.length ≤ 2147483647) (s : T) :
    ∀ (fuel : Nat) (g : Graph T) (q done : List T) (c : T),
      UspInv g0 s g done (done ++ q) c → (∀ v q1, q = v :: q1 → c = v) →
      g0.vertexSet.length + 1 ≤ fuel + done.length →
      ∃ g1 out c1, unweightedLoop fuel g q = some g1 ∧ UspInv g0 s g1 out out c1 := by
  intro fuel
  induction fuel with
  | zero =>
    intro g q done c h _ hf
    have := usp_length_le h
    simp at this hf
    omega
  | succ fuel ih =>
    intro g q done c h hc hf
    cases q with
    | nil =>
      refine ⟨g, done, c, rfl, ?_⟩
      simpa using h
    | cons v q1 =>
      have hcv : c = v := hc v q1 rfl
      subst hcv
      have hlen := usp_length_le h
      have hsk := h.1
      have hv : c ∈ g0.ids := h.2.2.2.2.2.1 c (by simp)
      obtain ⟨vx, hvx⟩ := find_of_skel hsk hv
      have hwg : g.WellFormed := wellFormed_of_skel hsk hw
      have hes : ∀ e ∈ vx.adj, g0.Adj c e.dest := by
        intro e he
        rw [← adj_of_skel hsk]
        exact (adj_iff_of_find hwg hvx e.dest).mpr ⟨e, he, rfl⟩
      obtain ⟨g1, q2, h1, h2, h3, _⟩ := unweightedEdges_spec hw hn s c done vx.adj g q1 h hes
      have hLeq : (done ++ [c]) ++ q2 = done ++ c :: q2 := by simp
      obtain ⟨a1, a2, a3, a4, a5, a6, a7, a8, a9, a10, a11, a12⟩ := h2
      have hinv2 : UspInv g0 s g1 (done ++ [c]) ((done ++ [c]) ++ q2) (q2.head?.getD c) := by
        rw [hLeq]
        refine ⟨a1, a2, a3, a4, a5, a6, a7, a8, ?_, ?_, a11, a12⟩
        · intro u hu
          cases q2 with
          | nil => exact a9 u hu
          | cons c2 q3 =>
            simp only [List.head?_cons, Option.getD_some]
            have h5 : g1.getDist c ≤ g1.getDist c2 := by
              rw [List.pairwise_append] at a8
              have := a8.2.1
              rw [List.pairwise_cons] at this
              exact this.1 c2 (List.mem_cons_self _ _)
            have := a9 u hu
            linarith
        · intro u hu w1 hadj1
          rcases List.mem_append.mp hu with h | h
          · exact a10 u h w1 hadj1
          · rw [List.mem_singleton] at h
            subst h
            rw [← adj_of_skel hsk] at hadj1
            obtain ⟨e, he, hde⟩ := (adj_iff_of_find hwg hvx w1).mp hadj1
            rw [← hde]
            exact ⟨h3 e he, a9 _ (h3 e he)⟩
      obtain ⟨g2, out, c1, h4, h5⟩ := ih g1 q2 (done ++ [c]) (q2.head?.getD c) hinv2
        (by intro v2 q3 hq; rw [hq]; rfl)
        (by
          simp at hlen ⊢
          omega)
      refine ⟨g2, out, c1, ?_, h5⟩
      simp only [unweightedLoop, hvx, h1]
      exact h4

/-- The run of `unweightedShortestPath` from a vertex of a well-formed graph
whose number of vertices fits in an `int`. -/
theorem unweighted_run {g : Graph T} (hw : g.WellFormed)
    (hn : g.vertexSet.length ≤ 2147483647) {s : T} (hs : s ∈ g.ids) :
    ∃ g1 L c, g.unweightedShortestPath s = some g1 ∧ UspInv g s g1 L L c := by
  obtain ⟨sx, hsx⟩ := findVertex_of_mem_ids hs
  have hfind : ∀ u, (Graph.mk (g.vertexSet.map
      (fun v => { v with path := none, dist := (INT_INFINITY : ℚ) }))).findVertex u =
        (g.findVertex u).map (fun v => { v with path := none, dist := (INT_INFINITY : ℚ) }) :=
    fun u => find_map_clear _ (by intro; rfl) u g.vertexSet
  have hsk : (Graph.mk (g.vertexSet.map
      (fun v => { v with path := none, dist := (INT_INFINITY : ℚ) }))).skel = g.skel := by
    simp [skel, List.map_map, Function.comp]
  have hdist : ∀ u ∈ g.ids, (Graph.mk (g.vertexSet.map
      (fun v => { v with path := none, dist := (INT_INFINITY : ℚ) }))).getDist u =
        (INT_INFINITY : ℚ) := by
    intro u hu
    obtain ⟨x, hx⟩ := findVertex_of_mem_ids hu
    unfold getDist
    rw [hfind, hx]
    rfl
  have hpath : ∀ u, (Graph.mk (g.vertexSet.map
      (fun v => { v with path := none, dist := (INT_INFINITY : ℚ) }))).pathOf u = none := by
    intro u
    unfold pathOf
    rw [hfind]
    cases g.findVertex u <;> rfl
  have hfs : (Graph.mk (g.vertexSet.map
      (fun v => { v with path := none, dist := (INT_INFINITY : ℚ) }))).findVertex s =
        some { sx with path := none, dist := (INT_INFINITY : ℚ) } := by
    rw [hfind, hsx]
    rfl
  have hinv : UspInv g s ((Graph.mk (g.vertexSet.map
      (fun v => { v with path := none, dist := (INT_INFINITY : ℚ) }))).modify s
        (fun x => { x with dist := 0 })) [] ([] ++ [s]) s := by
    refine ⟨(skel_modify _ s (by intro; rfl) (by intro; rfl)).trans hsk, by simp, rfl, ?_, ?_, ?_,
      ?_, by simp, ?_, ?_, ?_, ?_⟩
    · rw [getDist_setDist _ hfs, if_pos rfl]
    · intro u hu
      rw [getDist_setDist _ hfs]
      by_cases h : u = s
      · simp [h, int_infinity_cast]
      · simp [h, hdist u hu]
    · intro u hu
      simp at hu
      rw [hu]
      exact hs
    · intro u hu
      simp at hu
      subst hu
      refine ⟨0, ?_, Walk.nil, by simp⟩
      rw [getDist_setDist _ hfs, if_pos rfl]
      simp
    · intro u hu
      simp at hu
      subst hu
      linarith
    · intro u hu
      cases hu
    · intro u _
      rw [pathOf_setDist]
      exact hpath u
    · intro u hu hus
      simp at hu
      exact absurd hu hus
  obtain ⟨g1, out, c1, h1, h2⟩ := unweightedLoop_spec hw hn s (g.vertexSet.length + 1) _ [s] [] s
    hinv (by intro v q1 h; cases h; rfl) (by simp)
  refine ⟨g1, out, c1, ?_, h2⟩
  simp only [unweightedShortestPath, getVertex_eq_findVertex, hfs]
  exact h1

theorem usp_source_mem {g0 g : Graph T} {s c : T} {L : List T} (h : UspInv g0 s g L L c) :
    s ∈ L := by
  have hhead := h.2.2.1
  cases L with
  | nil => cases hhead
  | cons a t =>
    simp at hhead
    rw [hhead]
    exact List.mem_cons_self _ _

/-- At the end every walk from the source stays among the discovered vertices and
is at least as long as the recorded distance. -/
theorem usp_dist_le {g0 g : Graph T} {s c : T} {L : List T} (h : UspInv g0 s g L L c) :
    ∀ (v : T) (m : Nat), g0.Walk s v m → v ∈ L ∧ g.getDist v ≤ (m : ℚ) := by
  intro v m hwalk
  induction hwalk with
  | nil =>
    refine ⟨usp_source_mem h, ?_⟩
    rw [h.2.2.2.1]
    simp
  | snoc _ hadj ih =>
    obtain ⟨h1, h2⟩ := h.2.2.2.2.2.2.2.2.2.1 _ ih.1 _ hadj
    refine ⟨h1, ?_⟩
    push_cast
    linarith

theorem walk_of_reachable {g : Graph T} {s v : T} (h : g.Reachable s v) :
    ∃ m, g.Walk s v m := by
  induction h with
  | refl => exact ⟨0, Walk.nil⟩
  | tail _ hbc ih =>
    obtain ⟨m, hm⟩ := ih
    exact ⟨m + 1, Walk.snoc hm hbc⟩

theorem reachable_of_walk {g : Graph T} {s v : T} {m : Nat} (h : g.Walk s v m) :
    g.Reachable s v := by
  induction h with
  | nil => exact Relation.ReflTransGen.refl
  | snoc _ hadj ih => exact Relation.ReflTransGen.tail ih hadj

/-- What `unweightedShortestPath` leaves in `dist` and `path`. -/
theorem usp_result {g0 g : Graph T} {s c : T} {L : List T} (h : UspInv g0 s g L L c) :
    (∀ v, g0.Reachable s v → ∃ k : Nat, g.distOf v = some (k : ℚ) ∧ g0.Walk s v k ∧
      ∀ m, g0.Walk s v m → k ≤ m) ∧
    (∀ v ∈ g0.ids, ¬ g0.Reachable s v →
      g.distOf v = some (INT_INFINITY : ℚ) ∧ g.pathOf v = none) := by
  have hle := usp_dist_le h
  obtain ⟨hsk, hnd, hhead, hs0, hiff, hsub, hwalk, hpw, hbound, hclosed, hpn, hpp⟩ := h
  constructor
  · intro v hr
    obtain ⟨m0, hm0⟩ := walk_of_reachable hr
    obtain ⟨hvL, _⟩ := hle v m0 hm0
    obtain ⟨k, hk1, hk2, _⟩ := hwalk v hvL
    refine ⟨k, ?_, hk2, ?_⟩
    · rw [distOf_eq_getDist (by rw [ids_of_skel hsk]; exact hsub v hvL), hk1]
    · intro m hm
      have := (hle v m hm).2
      rw [hk1] at this
      exact_mod_cast this
  · intro v hv hnr
    have hvL : v ∉ L := by
      intro hc
      obtain ⟨k, _, hk2, _⟩ := hwalk v hc
      exact hnr (reachable_of_walk hk2)
    refine ⟨?_, hpn v (Or.inl hvL)⟩
    rw [distOf_eq_getDist (by rw [ids_of_skel hsk]; exact hv)]
    have := (hiff v hv).not.mp hvL
    simp only [ne_eq, not_not] at this
    rw [this]

end Graph

/-! ## `getPath` after `unweightedShortestPath` -/

namespace Graph

variable {T : Type} [DecidableEq T]

theorem pathOf_some {g : Graph T} {u p : T} (h : g.pathOf u = some p) :
    ∃ ux, g.findVertex u = some ux ∧ ux.path = some p := by
  unfold pathOf at h
  cases hx : g.findVertex u with
  | none => rw [hx] at h; cases h
  | some ux =>
    rw [hx] at h
    exact ⟨ux, rfl, h⟩

theorem pathOf_none {g : Graph T} {u : T} {ux : Vertex T} (hx : g.findVertex u = some ux)
    (h : g.pathOf u = none) : ux.path = none := by
  unfold pathOf at h
  rw [hx] at h
  exact h

theorem usp_dist_pos {g0 g : Graph T} {s c : T} {L : List T} (h : UspInv g0 s g L L c)
    {u : T} (hu : u ∈ L) (hus : u ≠ s) : 1 ≤ g.getDist u := by
  obtain ⟨p, hp1, _, _, hp4⟩ := h.2.2.2.2.2.2.2.2.2.2.2 u hu hus
  obtain ⟨k, hk, _⟩ := h.2.2.2.2.2.2.1 p hp1
  rw [hp4, hk]
  have : (0 : ℚ) ≤ (k : ℚ) := Nat.cast_nonneg k
  linarith

/-- Following the predecessor pointers from a discovered vertex `u` other than the
source: the loop of `getPath` and the statement after it put in front of the buffer
the vertices of a path from the source to the predecessor of `u`. -/
theorem getPathLoop_spec {g0 g : Graph T} {s c : T} {L : List T} (h : UspInv g0 s g L L c) :
    ∀ (k : Nat) (u : T), u ∈ L → u ≠ s → g.getDist u = (k : ℚ) →
      ∀ (b : List T) (fuel : Nat), k ≤ fuel →
      ∃ pre, (getPathLoop fuel g s u b).bind (fun r => getPathEnd g r.1 r.2) = some (pre ++ b) ∧
        pre.length = k ∧ pre.head? = some s ∧ List.Chain' g0.Adj (pre ++ [u]) := by
  intro k
  induction k with
  | zero =>
    intro u hu hus hd
    have := usp_dist_pos h hu hus
    rw [hd] at this
    norm_num at this
  | succ k ih =>
    intro u hu hus hd b fuel hf
    obtain ⟨p, hp1, hp2, hp3, hp4⟩ := h.2.2.2.2.2.2.2.2.2.2.2 u hu hus
    obtain ⟨ux, hux, huxp⟩ := pathOf_some hp2
    have hpi : p ∈ g0.ids := h.2.2.2.2.2.1 p hp1
    obtain ⟨px, hpx⟩ := find_of_skel h.1 hpi
    have hpxi : px.info = p := findVertex_info hpx
    have hdp : g.getDist p = (k : ℚ) := by
      rw [hp4] at hd
      push_cast at hd
      linarith
    cases fuel with
    | zero => omega
    | succ f =>
      simp only [getPathLoop, hux, huxp, hpx, hpxi]
      by_cases hps : p = s
      · subst hps
        simp only [ne_eq, not_true_eq_false, if_false, Option.some_bind, getPathEnd, hux, huxp,
          hpx, hpxi]
        refine ⟨[p], rfl, ?_, rfl, ?_⟩
        · rw [h.2.2.2.1] at hdp
          have : k = 0 := by exact_mod_cast hdp.symm
          simp [this]
        · simpa using hp3
      · simp only [ne_eq, hps, not_false_eq_true, if_true]
        obtain ⟨pre, h1, h2, h3, h4⟩ := ih p hp1 hps hdp (p :: b) f (by omega)
        refine ⟨pre ++ [p], ?_, by simp [h2], ?_, ?_⟩
        · rw [h1]
          simp
        · cases pre with
          | nil => cases h3
          | cons a t => simpa using h3
        · apply List.Chain'.append h4 (List.chain'_singleton u)
          intro x hx y hy
          simp at hx hy
          subst hx hy
          exact hp3

theorem getPath_eq_bind (g : Graph T) (origin dest : T) {dx : Vertex T}
    (h : g.findVertex dest = some dx) :
    g.getPath origin dest =
      (getPathLoop (g.vertexSet.length + 1) g origin dest [dest]).bind
        (fun r => getPathEnd g r.1 r.2) := by
  simp only [getPath, getVertex_eq_findVertex, h, findVertex_info h]
  cases getPathLoop (g.vertexSet.length + 1) g origin dest [dest] with
  | none => rfl
  | some r => rfl

/-- What `getPath(origin, dest)` returns in the state left by
`unweightedShortestPath(origin)` when `dest` was discovered. -/
theorem getPath_of_inv {g0 g : Graph T} {s c : T} {L : List T} (h : UspInv g0 s g L L c)
    {dest : T} (hd : dest ∈ L) :
    ∃ (l : List T) (k : Nat), g.getPath s dest = some l ∧ g.distOf dest = some (k : ℚ) ∧
      l.head? = some s ∧ l.getLast? = some dest ∧ l.length = k + 1 ∧ List.Chain' g0.Adj l ∧
      (dest = s → l = [s]) := by
  have hdi : dest ∈ g0.ids := h.2.2.2.2.2.1 dest hd
  have hdi2 : dest ∈ g.ids := by rw [ids_of_skel h.1]; exact hdi
  obtain ⟨dx, hdx⟩ := findVertex_of_mem_ids hdi2
  obtain ⟨k, hk1, _, hk3⟩ := h.2.2.2.2.2.2.1 dest hd
  have hlen := usp_length_le h
  rw [← length_of_skel h.1] at hlen
  by_cases hds : dest = s
  · subst hds
    have hp := pathOf_none hdx (h.2.2.2.2.2.2.2.2.2.2.1 dest (Or.inr rfl))
    refine ⟨[dest], 0, ?_, ?_, rfl, rfl, rfl, List.chain'_singleton _, fun _ => rfl⟩
    · rw [getPath_eq_bind g dest dest hdx]
      simp only [getPathLoop, hdx, hp, Option.some_bind, getPathEnd]
    · rw [distOf_eq_getDist hdi2, h.2.2.2.1]
      simp
  · obtain ⟨pre, h1, h2, h3, h4⟩ := getPathLoop_spec h k dest hd hds hk1 [dest]
      (g.vertexSet.length + 1) (by omega)
    refine ⟨pre ++ [dest], k, ?_, ?_, ?_, by simp, by simp [h2], h4, fun hc => absurd hc hds⟩
    · rw [getPath_eq_bind g s dest hdx]
      exact h1
    · rw [distOf_eq_getDist hdi2, hk1]
    · cases pre with
      | nil => cases h3
      | cons a t => simpa using h3

end Graph

/-! ## The libstdc++ heap functions rearrange the vector -/

namespace GnuHeap

variable {α : Type}

theorem pushHeap_spec (comp : α → α → Bool) :
    ∀ (fuel : Nat) (first : List α) (holeIndex topIndex : Nat) (value : α),
      (pushHeap comp fuel first holeIndex topIndex value).length = first.length ∧
      ∀ x ∈ pushHeap comp fuel first holeIndex topIndex value, x ∈ first ∨ x = value := by
  intro fuel
  induction fuel with
  | zero =>
    intro first h t value
    simp only [pushHeap]
    exact ⟨List.length_set _ _ _, fun x hx => List.mem_or_eq_of_mem_set hx⟩
  | succ fuel ih =>
    intro first h t value
    simp only [pushHeap]
    cases hp : first[(h - 1) / 2]? with
    | none => exact ⟨List.length_set _ _ _, fun x hx => List.mem_or_eq_of_mem_set hx⟩
    | some p =>
      simp only
      split
      · obtain ⟨h1, h2⟩ := ih (first.set h p) ((h - 1) / 2) t value
        refine ⟨h1.trans (List.length_set _ _ _), ?_⟩
        intro x hx
        rcases h2 x hx with h3 | h3
        · rcases List.mem_or_eq_of_mem_set h3 with h4 | h4
          · exact Or.inl h4
          · exact Or.inl (h4 ▸ List.getElem?_mem hp)
        · exact Or.inr h3
      · exact ⟨List.length_set _ _ _, fun x hx => List.mem_or_eq_of_mem_set hx⟩

theorem adjustDown_spec (comp : α → α → Bool) (len : Nat) :
    ∀ (fuel : Nat) (first : List α) (holeIndex secondChild : Nat),
      (adjustDown comp len fuel first holeIndex secondChild).1.length = first.length ∧
      ∀ x ∈ (adjustDown comp len fuel first holeIndex secondChild).1, x ∈ first := by
  intro fuel
  induction fuel with
  | zero =>
    intro first h sc
    exact ⟨rfl, fun x hx => hx⟩
  | succ fuel ih =>
    intro first h sc
    simp only [adjustDown]
    split
    · cases ha : first[2 * (sc + 1)]? with
      | none => exact ⟨rfl, fun x hx => hx⟩
      | some a =>
        cases hb : first[2 * (sc + 1) - 1]? with
        | none => exact ⟨rfl, fun x hx => hx⟩
        | some b =>
          simp only
          split
          · obtain ⟨h1, h2⟩ := ih (first.set h b) (2 * (sc + 1) - 1) (2 * (sc + 1) - 1)
            refine ⟨h1.trans (List.length_set _ _ _), ?_⟩
            intro x hx
            rcases List.mem_or_eq_of_mem_set (h2 x hx) with h4 | h4
            · exact h4
            · exact h4 ▸ List.getElem?_mem hb
          · obtain ⟨h1, h2⟩ := ih (first.set h a) (2 * (sc + 1)) (2 * (sc + 1))
            refine ⟨h1.trans (List.length_set _ _ _), ?_⟩
            intro x hx
            rcases List.mem_or_eq_of_mem_set (h2 x hx) with h4 | h4
            · exact h4
            · exact h4 ▸ List.getElem?_mem ha
    · exact ⟨rfl, fun x hx => hx⟩

theorem adjustHeap_spec (comp : α → α → Bool) (first : List α) (holeIndex len : Nat) (value : α) :
    (adjustHeap comp first holeIndex len value).length = first.length ∧
    ∀ x ∈ adjustHeap comp first holeIndex len value, x ∈ first ∨ x = value := by
  unfold adjustHeap
  obtain ⟨h1, h2⟩ := adjustDown_spec comp len len first holeIndex holeIndex
  rcases hres : adjustDown comp len len first holeIndex holeIndex with ⟨f1, hole1, sc1⟩
  rw [hres] at h1 h2
  simp only at h1 h2 ⊢
  split
  · cases hc : f1[2 * (sc1 + 1) - 1]? with
    | none =>
      simp only
      obtain ⟨k1, k2⟩ := pushHeap_spec comp (hole1 + 1) f1 hole1 holeIndex value
      refine ⟨k1.trans h1, ?_⟩
      intro x hx
      rcases k2 x hx with h3 | h3
      · exact Or.inl (h2 x h3)
      · exact Or.inr h3
    | some c =>
      simp only
      obtain ⟨k1, k2⟩ := pushHeap_spec comp (2 * (sc1 + 1)) (f1.set hole1 c)
        (2 * (sc1 + 1) - 1) holeIndex value
      refine ⟨k1.trans ((List.length_set _ _ _).trans h1), ?_⟩
      intro x hx
      rcases k2 x hx with h3 | h3
      · rcases List.mem_or_eq_of_mem_set h3 with h4 | h4
        · exact Or.inl (h2 x h4)
        · exact Or.inl (h2 x (h4 ▸ List.getElem?_mem hc))
      · exact Or.inr h3
  · obtain ⟨k1, k2⟩ := pushHeap_spec comp (hole1 + 1) f1 hole1 holeIndex value
    refine ⟨k1.trans h1, ?_⟩
    intro x hx
    rcases k2 x hx with h3 | h3
    · exact Or.inl (h2 x h3)
    · exact Or.inr h3

theorem pop_heap_spec (comp : α → α → Bool) (l : List α) :
    (pop_heap comp l).length = l.length ∧ ∀ x ∈ pop_heap comp l, x ∈ l := by
  unfold pop_heap
  split
  · cases hv : l[l.length - 1]? with
    | none => exact ⟨rfl, fun x hx => hx⟩
    | some value =>
      cases hf : l[0]? with
      | none => exact ⟨rfl, fun x hx => hx⟩
      | some front =>
        simp only
        obtain ⟨h1, h2⟩ := adjustHeap_spec comp (l.set (l.length - 1) front) 0 (l.length - 1) value
        refine ⟨h1.trans (List.length_set _ _ _), ?_⟩
        intro x hx
        rcases h2 x hx with h3 | h3
        · rcases List.mem_or_eq_of_mem_set h3 with h4 | h4
          · exact h4
          · exact h4 ▸ List.getElem?_mem hf
        · exact h3 ▸ List.getElem?_mem hv
  · exact ⟨rfl, fun x hx => hx⟩

theorem makeHeapLoop_spec (comp : α → α → Bool) (len : Nat) :
    ∀ (parent : Nat) (first : List α),
      (makeHeapLoop comp len parent first).length = first.length ∧
      ∀ x ∈ makeHeapLoop comp len parent first, x ∈ first := by
  intro parent
  induction parent with
  | zero =>
    intro first
    simp only [makeHeapLoop]
    cases hv : first[0]? with
    | none => exact ⟨rfl, fun x hx => hx⟩
    | some value =>
      simp only
      obtain ⟨h1, h2⟩ := adjustHeap_spec comp first 0 len value
      refine ⟨h1, ?_⟩
      intro x hx
      rcases h2 x hx with h3 | h3
      · exact h3
      · exact h3 ▸ List.getElem?_mem hv
  | succ parent ih =>
    intro first
    simp only [makeHeapLoop]
    cases hv : first[parent + 1]? with
    | none => exact ⟨rfl, fun x hx => hx⟩
    | some value =>
      simp only
      obtain ⟨h1, h2⟩ := adjustHeap_spec comp first (parent + 1) len value
      obtain ⟨k1, k2⟩ := ih (adjustHeap comp first (parent + 1) len value)
      refine ⟨k1.trans h1, ?_⟩
      intro x hx
      rcases h2 x (k2 x hx) with h3 | h3
      · exact h3
      · exact h3 ▸ List.getElem?_mem hv

theorem make_heap_spec (comp : α → α → Bool) (l : List α) :
    (make_heap comp l).length = l.length ∧ ∀ x ∈ make_heap comp l, x ∈ l := by
  unfold make_heap
  split
  · exact ⟨rfl, fun x hx => hx⟩
  · exact makeHeapLoop_spec comp l.length _ l

end GnuHeap

theorem gnuLib_lawful {T : Type} (ptrLess : T → T → Bool) : (gnuLib ptrLess).Lawful :=
  ⟨fun comp l => GnuHeap.make_heap_spec comp l, fun comp l => GnuHeap.pop_heap_spec comp l⟩

/-! ## `dijkstraShortestPath`: termination and the treatment of blocked edges -/

namespace Graph

variable {T : Type} [DecidableEq T]

theorem unprocessed_modify_le (g : Graph T) (p : T) (f : Vertex T → Vertex T)
    (hf : ∀ x, (f x).processing = false → x.processing = false) :
    (g.modify p f).unprocessed ≤ g.unprocessed := by
  unfold unprocessed modify
  apply countP_map_le
  intro y
  by_cases h : y.info = p
  · simp only [h, if_true]
    intro h1
    simpa using hf y (by simpa using h1)
  · simp [h]

theorem unprocessed_setProcessing_lt (g : Graph T) {v : T} {vx : Vertex T}
    (hx : g.findVertex v = some vx) (hv : vx.processing = false) :
    (g.modify v (fun y => { y with processing := true })).unprocessed < g.unprocessed := by
  unfold unprocessed modify
  apply countP_map_lt
  · intro y
    by_cases h : y.info = v
    · simp [h]
    · simp [h]
  · refine ⟨vx, findVertex_mem hx, by simp [hv], ?_⟩
    simp [findVertex_info hx]

theorem dijkstraEdges_spec {g0 : Graph T} (H : StdLib T) (hH : H.Lawful) (s v : T)
    (es : List (Edge T)) :
    ∀ (g : Graph T) (pq : List T), DijInv g0 s g pq → v ∈ g0.ids →
      (∀ e ∈ es, e.dest ∈ g0.ids ∧ (e.blocked = false → g0.OpenEdge v e.dest e.weight)) →
      ∃ g1 pq1, dijkstraEdges H v es g pq = some (g1, pq1) ∧ DijInv g0 s g1 pq1 ∧
        pq1.length + g1.unprocessed ≤ pq.length + g.unprocessed := by
  induction es with
  | nil =>
    intro g pq h _ _
    exact ⟨g, pq, rfl, h, le_refl _⟩
  | cons e es ih =>
    intro g pq hinv hv hes
    have hes1 : ∀ e1 ∈ es, e1.dest ∈ g0.ids ∧
        (e1.blocked = false → g0.OpenEdge v e1.dest e1.weight) :=
      fun e1 he1 => hes e1 (List.mem_cons_of_mem _ he1)
    obtain ⟨hd, hopen⟩ := hes e (List.mem_cons_self _ _)
    by_cases hb : e.blocked = true
    · simp only [dijkstraEdges, hb, if_true]
      exact ih g pq hinv hv hes1
    · have hb2 : e.blocked = false := by simpa using hb
      obtain ⟨hsk, hpq, hpa, hpb⟩ := hinv
      obtain ⟨vx, hvx⟩ := find_of_skel hsk hv
      obtain ⟨w, hwf⟩ := find_of_skel hsk hd
      simp only [dijkstraEdges, hb2, Bool.false_eq_true, if_false, hvx, hwf]
      by_cases hc : toInt (vx.dist + e.weight) < toInt w.dist
      · rw [if_pos hc]
        have hfa : (g.modify e.dest (fun x => { x with dist := vx.dist + e.weight })).findVertex
            e.dest = some { w with dist := vx.dist + e.weight } := by
          rw [findVertex_modify_self g e.dest (by intro; rfl), hwf]
          rfl
        have hfb : ((g.modify e.dest (fun x => { x with dist := vx.dist + e.weight })).modify
            e.dest (fun x => { x with path := some v })).findVertex e.dest =
              some { w with dist := vx.dist + e.weight, path := some v } := by
          rw [findVertex_modify_self _ e.dest (by intro; rfl), hfa]
          rfl
        have hsk1 : ((g.modify e.dest (fun x => { x with dist := vx.dist + e.weight })).modify
            e.dest (fun x => { x with path := some v })).skel = g0.skel :=
          (skel_modify _ e.dest (by intro; rfl) (by intro; rfl)).trans
            ((skel_modify g e.dest (by intro; rfl) (by intro; rfl)).trans hsk)
        have hD : ∀ u, u ≠ e.dest → ((g.modify e.dest
            (fun x => { x with dist := vx.dist + e.weight })).modify e.dest
            (fun x => { x with path := some v })).getDist u = g.getDist u := by
          intro u hu
          rw [getDist_setPath, getDist_setDist g hwf, if_neg hu]
        have hP : ∀ u, ((g.modify e.dest (fun x => { x with dist := vx.dist + e.weight })).modify
            e.dest (fun x => { x with path := some v })).pathOf u =
              if u = e.dest then some v else g.pathOf u := by
          intro u
          rw [pathOf_setPath _ hfa, pathOf_setDist]
        have hun1 : ((g.modify e.dest (fun x => { x with dist := vx.dist + e.weight })).modify
            e.dest (fun x => { x with path := some v })).unprocessed ≤ g.unprocessed :=
          le_trans (unprocessed_modify_le _ _ _ (fun _ h => h))
            (unprocessed_modify_le _ _ _ (fun _ h => h))
        have hpa1 : ∀ w1 v1, ((g.modify e.dest
            (fun x => { x with dist := vx.dist + e.weight })).modify e.dest
            (fun x => { x with path := some v })).pathOf w1 = some v1 →
              ∃ c, g0.OpenEdge v1 w1 c := by
          intro w1 v1 h1
          rw [hP] at h1
          by_cases h : w1 = e.dest
          · simp only [h, if_true, Option.some.injEq] at h1
            subst h1
            rw [h]
            exact ⟨e.weight, hopen hb2⟩
          · simp only [h, if_false] at h1
            exact hpa w1 v1 h1
        have hpb1 : ∀ w1 ∈ g0.ids, w1 ≠ s → (∀ u c, ¬ g0.OpenEdge u w1 c) →
            ((g.modify e.dest (fun x => { x with dist := vx.dist + e.weight })).modify e.dest
              (fun x => { x with path := some v })).getDist w1 = (INT_INFINITY : ℚ) ∧
            ((g.modify e.dest (fun x => { x with dist := vx.dist + e.weight })).modify e.dest
              (fun x => { x with path := some v })).pathOf w1 = none := by
          intro w1 hw1 hw1s hno
          have hne : w1 ≠ e.dest := by
            intro h
            exact hno v e.weight (h ▸ hopen hb2)
          rw [hD w1 hne, hP, if_neg hne]
          exact hpb w1 hw1 hw1s hno
        by_cases hproc : w.processing = true
        · simp only [hproc, Bool.not_true, Bool.false_eq_true, if_false]
          obtain ⟨g1, pq1, h1, h2, h3⟩ := ih _ (H.make_heap (vertex_greater_than
            ((g.modify e.dest (fun x => { x with dist := vx.dist + e.weight })).modify e.dest
              (fun x => { x with path := some v }))) pq)
            ⟨hsk1, fun u hu => hpq u ((hH.1 _ pq).2 u hu), hpa1, hpb1⟩ hv hes1
          refine ⟨g1, pq1, h1, h2, ?_⟩
          rw [(hH.1 _ pq).1] at h3
          omega
        · have hproc2 : w.processing = false := by simpa using hproc
          simp only [hproc2, Bool.not_false, if_true]
          have hun2 := unprocessed_setProcessing_lt _ hfb hproc2
          have hsk2 : (((g.modify e.dest (fun x => { x with dist := vx.dist + e.weight })).modify
              e.dest (fun x => { x with path := some v })).modify e.dest
              (fun x => { x with processing := true })).skel = g0.skel :=
            (skel_modify _ e.dest (by intro; rfl) (by intro; rfl)).trans hsk1
          have hq2 : ∀ cmp, ∀ u ∈ H.make_heap cmp (pq ++ [e.dest]), u ∈ g0.ids := by
            intro cmp u hu
            have := (hH.1 cmp (pq ++ [e.dest])).2 u hu
            rcases List.mem_append.mp this with h | h
            · exact hpq u h
            · rw [List.mem_singleton] at h
              exact h ▸ hd
          have hpa2 : ∀ w1 v1, (((g.modify e.dest
              (fun x => { x with dist := vx.dist + e.weight })).modify e.dest
              (fun x => { x with path := some v })).modify e.dest
              (fun x => { x with processing := true })).pathOf w1 = some v1 →
                ∃ c, g0.OpenEdge v1 w1 c := by
            intro w1 v1 h1
            rw [pathOf_setProcessing] at h1
            exact hpa1 w1 v1 h1
          have hpb2 : ∀ w1 ∈ g0.ids, w1 ≠ s → (∀ u c, ¬ g0.OpenEdge u w1 c) →
              (((g.modify e.dest (fun x => { x with dist := vx.dist + e.weight })).modify e.dest
                (fun x => { x with path := some v })).modify e.dest
                (fun x => { x with processing := true })).getDist w1 = (INT_INFINITY : ℚ) ∧
              (((g.modify e.dest (fun x => { x with dist := vx.dist + e.weight })).modify e.dest
                (fun x => { x with path := some v })).modify e.dest
                (fun x => { x with processing := true })).pathOf w1 = none := by
            intro w1 hw1 hw1s hno
            rw [getDist_setProcessing, pathOf_setProcessing]
            exact hpb1 w1 hw1 hw1s hno
          obtain ⟨g1, pq1, h1, h2, h3⟩ := ih _ (H.make_heap (vertex_greater_than
            (((g.modify e.dest (fun x => { x with dist := vx.dist + e.weight })).modify e.dest
              (fun x => { x with path := some v })).modify e.dest
              (fun x => { x with processing := true }))) (pq ++ [e.dest]))
            ⟨hsk2, hq2 _, hpa2, hpb2⟩ hv hes1
          refine ⟨g1, pq1, h1, h2, ?_⟩
          rw [(hH.1 _ (pq ++ [e.dest])).1] at h3
          simp at h3
          omega
      · rw [if_neg hc]
        exact ih g pq ⟨hsk, hpq, hpa, hpb⟩ hv hes1

theorem dijkstraLoop_spec {g0 : Graph T} (hw : g0.WellFormed) (H : StdLib T) (hH : H.Lawful)
    (s : T) :
    ∀ (fuel : Nat) (g : Graph T) (pq : List T), DijInv g0 s g pq →
      pq.length + g.unprocessed + 1 ≤ fuel →
      ∃ g1, dijkstraLoop H fuel g pq = some g1 ∧ DijInv g0 s g1 [] := by
  intro fuel
  induction fuel with
  | zero =>
    intro g pq _ hf
    omega
  | succ fuel ih =>
    intro g pq hinv hf
    cases pq with
    | nil => exact ⟨g, rfl, hinv⟩
    | cons v rest =>
      obtain ⟨hsk, hpq, hpa, hpb⟩ := hinv
      have hv : v ∈ g0.ids := hpq v (List.mem_cons_self _ _)
      obtain ⟨vx, hvx⟩ := find_of_skel hsk hv
      obtain ⟨x0, hx0, hx0i, hx0a⟩ := skel_find hsk hvx
      have hes : ∀ e ∈ vx.adj, e.dest ∈ g0.ids ∧
          (e.blocked = false → g0.OpenEdge v e.dest e.weight) := by
        intro e he
        rw [← hx0a] at he
        exact ⟨hw.2 x0 hx0 e he, fun hb => ⟨x0, hx0, hx0i, e, he, rfl, hb, rfl⟩⟩
      have hpop := hH.2 H.ptrLess (v :: rest)
      obtain ⟨g1, pq1, h1, h2, h3⟩ := dijkstraEdges_spec H hH s v vx.adj g
        (H.pop_heap H.ptrLess (v :: rest)).dropLast
        ⟨hsk, fun u hu => hpq u (hpop.2 u (List.mem_of_mem_dropLast hu)), hpa, hpb⟩ hv hes
      obtain ⟨g2, h4, h5⟩ := ih g1 pq1 h2 (by
        rw [List.length_dropLast, hpop.1] at h3
        simp at h3 hf
        omega)
      refine ⟨g2, ?_, h5⟩
      simp only [dijkstraLoop, hvx, h1]
      exact h4

/-- The run of `dijkstraShortestPath` from a vertex of a well-formed graph, for
any heap functions that rearrange the vector. -/
theorem dijkstra_run {g : Graph T} (hw : g.WellFormed) (H : StdLib T) (hH : H.Lawful)
    {s : T} (hs : s ∈ g.ids) :
    ∃ g1, g.dijkstraShortestPath H s = some g1 ∧ DijInv g s g1 [] := by
  obtain ⟨sx, hsx⟩ := findVertex_of_mem_ids hs
  have hfind : ∀ u, (Graph.mk (g.vertexSet.map (fun v =>
      { v with path := none, dist := (INT_INFINITY : ℚ), processing := false }))).findVertex u =
        (g.findVertex u).map (fun v =>
          { v with path := none, dist := (INT_INFINITY : ℚ), processing := false }) :=
    fun u => find_map_clear _ (by intro; rfl) u g.vertexSet
  have hsk : (Graph.mk (g.vertexSet.map (fun v =>
      { v with path := none, dist := (INT_INFINITY : ℚ), processing := false }))).skel =
        g.skel := by
    simp [skel, List.map_map, Function.comp]
  have hdist : ∀ u ∈ g.ids, (Graph.mk (g.vertexSet.map (fun v =>
      { v with path := none, dist := (INT_INFINITY : ℚ), processing := false }))).getDist u =
        (INT_INFINITY : ℚ) := by
    intro u hu
    obtain ⟨x, hx⟩ := findVertex_of_mem_ids hu
    unfold getDist
    rw [hfind, hx]
    rfl
  have hpath : ∀ u, (Graph.mk (g.vertexSet.map (fun v =>
      { v with path := none, dist := (INT_INFINITY : ℚ), processing := false }))).pathOf u =
        none := by
    intro u
    unfold pathOf
    rw [hfind]
    cases g.findVertex u <;> rfl
  have hfs : (Graph.mk (g.vertexSet.map (fun v =>
      { v with path := none, dist := (INT_INFINITY : ℚ), processing := false }))).findVertex s =
        some { sx with path := none, dist := (INT_INFINITY : ℚ), processing := false } := by
    rw [hfind, hsx]
    rfl
  have hmk := hH.1 H.ptrLess [s]
  have hinv : DijInv g s ((Graph.mk (g.vertexSet.map (fun v =>
      { v with path := none, dist := (INT_INFINITY : ℚ), processing := false }))).modify s
        (fun x => { x with dist := 0 })) (H.make_heap H.ptrLess [s]) := by
    refine ⟨(skel_modify _ s (by intro; rfl) (by intro; rfl)).trans hsk, ?_, ?_, ?_⟩
    · intro u hu
      have := hmk.2 u hu
      simp at this
      rw [this]
      exact hs
    · intro w v h
      rw [pathOf_setDist, hpath] at h
      cases h
    · intro w hw1 hws _
      rw [getDist_setDist _ hfs, if_neg hws, pathOf_setDist]
      exact ⟨hdist w hw1, hpath w⟩
  obtain ⟨g1, h1, h2⟩ := dijkstraLoop_spec hw H hH s (g.vertexSet.length + 2) _ _ hinv (by
    rw [hmk.1]
    have h1 := unprocessed_modify_le (Graph.mk (g.vertexSet.map (fun v =>
      { v with path := none, dist := (INT_INFINITY : ℚ), processing := false }))) s
      (fun x => { x with dist := 0 }) (fun _ h => h)
    have h2 : (Graph.mk (g.vertexSet.map (fun v =>
        { v with path := none, dist := (INT_INFINITY : ℚ), processing := false }))).unprocessed
          ≤ g.vertexSet.length := by
      unfold unprocessed
      have := List.countP_le_length (fun x : Vertex T => !x.processing)
        (l := g.vertexSet.map (fun v =>
          { v with path := none, dist := (INT_INFINITY : ℚ), processing := false }))
      simpa using this
    simp
    omega)
  refine ⟨g1, ?_, h2⟩
  simp only [dijkstraShortestPath, getVertex_eq_findVertex, hfs]
  exact h1

end Graph

set_option maxRecDepth 1000000

/-! ## The claims -/

namespace Graph

variable {T : Type} [DecidableEq T]

/-- A graph whose edges all increase some rank has no cycle. -/
theorem no_cycle_of_rank (g : Graph T) (f : T → Nat)
    (h : ∀ x ∈ g.vertexSet, ∀ e ∈ x.adj, f x.info < f e.dest) : ¬ g.HasCycle := by
  have key : ∀ a b, Relation.TransGen g.Adj a b → f a < f b := by
    intro a b hab
    induction hab with
    | single h1 =>
      obtain ⟨x, hx, hxa, e, he, heb⟩ := h1
      rw [← hxa, ← heb]
      exact h x hx e he
    | tail _ h2 ih =>
      obtain ⟨x, hx, hxa, e, he, heb⟩ := h2
      rw [← hxa] at ih
      rw [← heb]
      exact lt_trans ih (h x hx e he)
  rintro ⟨v, hv⟩
  exact absurd (key v v hv) (lt_irrefl _)

/-- C1. On a well-formed graph without a directed cycle, `topsort()` returns a
permutation of all vertex ids in which, for every edge u→v, u occurs before v. -/
theorem topsort_acyclic_perm_ordered (g : Graph T) (hw : g.WellFormed) (hac : ¬ g.HasCycle) :
    ∃ res, g.topsort = some res ∧ res.Perm g.ids ∧ ∀ u v, g.Adj u v → Before res u v := by
  obtain ⟨out, g1, hinv, hrun⟩ := topsort_run hw
  have hall := kahn_complete hinv hac
  have hlen := (topsort_length_iff hw hinv).mpr hac
  refine ⟨out, ?_, kahn_perm hw hinv hall, ?_⟩
  · rw [hrun]
    simp [hlen]
  · intro u v huv
    have hv : v ∈ out := hall v (adj_right_mem hw huv)
    exact before_of_indexOf_lt out hv (hinv.2.2.2.2.2 u v hv huv)

theorem topsort_acyclic_witness :
    ∃ res, exDag.topsort = some res ∧ res.Perm exDag.ids ∧
      ∀ u v, exDag.Adj u v → Before res u v :=
  topsort_acyclic_perm_ordered exDag (by decide)
    (no_cycle_of_rank exDag (fun i => if i = 3 then 0 else i + 1) (by decide))

/-- C2. On a well-formed graph that contains a directed cycle (a self-loop
included), `topsort()` returns the empty sequence. -/
theorem topsort_cyclic_empty (g : Graph T) (hw : g.WellFormed) (hc : g.HasCycle) :
    g.topsort = some [] := by
  obtain ⟨out, g1, hinv, hrun⟩ := topsort_run hw
  have hlen : out.length ≠ g.vertexSet.length :=
    fun h => (topsort_length_iff hw hinv).mp h hc
  rw [hrun]
  simp [hlen]

theorem topsort_cyclic_witness : exCycle.topsort = some [] :=
  topsort_cyclic_empty exCycle (by decide)
    ⟨0, Relation.TransGen.tail (Relation.TransGen.tail
      (Relation.TransGen.single (by decide : exCycle.Adj 0 1)) (by decide : exCycle.Adj 1 2))
      (by decide : exCycle.Adj 2 0)⟩

/-- C3. On a well-formed graph, whatever the stale values of the `visited` and
`processing` members, `isDAG()` returns, and it returns true if and only if the
graph has no directed cycle. -/
theorem isDAG_iff_acyclic (g : Graph T) (hw : g.WellFormed) :
    ∃ b, g.isDAG = some b ∧ (b = true ↔ ¬ g.HasCycle) :=
  isDAG_run hw

theorem isDAG_iff_acyclic_witness :
    ∃ b, exCycle.isDAG = some b ∧ (b = true ↔ ¬ exCycle.HasCycle) :=
  isDAG_iff_acyclic exCycle (by decide)

/-- C4. On a well-formed graph `isDAG()` returns true if and only if `topsort()`
returns an ordering whose length is the number of vertices; on the empty graph
`isDAG()` is true and `topsort()` is the empty ordering. -/
theorem isDAG_iff_topsort_full (g : Graph T) (hw : g.WellFormed) :
    ∃ b res, g.isDAG = some b ∧ g.topsort = some res ∧
      (b = true ↔ res.length = g.vertexSet.length) ∧
      (g.vertexSet = [] → b = true ∧ res = []) := by
  obtain ⟨b, hb1, hb2⟩ := isDAG_run hw
  obtain ⟨out, g1, hinv, hrun⟩ := topsort_run hw
  have hiff := topsort_length_iff hw hinv
  have hle := kahn_length_le hinv
  refine ⟨b, _, hb1, hrun, ?_, ?_⟩
  · rw [hb2, ← hiff]
    by_cases h : out.length = g.vertexSet.length
    · simp [h]
    · simp only [ne_eq, h, not_false_eq_true, if_true, List.length_nil, false_iff]
      intro hc
      rw [← hc] at hle
      exact h (by omega)
  · intro he
    have h0 : out.length = g.vertexSet.length := by
      rw [he] at hle ⊢
      simp at hle ⊢
      exact hle
    refine ⟨hb2.mpr (hiff.mp h0), ?_⟩
    simp only [ne_eq, h0, not_true_eq_false, if_false]
    rw [he] at h0
    exact List.length_eq_zero.mp h0

theorem isDAG_iff_topsort_full_witness :
    ∃ b res, exDag.isDAG = some b ∧ exDag.topsort = some res ∧
      (b = true ↔ res.length = exDag.vertexSet.length) ∧
      (exDag.vertexSet = [] → b = true ∧ res = []) :=
  isDAG_iff_topsort_full exDag (by decide)

/-- C5. On a well-formed graph, with any number of components and any stale
`visited` flags, `dfs()` returns a permutation of all vertex ids, and its first
element is the first inserted vertex when the graph is not empty. -/
theorem dfs_perm_ids (g : Graph T) (hw : g.WellFormed) :
    ∃ res, g.dfs = some res ∧ res.Perm g.ids ∧ res.head? = g.ids.head? :=
  dfs_run hw

theorem dfs_perm_ids_witness :
    ∃ res, exDag.dfs = some res ∧ res.Perm exDag.ids ∧ res.head? = exDag.ids.head? :=
  dfs_perm_ids exDag (by decide)

/-- C6. On a well-formed graph, `bfs(source)` returns the empty sequence when no
vertex has id `source`; otherwise it returns a sequence that starts with `source`,
has no repeated id, and contains an id exactly when that vertex is reachable from
`source` by a directed edge path. -/
theorem bfs_reachable (g : Graph T) (hw : g.WellFormed) (source : T) :
    (source ∉ g.ids → g.bfs source = some []) ∧
    (source ∈ g.ids → ∃ res, g.bfs source = some res ∧ res.head? = some source ∧
      res.Nodup ∧ ∀ u, u ∈ res ↔ g.Reachable source u) :=
  ⟨fun h => bfs_absent h, fun h => bfs_run hw h⟩

theorem bfs_reachable_witness :
    (0 ∉ exDag.ids → exDag.bfs 0 = some []) ∧
    (0 ∈ exDag.ids → ∃ res, exDag.bfs 0 = some res ∧ res.head? = some 0 ∧
      res.Nodup ∧ ∀ u, u ∈ res ↔ exDag.Reachable 0 u) :=
  bfs_reachable exDag (by decide) 0

/-- C7. On a well-formed graph whose number of vertices is a value of `int` (the
return type of `getNumVertex`, so at most `INT_MAX`), after
`unweightedShortestPath(s)` from a present vertex `s` the `dist` of every vertex
reachable from `s` is the minimum number of edges of a directed path from `s` to
it (0 for `s`), blocked edges counting like the others and weights being ignored,
and every unreachable vertex keeps `INT_MAX` and a null predecessor. -/
theorem unweightedShortestPath_min_hops (g : Graph T) (s : T) (hw : g.WellFormed)
    (hn : (g.getNumVertex : Int) ≤ INT_INFINITY) (hs : s ∈ g.ids) :
    ∃ g1, g.unweightedShortestPath s = some g1 ∧ g1.skel = g.skel ∧
      g1.distOf s = some 0 ∧
      (∀ v, g.Reachable s v → ∃ k : Nat, g1.distOf v = some (k : ℚ) ∧ g.Walk s v k ∧
        ∀ m, g.Walk s v m → k ≤ m) ∧
      (∀ v ∈ g.ids, ¬ g.Reachable s v →
        g1.distOf v = some (INT_INFINITY : ℚ) ∧ g1.pathOf v = none) := by
  have hn1 : g.vertexSet.length ≤ 2147483647 := by
    unfold getNumVertex INT_INFINITY at hn
    exact_mod_cast hn
  obtain ⟨g1, L, c, hrun, hinv⟩ := unweighted_run hw hn1 hs
  obtain ⟨h1, h2⟩ := usp_result hinv
  refine ⟨g1, hrun, hinv.1, ?_, h1, h2⟩
  rw [distOf_eq_getDist (by rw [ids_of_skel hinv.1]; exact hs), hinv.2.2.2.1]

theorem unweightedShortestPath_min_hops_witness :
    ((exChain.unweightedShortestPath 0).bind (fun g => g.distOf 2) = some 2) ∧
    ∃ g1, exChain.unweightedShortestPath 0 = some g1 ∧ g1.skel = exChain.skel ∧
      g1.distOf 0 = some 0 ∧
      (∀ v, exChain.Reachable 0 v → ∃ k : Nat, g1.distOf v = some (k : ℚ) ∧
        exChain.Walk 0 v k ∧ ∀ m, exChain.Walk 0 v m → k ≤ m) ∧
      (∀ v ∈ exChain.ids, ¬ exChain.Reachable 0 v →
        g1.distOf v = some (INT_INFINITY : ℚ) ∧ g1.pathOf v = none) :=
  ⟨by decide!, unweightedShortestPath_min_hops exChain 0 (by decide) (by decide) (by decide)⟩

/-- C8. On a well-formed graph whose number of vertices is a value of `int` (the
return type of `getNumVertex`, so at most `INT_MAX`), for a
present vertex `origin` and a vertex `dest` reachable from it, `getPath(origin,
dest)` called right after `unweightedShortestPath(origin)` returns a sequence that
starts with `origin`, ends with `dest`, has `dist(dest) + 1` elements and whose
consecutive elements are joined by edges; `getPath(origin, origin)` is `[origin]`. -/
theorem getPath_after_unweightedShortestPath (g : Graph T) (origin dest : T)
    (hw : g.WellFormed) (hn : (g.getNumVertex : Int) ≤ INT_INFINITY) (ho : origin ∈ g.ids)
    (hr : g.Reachable origin dest) :
    ∃ (g1 : Graph T) (l : List T) (k : Nat), g.unweightedShortestPath origin = some g1 ∧
      g1.getPath origin dest = some l ∧ g1.distOf dest = some (k : ℚ) ∧
      l.head? = some origin ∧ l.getLast? = some dest ∧ l.length = k + 1 ∧
      List.Chain' g.Adj l ∧ (dest = origin → l = [origin]) := by
  have hn1 : g.vertexSet.length ≤ 2147483647 := by
    unfold getNumVertex INT_INFINITY at hn
    exact_mod_cast hn
  obtain ⟨g1, L, c, hrun, hinv⟩ := unweighted_run hw hn1 ho
  obtain ⟨m, hm⟩ := walk_of_reachable hr
  obtain ⟨hd, _⟩ := usp_dist_le hinv dest m hm
  obtain ⟨l, k, h1, h2, h3, h4, h5, h6, h7⟩ := getPath_of_inv hinv hd
  exact ⟨g1, l, k, hrun, h1, h2, h3, h4, h5, h6, h7⟩

theorem getPath_after_unweightedShortestPath_witness :
    ((exChain.unweightedShortestPath 0).bind (fun g => g.getPath 0 2) = some [0, 1, 2]) ∧
    ∃ (g1 : Graph Nat) (l : List Nat) (k : Nat), exChain.unweightedShortestPath 0 = some g1 ∧
      g1.getPath 0 2 = some l ∧ g1.distOf 2 = some (k : ℚ) ∧
      l.head? = some 0 ∧ l.getLast? = some 2 ∧ l.length = k + 1 ∧
      List.Chain' exChain.Adj l ∧ (2 = 0 → l = [0]) :=
  ⟨by decide!, getPath_after_unweightedShortestPath exChain 0 2 (by decide) (by decide)
    (by decide) (Relation.ReflTransGen.tail (Relation.ReflTransGen.tail
      Relation.ReflTransGen.refl (by decide : exChain.Adj 0 1)) (by decide : exChain.Adj 1 2))⟩

/-- C9 (refuted on the code). With the heap functions of libstdc++ and vertices
allocated at increasing addresses, `dijkstraShortestPath(0)` on the well-formed
graph `exDetour`, whose weights are non-negative integers and which has no blocked
edge, leaves `dist(4) = 11` although the path 0→2→3→4 has weight 7: after vertex 1
is extracted, `pop_heap` is called without the comparator and puts vertex 3
(tentative distance 10) in front of vertex 2 (tentative distance 5), and vertex 3,
once extracted, is never inserted again. Whatever the order of the addresses of the
five vertices, the same wrong distance comes out on `exDetour` or on its mirror
image `exDetourMirror`. -/
theorem dijkstra_detour_wrong_dist :
    (exDetour.WellFormed ∧
      (∀ x ∈ exDetour.vertexSet, ∀ e ∈ x.adj,
        e.weight.den = 1 ∧ 0 ≤ e.weight.num ∧ e.blocked = false) ∧
      exDetour.OpenWalk 0 4 7) ∧
    (exDetourMirror.WellFormed ∧
      (∀ x ∈ exDetourMirror.vertexSet, ∀ e ∈ x.adj,
        e.weight.den = 1 ∧ 0 ≤ e.weight.num ∧ e.blocked = false) ∧
      exDetourMirror.OpenWalk 0 4 7) ∧
    (exDetour.dijkstraShortestPath gnuAscending 0).bind (fun g => g.distOf 4) = some 11 ∧
    (exDetourMirror.dijkstraShortestPath gnuDescending 0).bind (fun g => g.distOf 4) =
      some 11 ∧
    ∀ σ ∈ [0, 1, 2, 3, 4].permutations,
      (exDetour.dijkstraShortestPath (gnuLib (addrLess σ)) 0).bind (fun g => g.distOf 4) =
        some 11 ∨
      (exDetourMirror.dijkstraShortestPath (gnuLib (addrLess σ)) 0).bind
        (fun g => g.distOf 4) = some 11 := by
  refine ⟨⟨by decide, by decide!, ?_⟩, ⟨by decide, by decide!, ?_⟩, by decide!, by decide!,
    by decide!⟩
  · have h := OpenWalk.snoc (OpenWalk.snoc (OpenWalk.snoc (OpenWalk.nil (g := exDetour) (s := 0))
      (by decide! : exDetour.OpenEdge 0 2 5)) (by decide! : exDetour.OpenEdge 2 3 1))
      (by decide! : exDetour.OpenEdge 3 4 1)
    norm_num at h
    exact h
  · have h := OpenWalk.snoc (OpenWalk.snoc (OpenWalk.snoc
      (OpenWalk.nil (g := exDetourMirror) (s := 0))
      (by decide! : exDetourMirror.OpenEdge 0 3 5)) (by decide! : exDetourMirror.OpenEdge 3 2 1))
      (by decide! : exDetourMirror.OpenEdge 2 4 1)
    norm_num at h
    exact h

/-- The two examples the specification gives for `dijkstraShortestPath` do come
out as stated: `dist(B) = 3` along `[A, C, B]`, and `dist(B) = 5` along `[A, B]`
once the edge C→B is blocked. -/
theorem dijkstra_spec_examples :
    (exWeighted.dijkstraShortestPath gnuAscending 0).bind (fun g => g.distOf 1) = some 3 ∧
    (exWeighted.dijkstraShortestPath gnuAscending 0).bind (fun g => g.getPath 0 1) =
      some [0, 2, 1] ∧
    (exBlocked.dijkstraShortestPath gnuAscending 0).bind (fun g => g.distOf 1) = some 5 ∧
    (exBlocked.dijkstraShortestPath gnuAscending 0).bind (fun g => g.getPath 0 1) =
      some [0, 1] :=
  ⟨by decide!, by decide!, by decide!, by decide!⟩

/-- C10. On a well-formed graph, for any heap functions that rearrange the vector,
`dijkstraShortestPath(s)` from a present vertex returns, and afterwards every
vertex `w` whose predecessor is a vertex `v` has a non-blocked edge v→w in the
outgoing list of `v`, and every vertex other than `s` that no non-blocked edge
enters has `dist = INT_MAX` and a null predecessor. -/
theorem dijkstra_blocked_never_used (H : StdLib T) (hH : H.Lawful) (g : Graph T) (s : T)
    (hw : g.WellFormed) (hs : s ∈ g.ids) :
    ∃ g1, g.dijkstraShortestPath H s = some g1 ∧
      (∀ w v, g1.pathOf w = some v → ∃ c, g.OpenEdge v w c) ∧
      (∀ w ∈ g.ids, w ≠ s → (∀ u c, ¬ g.OpenEdge u w c) →
        g1.distOf w = some (INT_INFINITY : ℚ) ∧ g1.pathOf w = none) := by
  obtain ⟨g1, hrun, hsk, _, hpa, hpb⟩ := dijkstra_run hw H hH hs
  refine ⟨g1, hrun, hpa, ?_⟩
  intro w hwi hws hno
  obtain ⟨h1, h2⟩ := hpb w hwi hws hno
  exact ⟨by rw [distOf_eq_getDist (by rw [ids_of_skel hsk]; exact hwi), h1], h2⟩

theorem dijkstra_blocked_never_used_witness :
    ((exChain.dijkstraShortestPath gnuAscending 0).bind (fun g => g.distOf 2) =
      some (INT_INFINITY : ℚ)) ∧
    ∃ g1, exChain.dijkstraShortestPath gnuAscending 0 = some g1 ∧
      (∀ w v, g1.pathOf w = some v → ∃ c, exChain.OpenEdge v w c) ∧
      (∀ w ∈ exChain.ids, w ≠ 0 → (∀ u c, ¬ exChain.OpenEdge u w c) →
        g1.distOf w = some (INT_INFINITY : ℚ) ∧ g1.pathOf w = none) :=
  ⟨by decide!, dijkstra_blocked_never_used gnuAscending (gnuLib_lawful _) exChain 0
    (by decide) (by decide)⟩

end Graph

/-! ## Construction and mutation: basic facts -/

namespace Graph

variable {T : Type} [DecidableEq T]

theorem decomp_of_mem_ids {l : List (Vertex T)} {a : T} (h : a ∈ l.map (fun v => v.info)) :
    ∃ l1 v l2, l = l1 ++ v :: l2 ∧ v.info = a ∧ ∀ x ∈ l1, x.info ≠ a := by
  induction l with
  | nil => cases h
  | cons x xs ih =>
    by_cases hx : x.info = a
    · exact ⟨[], x, xs, rfl, hx, fun y hy => by cases hy⟩
    · have h2 : a ∈ xs.map (fun v => v.info) := by
        rcases List.mem_cons.mp h with h1 | h1
        · exact absurd h1.symm hx
        · exact h1
      obtain ⟨l1, v, l2, h3, h4, h5⟩ := ih h2
      refine ⟨x :: l1, v, l2, by rw [h3]; rfl, h4, ?_⟩
      intro y hy
      rcases List.mem_cons.mp hy with h6 | h6
      · rw [h6]; exact hx
      · exact h5 y h6

theorem find_decomp {l1 l2 : List (Vertex T)} {v : Vertex T} {a : T} (hv : v.info = a)
    (h1 : ∀ x ∈ l1, x.info ≠ a) :
    (l1 ++ v :: l2).find? (fun x => decide (x.info = a)) = some v := by
  induction l1 with
  | nil => simp [hv]
  | cons x xs ih =>
    have hx : x.info ≠ a := h1 x (List.mem_cons_self _ _)
    rw [List.cons_append, List.find?_cons_of_neg _ (by simpa using hx)]
    exact ih (fun y hy => h1 y (List.mem_cons_of_mem _ hy))

theorem modifyFirst_decomp {l1 l2 : List (Vertex T)} {v : Vertex T} {a : T} (hv : v.info = a)
    (h1 : ∀ x ∈ l1, x.info ≠ a) (f : Vertex T → Vertex T) :
    modifyFirst a f (l1 ++ v :: l2) = l1 ++ f v :: l2 := by
  induction l1 with
  | nil => simp [modifyFirst, hv]
  | cons x xs ih =>
    have hx : x.info ≠ a := h1 x (List.mem_cons_self _ _)
    rw [List.cons_append, modifyFirst, if_neg hx, ih (fun y hy => h1 y (List.mem_cons_of_mem _ hy))]
    rfl

theorem modifyFirst_ids (p : T) {f : Vertex T → Vertex T} (hf : ∀ x, (f x).info = x.info) :
    ∀ l : List (Vertex T), (modifyFirst p f l).map (fun v => v.info) = l.map (fun v => v.info) := by
  intro l
  induction l with
  | nil => rfl
  | cons x xs ih =>
    rw [modifyFirst]
    by_cases hx : x.info = p
    · rw [if_pos hx]
      simp [hf]
    · rw [if_neg hx, List.map_cons, List.map_cons, ih]

/-- With distinct ids, rewriting the first vertex with id `p` is rewriting the
vertex with id `p`. -/
theorem modifyFirst_eq_modify (p : T) {f : Vertex T → Vertex T} :
    ∀ l : List (Vertex T), (l.map (fun v => v.info)).Nodup →
      modifyFirst p f l = (Graph.modify ⟨l⟩ p f).vertexSet := by
  intro l
  induction l with
  | nil => intro _; rfl
  | cons x xs ih =>
    intro hnd
    rw [List.map_cons, List.nodup_cons] at hnd
    rw [modifyFirst]
    by_cases hx : x.info = p
    · rw [if_pos hx]
      simp only [modify, List.map_cons, hx, if_true]
      congr 1
      symm
      calc xs.map (fun v => if v.info = p then f v else v) = xs.map (fun v => v) := by
            apply List.map_congr_left
            intro y hy
            have : y.info ≠ p := by
              intro hc
              apply hnd.1
              rw [hx, ← hc]
              exact List.mem_map_of_mem _ hy
            simp [this]
        _ = xs := by simp
    · rw [if_neg hx, ih hnd.2]
      simp [modify, hx]

theorem findVertex_none_iff {g : Graph T} {a : T} : g.findVertex a = none ↔ a ∉ g.ids :=
  findVertex_eq_none

theorem findVertex_decomp {g : Graph T} {l1 l2 : List (Vertex T)} {v : Vertex T} {a : T}
    (hg : g.vertexSet = l1 ++ v :: l2) (hv : v.info = a) (h1 : ∀ x ∈ l1, x.info ≠ a) :
    g.findVertex a = some v := by
  unfold findVertex
  rw [hg]
  exact find_decomp hv h1

/-! ## `eraseEdgeTo` -/

end Graph

namespace Vertex

variable {T : Type} [DecidableEq T]

theorem eraseEdgeTo_none {d : T} {es : List (Edge T)} (h : ∀ e ∈ es, e.dest ≠ d) :
    eraseEdgeTo d es = (es, false) := by
  induction es with
  | nil => rfl
  | cons e es ih =>
    have he : e.dest ≠ d := h e (List.mem_cons_self _ _)
    rw [eraseEdgeTo, if_neg he, ih (fun x hx => h x (List.mem_cons_of_mem _ hx))]

theorem eraseEdgeTo_first {d : T} {es1 es2 : List (Edge T)} {e : Edge T} (he : e.dest = d)
    (h : ∀ x ∈ es1, x.dest ≠ d) : eraseEdgeTo d (es1 ++ e :: es2) = (es1 ++ es2, true) := by
  induction es1 with
  | nil => simp [eraseEdgeTo, he]
  | cons x xs ih =>
    have hx : x.dest ≠ d := h x (List.mem_cons_self _ _)
    rw [List.cons_append, eraseEdgeTo, if_neg hx, ih (fun y hy => h y (List.mem_cons_of_mem _ hy))]
    rfl

theorem edge_decomp {d : T} {es : List (Edge T)} (h : ∃ e ∈ es, e.dest = d) :
    ∃ es1 e es2, es = es1 ++ e :: es2 ∧ e.dest = d ∧ ∀ x ∈ es1, x.dest ≠ d := by
  induction es with
  | nil => obtain ⟨e, he, _⟩ := h; cases he
  | cons x xs ih =>
    by_cases hx : x.dest = d
    · exact ⟨[], x, xs, rfl, hx, fun y hy => by cases hy⟩
    · have h2 : ∃ e ∈ xs, e.dest = d := by
        obtain ⟨e, he, hed⟩ := h
        rcases List.mem_cons.mp he with h1 | h1
        · rw [h1] at hed; exact absurd hed hx
        · exact ⟨e, h1, hed⟩
      obtain ⟨es1, e, es2, h3, h4, h5⟩ := ih h2
      refine ⟨x :: es1, e, es2, by rw [h3]; rfl, h4, ?_⟩
      intro y hy
      rcases List.mem_cons.mp hy with h6 | h6
      · rw [h6]; exact hx
      · exact h5 y h6

theorem eraseEdgeTo_snd (d : T) (es : List (Edge T)) :
    (eraseEdgeTo d es).2 = true ↔ ∃ e ∈ es, e.dest = d := by
  constructor
  · intro h
    by_contra hc
    push_neg at hc
    rw [eraseEdgeTo_none hc] at h
    cases h
  · intro h
    obtain ⟨es1, e, es2, h3, h4, h5⟩ := edge_decomp h
    rw [h3, eraseEdgeTo_first h4 h5]

theorem edgeCount_append (es1 es2 : List (Edge T)) (d : T) :
    Graph.edgeCount (es1 ++ es2) d = Graph.edgeCount es1 d + Graph.edgeCount es2 d := by
  simp [Graph.edgeCount, List.countP_append]

theorem edgeCount_zero_iff (es : List (Edge T)) (d : T) :
    Graph.edgeCount es d = 0 ↔ ∀ e ∈ es, e.dest ≠ d := by
  unfold Graph.edgeCount
  rw [List.countP_eq_zero]
  simp

theorem edgeCount_eraseEdgeTo (d : T) (es : List (Edge T)) :
    Graph.edgeCount (eraseEdgeTo d es).1 d = Graph.edgeCount es d - 1 := by
  by_cases h : ∃ e ∈ es, e.dest = d
  · obtain ⟨es1, e, es2, h3, h4, h5⟩ := edge_decomp h
    rw [h3, eraseEdgeTo_first h4 h5, edgeCount_append, edgeCount_append, Graph.edgeCount_cons]
    simp [h4]
  · push_neg at h
    rw [eraseEdgeTo_none h, (edgeCount_zero_iff es d).mpr h]

theorem eraseEdgeTo_snd_iff_count (d : T) (es : List (Edge T)) :
    (eraseEdgeTo d es).2 = true ↔ 0 < Graph.edgeCount es d := by
  rw [eraseEdgeTo_snd, Nat.pos_iff_ne_zero, Ne, edgeCount_zero_iff]
  push_neg
  rfl

end Vertex

/-! ## `addVertex`, `addEdge`, `removeEdge`, `removeVertex`, `setEdgeBlocked` -/

namespace Graph

variable {T : Type} [DecidableEq T]

theorem addVertex_present {g : Graph T} {i : T} (h : i ∈ g.ids) (u : Uninit T) (name : String)
    (lon lat : ℚ) : g.addVertex u i name lon lat = (g, false) := by
  obtain ⟨x, hx⟩ := findVertex_of_mem_ids h
  simp only [addVertex, hx]

theorem addVertex_absent {g : Graph T} {i : T} (h : i ∉ g.ids) (u : Uninit T) (name : String)
    (lon lat : ℚ) :
    g.addVertex u i name lon lat = (⟨g.vertexSet ++ [Vertex.new u i name lon lat]⟩, true) := by
  simp only [addVertex, findVertex_eq_none.mpr h]

theorem addEdge_absent {g : Graph T} {s d : T} (h : s ∉ g.ids ∨ d ∉ g.ids) (w : ℚ) (tw : Bool)
    (n : String) (id : T) (block : Bool) : g.addEdge s d w tw n id block = (g, false) := by
  rcases h with h | h
  · simp only [addEdge, findVertex_eq_none.mpr h]
  · cases hs : g.findVertex s <;> simp only [addEdge, hs, findVertex_eq_none.mpr h]

theorem addEdge_present {g : Graph T} {s d : T} {l1 l2 : List (Vertex T)} {v : Vertex T}
    (hg : g.vertexSet = l1 ++ v :: l2) (hv : v.info = s) (h1 : ∀ x ∈ l1, x.info ≠ s)
    (hd : d ∈ g.ids) (w : ℚ) (tw : Bool) (n : String) (id : T) (block : Bool) :
    g.addEdge s d w tw n id block = (⟨l1 ++ v.addEdge d w tw n id block :: l2⟩, true) := by
  obtain ⟨dx, hdx⟩ := findVertex_of_mem_ids hd
  simp only [addEdge, findVertex_decomp hg hv h1, hdx, findVertex_info hdx, hg,
    modifyFirst_decomp hv h1]

theorem removeEdge_absent {g : Graph T} {s d : T} (h : s ∉ g.ids ∨ d ∉ g.ids) :
    g.removeEdge s d = (g, false) := by
  rcases h with h | h
  · simp only [removeEdge, findVertex_eq_none.mpr h]
  · cases hs : g.findVertex s <;> simp only [removeEdge, hs, findVertex_eq_none.mpr h]

theorem removeEdge_present {g : Graph T} {s d : T} {l1 l2 : List (Vertex T)} {v : Vertex T}
    (hg : g.vertexSet = l1 ++ v :: l2) (hv : v.info = s) (h1 : ∀ x ∈ l1, x.info ≠ s)
    (hd : d ∈ g.ids) :
    g.removeEdge s d = (⟨l1 ++ (v.removeEdgeTo d).1 :: l2⟩, (v.removeEdgeTo d).2) := by
  obtain ⟨dx, hdx⟩ := findVertex_of_mem_ids hd
  simp only [removeEdge, findVertex_decomp hg hv h1, hdx, findVertex_info hdx, hg,
    modifyFirst_decomp hv h1]

theorem vertex_adj_self (v : Vertex T) : ({ v with adj := v.adj } : Vertex T) = v := by
  cases v
  rfl

theorem ids_addEdge (g : Graph T) (s d : T) (w : ℚ) (tw : Bool) (n : String) (id : T)
    (block : Bool) : (g.addEdge s d w tw n id block).1.ids = g.ids := by
  unfold addEdge
  cases g.findVertex s with
  | none => rfl
  | some v1 =>
    cases g.findVertex d with
    | none => rfl
    | some v2 => exact modifyFirst_ids s (by intro; rfl) g.vertexSet

theorem ids_removeEdge (g : Graph T) (s d : T) : (g.removeEdge s d).1.ids = g.ids := by
  unfold removeEdge
  cases g.findVertex s with
  | none => rfl
  | some v1 =>
    cases g.findVertex d with
    | none => rfl
    | some v2 => exact modifyFirst_ids s (by intro; rfl) g.vertexSet

theorem ids_setEdgeBlocked (g : Graph T) (v : T) (b : Bool) :
    (g.setEdgeBlocked v b).ids = g.ids := by
  simp [setEdgeBlocked, ids, List.map_map, Function.comp]

theorem ids_addVertex (u : Uninit T) (g : Graph T) (i : T) (name : String) (lon lat : ℚ) :
    (g.addVertex u i name lon lat).1.ids = if i ∈ g.ids then g.ids else g.ids ++ [i] := by
  by_cases h : i ∈ g.ids
  · rw [addVertex_present h, if_pos h]
  · rw [addVertex_absent h, if_neg h]
    simp [ids, Vertex.new]

theorem ids_removeVertex_sublist (g : Graph T) (i : T) :
    (g.removeVertex i).1.ids.Sublist g.ids := by
  unfold removeVertex
  cases g.findVertex i with
  | none => exact List.Sublist.refl _
  | some v =>
    simp only [ids, List.map_map]
    have h : ((fun v => v.info) ∘ fun u : Vertex T => (u.removeEdgeTo v.info).1) =
        fun v => v.info := by
      funext u
      rfl
    rw [h]
    exact List.Sublist.map _ (List.eraseP_sublist _)

theorem built_nodup {g : Graph T} (h : Built g) : g.ids.Nodup := by
  induction h with
  | empty => exact List.nodup_nil
  | addVertex u i name lon lat _ ih =>
    rw [ids_addVertex]
    split
    · exact ih
    · rename_i hni
      rw [List.nodup_append]
      refine ⟨ih, List.nodup_singleton _, ?_⟩
      intro a ha hb
      rw [List.mem_singleton] at hb
      exact hni (hb ▸ ha)
  | addEdge s d w tw n id block _ ih => rw [ids_addEdge]; exact ih
  | removeEdge s d _ ih => rw [ids_removeEdge]; exact ih
  | removeVertex i _ ih => exact List.Nodup.sublist (ids_removeVertex_sublist _ i) ih
  | setEdgeBlocked v b _ ih => rw [ids_setEdgeBlocked]; exact ih

/-! ### Repeated `removeEdge` -/

theorem adjOf_decomp {g : Graph T} {l1 l2 : List (Vertex T)} {v : Vertex T} {a : T}
    (hg : g.vertexSet = l1 ++ v :: l2) (hv : v.info = a) (h1 : ∀ x ∈ l1, x.info ≠ a) :
    g.adjOf a = v.adj := by
  simp only [adjOf, findVertex_decomp hg hv h1]

theorem removeEdge_snd {g : Graph T} {a b : T} (ha : a ∈ g.ids) (hb : b ∈ g.ids) :
    (g.removeEdge a b).2 = (Vertex.eraseEdgeTo b (g.adjOf a)).2 := by
  obtain ⟨l1, v, l2, hg, hv, h1⟩ := decomp_of_mem_ids ha
  rw [removeEdge_present hg hv h1 hb, adjOf_decomp hg hv h1]
  rfl

theorem adjOf_removeEdge {g : Graph T} {a b : T} (ha : a ∈ g.ids) (hb : b ∈ g.ids) :
    (g.removeEdge a b).1.adjOf a = (Vertex.eraseEdgeTo b (g.adjOf a)).1 := by
  obtain ⟨l1, v, l2, hg, hv, h1⟩ := decomp_of_mem_ids ha
  rw [removeEdge_present hg hv h1 hb, adjOf_decomp hg hv h1]
  exact adjOf_decomp (g := ⟨l1 ++ (v.removeEdgeTo b).1 :: l2⟩) rfl hv h1

theorem removeEdge_iterate {g : Graph T} {a b : T} (ha : a ∈ g.ids) (hb : b ∈ g.ids) :
    ∀ i : Nat, ((fun h : Graph T => (h.removeEdge a b).1)^[i] g).ids = g.ids ∧
      edgeCount (((fun h : Graph T => (h.removeEdge a b).1)^[i] g).adjOf a) b =
        edgeCount (g.adjOf a) b - i := by
  intro i
  induction i with
  | zero => exact ⟨rfl, rfl⟩
  | succ i ih =>
    rw [Function.iterate_succ_apply']
    obtain ⟨h1, h2⟩ := ih
    refine ⟨(ids_removeEdge _ a b).trans h1, ?_⟩
    rw [adjOf_removeEdge (h1 ▸ ha) (h1 ▸ hb), Vertex.edgeCount_eraseEdgeTo, h2]
    omega

/-! ### `getIndex` -/

theorem getIndexFrom_absent {v : T} :
    ∀ (l : List (Vertex T)) (i : Nat), v ∉ l.map (fun x => x.info) → getIndexFrom v l i = -1 := by
  intro l
  induction l with
  | nil => intro i _; rfl
  | cons x xs ih =>
    intro i h
    rw [List.map_cons, List.mem_cons, not_or] at h
    have hx : x.info ≠ v := fun hc => h.1 hc.symm
    rw [getIndexFrom, if_neg hx]
    exact ih (i + 1) h.2

theorem getIndexFrom_decomp {v : T} {x : Vertex T} {l2 : List (Vertex T)} (hx : x.info = v) :
    ∀ (l1 : List (Vertex T)) (i : Nat), (∀ y ∈ l1, y.info ≠ v) →
      getIndexFrom v (l1 ++ x :: l2) i = ((i + l1.length : Nat) : Int) := by
  intro l1
  induction l1 with
  | nil =>
    intro i _
    simp [getIndexFrom, hx]
  | cons y ys ih =>
    intro i h
    have hy : y.info ≠ v := h y (List.mem_cons_self _ _)
    rw [List.cons_append, getIndexFrom, if_neg hy, ih (i + 1)
      (fun z hz => h z (List.mem_cons_of_mem _ hz))]
    simp
    omega

theorem getElem?_decomp {α : Type} (l1 l2 : List α) (x : α) :
    (l1 ++ x :: l2)[l1.length]? = some x := by
  rw [List.getElem?_append_right (le_refl _)]
  simp

end Graph

/-! ## The claims on construction and mutation -/

namespace Graph

variable {T : Type} [DecidableEq T]

/-- What `removeVertex` does do on a graph with distinct ids: nothing when the id is
absent; otherwise the vertex leaves the vertex set and every remaining vertex loses
its first edge to it, and only that one. -/
theorem removeVertex_effect (g : Graph T) (hnd : g.ids.Nodup) (i : T) :
    (i ∉ g.ids → g.removeVertex i = (g, false)) ∧
    (i ∈ g.ids → (g.removeVertex i).2 = true ∧ i ∉ (g.removeVertex i).1.ids ∧
      ∃ l1 v l2, g.vertexSet = l1 ++ v :: l2 ∧ v.info = i ∧
        (g.removeVertex i).1.vertexSet =
          (l1 ++ l2).map (fun x => { x with adj := (Vertex.eraseEdgeTo i x.adj).1 }) ∧
        ∀ x ∈ l1 ++ l2, edgeCount (Vertex.eraseEdgeTo i x.adj).1 i = edgeCount x.adj i - 1) := by
  constructor
  · intro h
    simp only [removeVertex, findVertex_eq_none.mpr h]
  · intro h
    obtain ⟨l1, v, l2, hg, hv, h1⟩ := decomp_of_mem_ids h
    have hf := findVertex_decomp hg hv h1
    have her : g.vertexSet.eraseP (fun x => decide (x.info = i)) = l1 ++ l2 := by
      rw [hg, List.eraseP_append_right _ (by
        intro x hx
        simpa using h1 x hx)]
      simp [hv]
    have hres : (g.removeVertex i).1.vertexSet =
        (l1 ++ l2).map (fun x => { x with adj := (Vertex.eraseEdgeTo i x.adj).1 }) := by
      simp only [removeVertex, hf, her, hv]
      rfl
    refine ⟨by simp only [removeVertex, hf], ?_, l1, v, l2, hg, hv, hres,
      fun x _ => Vertex.edgeCount_eraseEdgeTo i x.adj⟩
    unfold ids
    rw [hres, List.map_map]
    have hids : g.ids = l1.map (fun v => v.info) ++ i :: l2.map (fun v => v.info) := by
      simp [ids, hg, hv]
    rw [hids] at hnd
    have hnd2 := List.nodup_middle.mp hnd
    rw [List.nodup_cons] at hnd2
    intro hc
    apply hnd2.1
    simpa [Function.comp] using hc

/-- C11 (refuted on the code). On the well-formed graph `exParallel`, where vertex
0 has two parallel edges to vertex 1, `removeVertex(1)` returns true and takes
vertex 1 out of the vertex set, but vertex 0 keeps its second edge to the removed
vertex: `removeEdgeTo` is called once per remaining vertex and erases one edge. -/
theorem removeVertex_keeps_parallel_edge :
    exParallel.WellFormed ∧ 1 ∈ exParallel.ids ∧
    exParallel.removeVertex 1 = (⟨[exVertex 0 [exEdge 1 2 false]]⟩, true) ∧
    1 ∉ (exParallel.removeVertex 1).1.ids ∧
    ∃ x ∈ (exParallel.removeVertex 1).1.vertexSet, ∃ e ∈ x.adj, e.dest = 1 :=
  ⟨by decide, by decide, by decide!, by decide!, by decide!⟩

/-- C12. `addVertex(id, name, lon, lat)` returns false and leaves the graph as it
is when a vertex with that id exists; otherwise it returns true and the vertex set
is the old one followed by one vertex with that id and no outgoing edge. -/
theorem addVertex_spec (u : Uninit T) (g : Graph T) (i : T) (name : String) (lon lat : ℚ) :
    (i ∈ g.ids → g.addVertex u i name lon lat = (g, false)) ∧
    (i ∉ g.ids → ∃ x : Vertex T, g.addVertex u i name lon lat = (⟨g.vertexSet ++ [x]⟩, true) ∧
      x.info = i ∧ x.adj = []) :=
  ⟨fun h => addVertex_present h u name lon lat,
    fun h => ⟨Vertex.new u i name lon lat, addVertex_absent h u name lon lat, rfl, rfl⟩⟩

theorem addVertex_spec_witness :
    exDag.addVertex exUninit 0 "A" 1 2 = (exDag, false) ∧
    ∃ x : Vertex Nat, exDag.addVertex exUninit 7 "A" 1 2 = (⟨exDag.vertexSet ++ [x]⟩, true) ∧
      x.info = 7 ∧ x.adj = [] :=
  ⟨(addVertex_spec exUninit exDag 0 "A" 1 2).1 (by decide),
    (addVertex_spec exUninit exDag 7 "A" 1 2).2 (by decide)⟩

/-- C13. In every graph obtained from the empty graph by calls of `addVertex`,
`addEdge`, `removeEdge`, `removeVertex` and `setEdgeBlocked`, the vertex ids are
pairwise distinct. -/
theorem built_ids_nodup (g : Graph T) (h : Built g) : g.ids.Nodup :=
  built_nodup h

theorem built_ids_nodup_witness :
    ((((((Graph.mk ([] : List (Vertex Nat))).addVertex exUninit 1 "A" 0 0).1.addVertex
      exUninit 2 "B" 0 0).1.addVertex exUninit 1 "C" 0 0).1.addEdge 1 2 5 true "e" 7
        false).1.removeVertex 2).1.ids.Nodup :=
  built_ids_nodup _ (Built.removeVertex 2 (Built.addEdge 1 2 5 true "e" 7 false
    (Built.addVertex exUninit 1 "C" 0 0 (Built.addVertex exUninit 2 "B" 0 0
      (Built.addVertex exUninit 1 "A" 0 0 Built.empty)))))

/-- C14. `addEdge(sourceId, destId, …)` returns false and leaves the graph as it is
when one of the two ids is absent; otherwise it returns true, the source vertex gets
exactly one new edge with the given members at the end of its outgoing list, and
every other vertex is unchanged (no check for self-loops or duplicates, and no
reverse edge whatever `twoWay` is). -/
theorem addEdge_spec (g : Graph T) (s d : T) (w : ℚ) (tw : Bool) (n : String) (id : T)
    (block : Bool) :
    ((s ∉ g.ids ∨ d ∉ g.ids) → g.addEdge s d w tw n id block = (g, false)) ∧
    (s ∈ g.ids → d ∈ g.ids → ∃ l1 v l2, g.vertexSet = l1 ++ v :: l2 ∧ v.info = s ∧
      (∀ x ∈ l1, x.info ≠ s) ∧
      g.addEdge s d w tw n id block =
        (⟨l1 ++ { v with adj := v.adj ++ [Edge.new d w tw n id block] } :: l2⟩, true)) := by
  refine ⟨fun h => addEdge_absent h w tw n id block, ?_⟩
  intro hs hd
  obtain ⟨l1, v, l2, hg, hv, h1⟩ := decomp_of_mem_ids hs
  exact ⟨l1, v, l2, hg, hv, h1, addEdge_present hg hv h1 hd w tw n id block⟩

theorem addEdge_spec_witness :
    exDag.addEdge 9 0 5 true "e" 7 false = (exDag, false) ∧
    ∃ l1 v l2, exDag.vertexSet = l1 ++ v :: l2 ∧ v.info = 2 ∧ (∀ x ∈ l1, x.info ≠ 2) ∧
      exDag.addEdge 2 2 5 true "e" 7 false =
        (⟨l1 ++ { v with adj := v.adj ++ [Edge.new 2 5 true "e" 7 false] } :: l2⟩, true) :=
  ⟨(addEdge_spec exDag 9 0 5 true "e" 7 false).1 (Or.inl (by decide)),
    (addEdge_spec exDag 2 2 5 true "e" 7 false).2 (by decide) (by decide)⟩

/-- C15. `removeEdge(A, B)` returns false without change when A or B is absent.
For present A and B it returns true exactly when A has an edge to B, and then
erases the first such edge only, keeping the others in their order; with `k`
parallel edges A→B the first `k` calls return true and the next one false. If A
has no edge to B, `addEdge(A, B, …)` followed by `removeEdge(A, B)` returns true
and gives the original graph back, on which `removeEdge(A, B)` returns false. -/
theorem removeEdge_spec (g : Graph T) (a b : T) :
    ((a ∉ g.ids ∨ b ∉ g.ids) → g.removeEdge a b = (g, false)) ∧
    (a ∈ g.ids → b ∈ g.ids →
      (∃ l1 v l2, g.vertexSet = l1 ++ v :: l2 ∧ v.info = a ∧ (∀ x ∈ l1, x.info ≠ a) ∧
        ((∀ e ∈ v.adj, e.dest ≠ b) → g.removeEdge a b = (g, false)) ∧
        (∀ es1 e es2, v.adj = es1 ++ e :: es2 → e.dest = b → (∀ x ∈ es1, x.dest ≠ b) →
          g.removeEdge a b = (⟨l1 ++ { v with adj := es1 ++ es2 } :: l2⟩, true))) ∧
      ((g.removeEdge a b).2 = true ↔ ∃ e ∈ g.adjOf a, e.dest = b) ∧
      (∀ i : Nat, (((fun h : Graph T => (h.removeEdge a b).1)^[i] g).removeEdge a b).2 = true ↔
        i < edgeCount (g.adjOf a) b) ∧
      ((∀ e ∈ g.adjOf a, e.dest ≠ b) → ∀ (w : ℚ) (tw : Bool) (n : String) (id : T)
        (block : Bool), (g.addEdge a b w tw n id block).2 = true ∧
          (g.addEdge a b w tw n id block).1.removeEdge a b = (g, true) ∧
          g.removeEdge a b = (g, false))) := by
  refine ⟨fun h => removeEdge_absent h, ?_⟩
  intro ha hb
  obtain ⟨l1, v, l2, hg, hv, h1⟩ := decomp_of_mem_ids ha
  have hrem := removeEdge_present hg hv h1 hb
  have hadj := adjOf_decomp hg hv h1
  have hnone : (∀ e ∈ v.adj, e.dest ≠ b) → g.removeEdge a b = (g, false) := by
    intro hno
    rw [hrem]
    simp only [Vertex.removeEdgeTo, Vertex.eraseEdgeTo_none hno, vertex_adj_self]
    have : (⟨l1 ++ v :: l2⟩ : Graph T) = g := by
      cases g
      simp only at hg
      rw [hg]
    rw [this]
  refine ⟨⟨l1, v, l2, hg, hv, h1, hnone, ?_⟩, ?_, ?_, ?_⟩
  · intro es1 e es2 he hed hes1
    rw [hrem]
    simp only [Vertex.removeEdgeTo, he, Vertex.eraseEdgeTo_first hed hes1]
  · rw [removeEdge_snd ha hb, Vertex.eraseEdgeTo_snd]
  · intro i
    obtain ⟨hi1, hi2⟩ := removeEdge_iterate ha hb i
    rw [removeEdge_snd (hi1 ▸ ha) (hi1 ▸ hb), Vertex.eraseEdgeTo_snd_iff_count, hi2]
    omega
  · intro hno w tw n id block
    rw [hadj] at hno
    have hadd := addEdge_present hg hv h1 hb w tw n id block
    refine ⟨by rw [hadd], ?_, hnone hno⟩
    rw [hadd]
    have hb2 : b ∈ (⟨l1 ++ v.addEdge b w tw n id block :: l2⟩ : Graph T).ids := by
      have := ids_addEdge g a b w tw n id block
      rw [hadd] at this
      rw [this]
      exact hb
    rw [removeEdge_present (g := ⟨l1 ++ v.addEdge b w tw n id block :: l2⟩) rfl
      (by exact hv) h1 hb2]
    have her : Vertex.eraseEdgeTo b (v.adj ++ [Edge.new b w tw n id block]) = (v.adj, true) := by
      have := @Vertex.eraseEdgeTo_first T _ b v.adj [] (Edge.new b w tw n id block) rfl hno
      simpa using this
    simp only [Vertex.removeEdgeTo, Vertex.addEdge, her, vertex_adj_self]
    have : (⟨l1 ++ v :: l2⟩ : Graph T) = g := by
      cases g
      simp only at hg
      rw [hg]
    rw [this]

theorem removeEdge_spec_witness :
    (exParallel.removeEdge 0 1).2 = true ∧
    (∀ i : Nat, (((fun h : Graph Nat => (h.removeEdge 0 1).1)^[i] exParallel).removeEdge 0 1).2 =
      true ↔ i < edgeCount (exParallel.adjOf 0) 1) ∧
    (exDag.addEdge 1 0 5 false "e" 7 false).1.removeEdge 1 0 = (exDag, true) ∧
    exDag.removeEdge 1 0 = (exDag, false) :=
  ⟨((removeEdge_spec exParallel 0 1).2 (by decide) (by decide)).2.1.mpr (by decide!),
    ((removeEdge_spec exParallel 0 1).2 (by decide) (by decide)).2.2.1,
    (((removeEdge_spec exDag 1 0).2 (by decide) (by decide)).2.2.2 (by decide!) 5 false "e" 7
      false).2.1,
    (((removeEdge_spec exDag 1 0).2 (by decide) (by decide)).2.2.2 (by decide!) 5 false "e" 7
      false).2.2⟩

end Graph

set_option maxRecDepth 1000000

namespace Graph

variable {T : Type} [DecidableEq T]

/-! ## `setEdgeBlocked`, `getIndex`, coordinates, fractional weights -/

theorem setBlocked_edge (eid : T) (b : Bool) (e : Edge T) :
    (if e.id = eid then { e with blocked := b } else e) =
      { e with blocked := if e.id = eid then b else e.blocked } := by
  by_cases h : e.id = eid
  · simp only [h, if_true]
  · simp only [h, if_false]

/-- The vertex with id `v` and its position, in a graph with distinct ids. -/
theorem getIndex_present {g : Graph T} (hnd : g.ids.Nodup) {v : T} (hv : v ∈ g.ids) :
    ∃ (i : Nat) (x : Vertex T), g.getIndex v = (i : Int) ∧ i < g.vertexSet.length ∧
      g.vertexSet[i]? = some x ∧ x.info = v ∧ g.getVertex v = some x ∧
      ∀ (j : Nat) (y : Vertex T), g.vertexSet[j]? = some y → y.info = v → j = i := by
  obtain ⟨l1, x, l2, hg, hx, h1⟩ := decomp_of_mem_ids hv
  refine ⟨l1.length, x, ?_, ?_, ?_, hx, ?_, ?_⟩
  · unfold getIndex
    rw [hg, getIndexFrom_decomp hx l1 0 h1]
    simp
  · rw [hg]
    simp
  · rw [hg]
    exact getElem?_decomp l1 l2 x
  · exact findVertex_decomp hg hx h1
  · intro j y hj hy
    have hi : g.ids[l1.length]? = some v := by
      unfold ids
      rw [List.getElem?_map, hg, getElem?_decomp l1 l2 x]
      simp [hx]
    have hj2 : g.ids[j]? = some v := by
      unfold ids
      rw [List.getElem?_map, hj]
      simp [hy]
    have hlt : j < g.ids.length := by
      rcases Nat.lt_or_ge j g.ids.length with h | h
      · exact h
      · rw [List.getElem?_eq_none h] at hj2
        cases hj2
    exact List.getElem?_inj hlt hnd (hj2.trans hi.symm)

/-- C17. After `setEdgeBlocked(e, b)` the vertex set is the old one, vertex by
vertex, with only the outgoing lists touched; each outgoing list is the old one,
edge by edge, and an edge differs from the old one at most in `blocked`, which is
`b` when its id is `e` and the old flag otherwise. A second call with the same
arguments changes nothing. -/
theorem setEdgeBlocked_spec (g : Graph T) (eid : T) (b : Bool) :
    List.Forall₂ (fun x x' => x' = { x with adj := x'.adj } ∧
        List.Forall₂ (fun e e' => e' = { e with blocked := if e.id = eid then b else e.blocked })
          x.adj x'.adj)
      g.vertexSet (g.setEdgeBlocked eid b).vertexSet ∧
    (g.setEdgeBlocked eid b).vertexSet.length = g.vertexSet.length ∧
    (g.setEdgeBlocked eid b).setEdgeBlocked eid b = g.setEdgeBlocked eid b := by
  refine ⟨?_, ?_, ?_⟩
  · simp only [setEdgeBlocked]
    rw [List.forall₂_map_right_iff, List.forall₂_same]
    intro x _
    refine ⟨rfl, ?_⟩
    simp only []
    rw [List.forall₂_map_right_iff, List.forall₂_same]
    intro e _
    exact setBlocked_edge eid b e
  · simp only [setEdgeBlocked, List.length_map]
  · simp only [setEdgeBlocked, List.map_map]
    congr 1
    apply List.map_congr_left
    intro x _
    simp only [Function.comp, List.map_map]
    congr 1
    apply List.map_congr_left
    intro e _
    simp only [Function.comp]
    by_cases h : e.id = eid
    · simp only [h, if_true]
    · simp only [h, if_false]

/-- C18. In a graph with pairwise distinct ids: `getIndex(v)` is -1, and
`getVertex(v)` is null, exactly when no vertex has id `v`; for a present id,
`getIndex(v)` is the one position of the vertex set that holds a vertex with id `v`
and `getVertex(v)` is the vertex at that position; two different present ids have
different indices. -/
theorem getIndex_getVertex_spec (g : Graph T) (hnd : g.ids.Nodup) (v : T) :
    (g.getIndex v = -1 ↔ v ∉ g.ids) ∧ (g.getVertex v = none ↔ v ∉ g.ids) ∧
    (v ∈ g.ids → ∃ (i : Nat) (x : Vertex T), g.getIndex v = (i : Int) ∧
      i < g.vertexSet.length ∧ g.vertexSet[i]? = some x ∧ x.getInfo = v ∧
      g.getVertex v = some x ∧
      ∀ (j : Nat) (y : Vertex T), g.vertexSet[j]? = some y → y.getInfo = v → j = i) ∧
    (∀ w : T, v ∈ g.ids → w ∈ g.ids → v ≠ w → g.getIndex v ≠ g.getIndex w) := by
  refine ⟨⟨?_, fun h => getIndexFrom_absent g.vertexSet 0 h⟩,
    ⟨?_, fun h => findVertex_eq_none.mpr h⟩, fun h => getIndex_present hnd h, ?_⟩
  · intro h hv
    obtain ⟨i, x, hi, _⟩ := getIndex_present hnd hv
    rw [hi] at h
    omega
  · intro h hv
    obtain ⟨i, x, _, _, _, _, hx, _⟩ := getIndex_present hnd hv
    rw [hx] at h
    cases h
  · intro w hv hw hne heq
    obtain ⟨i, x, hi, _, hix, hxv, _⟩ := getIndex_present hnd hv
    obtain ⟨j, y, hj, _, hjy, hyw, _⟩ := getIndex_present hnd hw
    rw [hi, hj] at heq
    have hij : i = j := by omega
    subst hij
    rw [hix] at hjy
    cases hjy
    exact hne (hxv.symm.trans hyw)

theorem getIndex_getVertex_spec_witness :
    (exDag.getIndex 7 = -1 ↔ 7 ∉ exDag.ids) ∧ (exDag.getVertex 7 = none ↔ 7 ∉ exDag.ids) ∧
    (3 ∈ exDag.ids → ∃ (i : Nat) (x : Vertex Nat), exDag.getIndex 3 = (i : Int) ∧
      i < exDag.vertexSet.length ∧ exDag.vertexSet[i]? = some x ∧ x.getInfo = 3 ∧
      exDag.getVertex 3 = some x ∧
      ∀ (j : Nat) (y : Vertex Nat), exDag.vertexSet[j]? = some y → y.getInfo = 3 → j = i) ∧
    exDag.getIndex 3 ≠ exDag.getIndex 1 :=
  ⟨(getIndex_getVertex_spec exDag (by decide) 7).1,
    (getIndex_getVertex_spec exDag (by decide) 7).2.1,
    (getIndex_getVertex_spec exDag (by decide) 3).2.2.1,
    (getIndex_getVertex_spec exDag (by decide) 3).2.2.2 1 (by decide) (by decide) (by decide)⟩

/-- What the code stores: after a successful `addVertex(id, name, lon, lat)` the
vertex found under `id` has the name, `lat` as its longitude and `lon` as its
latitude. -/
theorem addVertex_getVertex (u : Uninit T) (g : Graph T) (i : T) (name : String) (lon lat : ℚ)
    (h : i ∉ g.ids) :
    (g.addVertex u i name lon lat).2 = true ∧
    ∃ x : Vertex T, (g.addVertex u i name lon lat).1.getVertex i = some x ∧ x.getName = name ∧
      x.getLongitude = lat ∧ x.getLatitude = lon := by
  rw [addVertex_absent h u name lon lat]
  refine ⟨rfl, Vertex.new u i name lon lat, ?_, rfl, rfl, rfl⟩
  have hno : ∀ x ∈ g.vertexSet, x.info ≠ i := by
    intro x hx hc
    exact h (hc ▸ List.mem_map_of_mem (fun v => v.info) hx)
  exact @find_decomp T _ g.vertexSet [] (Vertex.new u i name lon lat) i rfl hno

/-- C20 (refuted on the code). On the empty graph, `addVertex(1, "A", 10, 20)`
succeeds, and the vertex returned by `getVertex(1)` has name "A" but
`getLongitude() = 20` and `getLatitude() = 10`: the constructor is declared with
`(in, name, lon, lat)` and called so, while its definition names the parameters
`(in, name, lat, lon)`, so each coordinate lands in the member of the other name. -/
theorem addVertex_swaps_coordinates :
    ((Graph.mk ([] : List (Vertex Nat))).addVertex exUninit 1 "A" 10 20).2 = true ∧
    ∃ x : Vertex Nat,
      ((Graph.mk ([] : List (Vertex Nat))).addVertex exUninit 1 "A" 10 20).1.getVertex 1 =
        some x ∧
      x.getName = "A" ∧ x.getLongitude = 20 ∧ x.getLatitude = 10 ∧
      x.getLongitude ≠ 10 ∧ x.getLatitude ≠ 20 :=
  ⟨rfl, Vertex.new exUninit 1 "A" 10 20, rfl, rfl, rfl, rfl, by decide!, by decide!⟩

/-- C19 (refuted on the code). On the well-formed graph `exFraction` with the
non-blocked edges 0→1 (1.2), 0→2 (5.9) and 1→2 (4), `dijkstraShortestPath(0)`
leaves `dist(2) = 5.9` with predecessor 0, for every order of the three vertex
addresses, although the path 0→1→2 has weight 5.2: when vertex 1 is extracted the
candidate 1.2 + 4 and the current 5.9 are both converted to `int` before the
comparison, and 5 < 5 is false. -/
theorem dijkstra_fraction_not_relaxed :
    exFraction.WellFormed ∧
    (∀ x ∈ exFraction.vertexSet, ∀ e ∈ x.adj, 0 ≤ e.weight ∧ e.blocked = false) ∧
    exFraction.OpenWalk 0 2 (26 / 5) ∧ ((26 / 5 : ℚ) < 59 / 10) ∧
    (toInt (6 / 5 + 4) = 5 ∧ toInt (59 / 10) = 5) ∧
    (exFraction.dijkstraShortestPath gnuAscending 0).bind (fun g => g.distOf 2) =
      some (59 / 10) ∧
    ∀ σ ∈ [0, 1, 2].permutations,
      (exFraction.dijkstraShortestPath (gnuLib (addrLess σ)) 0).bind (fun g => g.distOf 2) =
        some (59 / 10) ∧
      (exFraction.dijkstraShortestPath (gnuLib (addrLess σ)) 0).bind (fun g => g.pathOf 2) =
        some 0 := by
  refine ⟨by decide, by decide!, ?_, by decide!, by decide!, by decide!, by decide!⟩
  have h := OpenWalk.snoc (OpenWalk.snoc (OpenWalk.nil (g := exFraction) (s := 0))
    (by decide! : exFraction.OpenEdge 0 1 (6 / 5))) (by decide! : exFraction.OpenEdge 1 2 4)
  norm_num at h
  exact h

end Graph

/-! ## `maxNewChildren` -/

namespace Graph

variable {T : Type} [DecidableEq T]

/-- The edge loop of `maxNewChildren` is the edge loop of `bfs` with a counter. -/
theorem maxNewChildrenEdges_of_bfsEdges (es : List (Edge T)) :
    ∀ (g : Graph T) (q : List T) (n : Int) (g1 : Graph T) (q1 : List T),
      bfsEdges es g q = some (g1, q1) →
      maxNewChildrenEdges es g q n = some (g1, q1, n + ((q1.length : Int) - (q.length : Int))) := by
  induction es with
  | nil =>
    intro g q n g1 q1 h
    simp only [bfsEdges, Option.some.injEq, Prod.mk.injEq] at h
    obtain ⟨h1, h2⟩ := h
    subst h1 h2
    simp [maxNewChildrenEdges]
  | cons e es ih =>
    intro g q n g1 q1 h
    unfold bfsEdges at h
    unfold maxNewChildrenEdges
    cases hw : g.findVertex e.dest with
    | none =>
      rw [hw] at h
      cases h
    | some w =>
      rw [hw] at h
      simp only at h ⊢
      by_cases hv : (!w.visited) = true
      · rw [if_pos hv] at h ⊢
        rw [ih _ _ (n + 1) g1 q1 h]
        simp only [List.length_append, List.length_singleton, Nat.cast_add, Nat.cast_one,
          Option.some.injEq, Prod.mk.injEq, true_and]
        omega
      · rw [if_neg hv] at h ⊢
        exact ih _ _ n g1 q1 h

theorem maxNewChildrenEdges_count_ge (es : List (Edge T)) :
    ∀ (g : Graph T) (q : List T) (n : Int) (g1 : Graph T) (q1 : List T) (c : Int),
      maxNewChildrenEdges es g q n = some (g1, q1, c) → n ≤ c := by
  induction es with
  | nil =>
    intro g q n g1 q1 c h
    simp only [maxNewChildrenEdges, Option.some.injEq, Prod.mk.injEq] at h
    omega
  | cons e es ih =>
    intro g q n g1 q1 c h
    unfold maxNewChildrenEdges at h
    cases hw : g.findVertex e.dest with
    | none =>
      rw [hw] at h
      cases h
    | some w =>
      rw [hw] at h
      simp only at h
      by_cases hv : (!w.visited) = true
      · rw [if_pos hv] at h
        have := ih _ _ _ _ _ _ h
        omega
      · rw [if_neg hv] at h
        exact ih _ _ _ _ _ _ h

/-- The record of `maxNewChildren` follows the loop of `bfs` step by step. -/
theorem newChildrenTrace_of_bfsLoop :
    ∀ (fuel : Nat) (g : Graph T) (q res out : List T), bfsLoop fuel g q res = some out →
      ∃ tr, newChildrenTrace fuel g q = some tr ∧ out = res ++ tr.map Prod.fst := by
  intro fuel
  induction fuel with
  | zero =>
    intro g q res out h
    cases h
  | succ fuel ih =>
    intro g q res out h
    cases q with
    | nil =>
      simp only [bfsLoop, Option.some.injEq] at h
      exact ⟨[], rfl, by simp [h]⟩
    | cons v q1 =>
      simp only [bfsLoop] at h
      simp only [newChildrenTrace]
      cases hv : g.findVertex v with
      | none =>
        rw [hv] at h
        cases h
      | some vx =>
        rw [hv] at h
        simp only at h ⊢
        cases he : bfsEdges vx.adj g q1 with
        | none =>
          rw [he] at h
          cases h
        | some r =>
          obtain ⟨g1, q2⟩ := r
          rw [he] at h
          simp only at h
          rw [maxNewChildrenEdges_of_bfsEdges vx.adj g q1 0 g1 q2 he]
          obtain ⟨tr, htr, hout⟩ := ih g1 q2 _ out h
          simp only [htr]
          exact ⟨_, rfl, by simp [hout]⟩

theorem newChildrenTrace_head {fuel : Nat} {g : Graph T} {v : T} {q : List T}
    {tr : List (T × Int)} (h : newChildrenTrace fuel g (v :: q) = some tr) :
    ∃ c tr1, tr = (v, c) :: tr1 ∧ 0 ≤ c := by
  cases fuel with
  | zero => cases h
  | succ fuel =>
    simp only [newChildrenTrace] at h
    cases hv : g.findVertex v with
    | none =>
      rw [hv] at h
      cases h
    | some vx =>
      rw [hv] at h
      simp only at h
      cases he : maxNewChildrenEdges vx.adj g q 0 with
      | none =>
        rw [he] at h
        cases h
      | some r =>
        obtain ⟨g1, q2, c⟩ := r
        rw [he] at h
        simp only at h
        cases ht : newChildrenTrace fuel g1 q2 with
        | none =>
          rw [ht] at h
          cases h
        | some tr1 =>
          rw [ht] at h
          simp only [Option.some.injEq] at h
          refine ⟨c, tr1, ?_, maxNewChildrenEdges_count_ge _ _ _ _ _ _ _ he⟩
          rw [← h, findVertex_info hv]

/-- The loop of `maxNewChildren` folds the update of `maxChildren` and `inf` over
the record. -/
theorem maxNewChildrenLoop_of_trace :
    ∀ (fuel : Nat) (g : Graph T) (q : List T) (tr : List (T × Int)) (m : Int) (w : T),
      newChildrenTrace fuel g q = some tr →
      maxNewChildrenLoop fuel g q m w =
        some (tr.foldl (fun (a : Int × T) (p : T × Int) => if p.2 > a.1 then (p.2, p.1) else a)
          (m, w)) := by
  intro fuel
  induction fuel with
  | zero =>
    intro g q tr m w h
    cases h
  | succ fuel ih =>
    intro g q tr m w h
    cases q with
    | nil =>
      simp only [newChildrenTrace, Option.some.injEq] at h
      subst h
      rfl
    | cons v q1 =>
      simp only [newChildrenTrace] at h
      simp only [maxNewChildrenLoop]
      cases hv : g.findVertex v with
      | none =>
        rw [hv] at h
        cases h
      | some vx =>
        rw [hv] at h
        simp only at h ⊢
        cases he : maxNewChildrenEdges vx.adj g q1 0 with
        | none =>
          rw [he] at h
          cases h
        | some r =>
          obtain ⟨g1, q2, c⟩ := r
          rw [he] at h
          simp only at h ⊢
          cases ht : newChildrenTrace fuel g1 q2 with
          | none =>
            rw [ht] at h
            cases h
          | some tr1 =>
            rw [ht] at h
            simp only [Option.some.injEq] at h
            subst h
            simp only [List.foldl_cons]
            by_cases hc : c > m
            · rw [if_pos hc, if_pos hc]
              exact ih g1 q2 tr1 c vx.info ht
            · rw [if_neg hc, if_neg hc]
              exact ih g1 q2 tr1 m w ht

/-- Folding the update "replace on a strictly greater count" over a record: either
nothing was replaced and no count exceeds the initial one, or the result is the
first entry with the greatest count. -/
theorem foldl_first_max (tr : List (T × Int)) :
    ∀ (m0 : Int) (w0 : T),
      (tr.foldl (fun (a : Int × T) (p : T × Int) => if p.2 > a.1 then (p.2, p.1) else a)
          (m0, w0) = (m0, w0) ∧ ∀ p ∈ tr, p.2 ≤ m0) ∨
      ∃ m w t1 t2,
        tr.foldl (fun (a : Int × T) (p : T × Int) => if p.2 > a.1 then (p.2, p.1) else a)
          (m0, w0) = (m, w) ∧
        tr = t1 ++ (w, m) :: t2 ∧ m0 < m ∧ (∀ p ∈ t1, p.2 < m) ∧ ∀ p ∈ t2, p.2 ≤ m := by
  induction tr with
  | nil =>
    intro m0 w0
    exact Or.inl ⟨rfl, fun p hp => by cases hp⟩
  | cons a tr ih =>
    intro m0 w0
    obtain ⟨v, c⟩ := a
    simp only [List.foldl_cons]
    by_cases hc : c > m0
    · rw [if_pos hc]
      rcases ih c v with ⟨h1, h2⟩ | ⟨m, w, t1, t2, h1, h2, h3, h4, h5⟩
      · exact Or.inr ⟨c, v, [], tr, h1, rfl, hc, fun p hp => (by cases hp), h2⟩
      · refine Or.inr ⟨m, w, (v, c) :: t1, t2, h1, by rw [h2]; rfl, by omega, ?_, h5⟩
        intro p hp
        rcases List.mem_cons.mp hp with hp | hp
        · subst hp
          exact h3
        · exact h4 p hp
    · rw [if_neg hc]
      rcases ih m0 w0 with ⟨h1, h2⟩ | ⟨m, w, t1, t2, h1, h2, h3, h4, h5⟩
      · refine Or.inl ⟨h1, ?_⟩
        intro p hp
        rcases List.mem_cons.mp hp with hp | hp
        · subst hp
          simp only
          omega
        · exact h2 p hp
      · refine Or.inr ⟨m, w, (v, c) :: t1, t2, h1, by rw [h2]; rfl, h3, ?_, h5⟩
        intro p hp
        rcases List.mem_cons.mp hp with hp | hp
        · subst hp
          simp only
          omega
        · exact h4 p hp

/-- The run of `maxNewChildren` on a well-formed graph from a present source: it
returns, its record lists the vertices in the order of `bfs`, and the pair it
reports is the first entry of the record with the greatest count. -/
theorem maxNewChildren_run {g : Graph T} (hw : g.WellFormed) {source : T} (hs : source ∈ g.ids)
    (inf : T) :
    ∃ (tr : List (T × Int)) (m : Int) (w : T), g.bfsCounts source = some tr ∧
      g.bfs source = some (tr.map Prod.fst) ∧ g.maxNewChildren source inf = some (m, w) ∧
      ∃ t1 t2, tr = t1 ++ (w, m) :: t2 ∧ (∀ p ∈ t1, p.2 < m) ∧ ∀ p ∈ t2, p.2 ≤ m := by
  obtain ⟨res, hres, _⟩ := bfs_run hw hs
  obtain ⟨sx, hsx⟩ := findVertex_of_mem_ids hs
  simp only [bfs, hsx] at hres
  obtain ⟨tr, htr, hout⟩ := newChildrenTrace_of_bfsLoop _ _ _ _ _ hres
  obtain ⟨c, tr1, htr1, hc⟩ := newChildrenTrace_head htr
  have hloop := maxNewChildrenLoop_of_trace _ _ _ tr 0 sx.info htr
  have hbfs : g.bfs source = some (tr.map Prod.fst) := by
    simp only [bfs, hsx]
    rw [hres, hout]
    rfl
  have hmax : g.maxNewChildren source inf = some (tr.foldl
      (fun (a : Int × T) (p : T × Int) => if p.2 > a.1 then (p.2, p.1) else a) (0, sx.info)) := by
    simp only [maxNewChildren, hsx]
    exact hloop
  have hfold : tr.foldl
      (fun (a : Int × T) (p : T × Int) => if p.2 > a.1 then (p.2, p.1) else a) (0, sx.info) =
      tr1.foldl
        (fun (a : Int × T) (p : T × Int) => if p.2 > a.1 then (p.2, p.1) else a) (c, source) := by
    rw [htr1, List.foldl_cons]
    by_cases h0 : c > 0
    · rw [if_pos h0]
    · rw [if_neg h0]
      have : c = 0 := by omega
      rw [this, findVertex_info hsx]
  rcases foldl_first_max tr1 c source with ⟨h1, h2⟩ | ⟨m, w, t1, t2, h1, h2, h3, h4, h5⟩
  · refine ⟨tr, c, source, htr, hbfs, ?_, [], tr1, htr1, fun p hp => (by cases hp), h2⟩
    rw [hmax, hfold, h1]
  · refine ⟨tr, m, w, htr, hbfs, ?_, (source, c) :: t1, t2, by rw [htr1, h2]; rfl, ?_, h5⟩
    · rw [hmax, hfold, h1]
    · intro p hp
      rcases List.mem_cons.mp hp with hp | hp
      · subst hp
        exact h3
      · exact h4 p hp

end Graph

namespace Graph

variable {T : Type} [DecidableEq T]

/-- The edge loop of `maxNewChildren` over edges to pairwise distinct vertices that
are all unvisited: each destination is pushed and counted. -/
theorem maxNewChildrenEdges_fresh (es : List (Edge T)) :
    ∀ (g : Graph T) (q : List T) (n : Int), (es.map (fun e => e.dest)).Nodup →
      (∀ e ∈ es, ∃ x, g.findVertex e.dest = some x ∧ x.visited = false) →
      ∃ g1, maxNewChildrenEdges es g q n =
          some (g1, q ++ es.map (fun e => e.dest), n + (es.length : Int)) ∧
        g1.skel = g.skel := by
  induction es with
  | nil =>
    intro g q n _ _
    exact ⟨g, by simp [maxNewChildrenEdges], rfl⟩
  | cons e es ih =>
    intro g q n hnd hfresh
    rw [List.map_cons, List.nodup_cons] at hnd
    obtain ⟨w, hw, hwv⟩ := hfresh e (List.mem_cons_self _ _)
    have hrest : ∀ e1 ∈ es, ∃ x,
        (g.modify e.dest (fun x => { x with visited := true })).findVertex e1.dest = some x ∧
          x.visited = false := by
      intro e1 he1
      have hne : e1.dest ≠ e.dest := by
        intro hc
        exact hnd.1 (hc ▸ List.mem_map_of_mem (fun e => e.dest) he1)
      rw [findVertex_modify_ne g (by intro; rfl) hne]
      exact hfresh e1 (List.mem_cons_of_mem _ he1)
    obtain ⟨g1, hg1, hsk⟩ := ih (g.modify e.dest (fun x => { x with visited := true }))
      (q ++ [e.dest]) (n + 1) hnd.2 hrest
    refine ⟨g1, ?_, hsk.trans (skel_modify g e.dest (by intro; rfl) (by intro; rfl))⟩
    simp only [maxNewChildrenEdges, hw, hwv, Bool.not_false, if_true]
    rw [hg1]
    simp only [List.append_assoc, List.singleton_append, List.map_cons, List.length_cons,
      Nat.cast_add, Nat.cast_one, Option.some.injEq, Prod.mk.injEq, true_and]
    omega

/-- The loop of `maxNewChildren` on a queue of vertices without outgoing edges
leaves `maxChildren` and `inf` as they are. -/
theorem maxNewChildrenLoop_leaves (q : List T) :
    ∀ (fuel : Nat) (g : Graph T) (m : Int) (w : T), q.length < fuel → 0 ≤ m →
      (∀ l ∈ q, ∃ lx, g.findVertex l = some lx ∧ lx.adj = []) →
      maxNewChildrenLoop fuel g q m w = some (m, w) := by
  induction q with
  | nil =>
    intro fuel g m w hf _ _
    cases fuel with
    | zero => simp at hf
    | succ fuel => rfl
  | cons l q ih =>
    intro fuel g m w hf hm hq
    cases fuel with
    | zero => simp at hf
    | succ fuel =>
      obtain ⟨lx, hlx, hadj⟩ := hq l (List.mem_cons_self _ _)
      simp only [maxNewChildrenLoop, hlx, hadj, maxNewChildrenEdges]
      have hnot : ¬ ((0 : Int) > m) := by omega
      rw [if_neg hnot]
      exact ih fuel g m w (by simpa using hf) hm
        (fun l1 hl1 => hq l1 (List.mem_cons_of_mem _ hl1))

/-- The function `maxNewChildren` on a star: it returns the number of leaves and
reports the centre. -/
theorem maxNewChildren_star {g : Graph T} {c : T} {leaves : List T} (h : g.IsStar c leaves)
    (inf : T) : g.maxNewChildren c inf = some ((leaves.length : Int), c) := by
  obtain ⟨hw, hc, hadj, hnd, hcl, hleaf⟩ := h
  obtain ⟨cx, hcx⟩ := findVertex_of_mem_ids hc
  have hadjc : g.adjOf c = cx.adj := by simp only [adjOf, hcx]
  rw [hadjc] at hadj
  have hcinfo : cx.info = c := findVertex_info hcx
  have hfind0 : ∀ u, (Graph.mk (g.vertexSet.map (fun v => { v with visited := false }))).findVertex u =
      (g.findVertex u).map (fun v => { v with visited := false }) :=
    fun u => find_map_clear _ (by intro; rfl) u g.vertexSet
  have hsk0 : (Graph.mk (g.vertexSet.map (fun v => { v with visited := false }))).skel = g.skel := by
    simp [skel, List.map_map, Function.comp]
  have hsk1 : ((Graph.mk (g.vertexSet.map (fun v => { v with visited := false }))).modify c
      (fun x => { x with visited := true })).skel = g.skel :=
    (skel_modify _ c (by intro; rfl) (by intro; rfl)).trans hsk0
  have hleafids : ∀ l ∈ leaves, l ∈ g.ids := by
    intro l hl
    rw [← hadj] at hl
    obtain ⟨e, he, hel⟩ := List.mem_map.mp hl
    exact hel ▸ hw.2 cx (findVertex_mem hcx) e he
  have hlen : leaves.length < g.vertexSet.length := by
    have hnd2 : (c :: leaves).Nodup := List.nodup_cons.mpr ⟨hcl, hnd⟩
    have hsub : ∀ u ∈ c :: leaves, u ∈ g.ids := by
      intro u hu
      rcases List.mem_cons.mp hu with hu | hu
      · exact hu ▸ hc
      · exact hleafids u hu
    have := (List.subperm_of_subset hnd2 hsub).length_le
    simp only [ids, List.length_cons, List.length_map] at this
    omega
  have hfresh : ∀ e ∈ cx.adj, ∃ x,
      ((Graph.mk (g.vertexSet.map (fun v => { v with visited := false }))).modify c
        (fun x => { x with visited := true })).findVertex e.dest = some x ∧ x.visited = false := by
    intro e he
    have hel : e.dest ∈ leaves := by
      rw [← hadj]
      exact List.mem_map_of_mem (fun e : Edge T => e.dest) he
    have hne : e.dest ≠ c := fun hcc => hcl (hcc ▸ hel)
    obtain ⟨x, hx⟩ := findVertex_of_mem_ids (hleafids _ hel)
    rw [findVertex_modify_ne _ (by intro; rfl) hne, hfind0, hx]
    exact ⟨_, rfl, rfl⟩
  obtain ⟨g2, hg2, hsk2⟩ := maxNewChildrenEdges_fresh cx.adj _ [] 0 (by rw [hadj]; exact hnd) hfresh
  have hsk2g : g2.skel = g.skel := hsk2.trans hsk1
  have hq : ∀ l ∈ ([] : List T) ++ cx.adj.map (fun e : Edge T => e.dest), ∃ lx, g2.findVertex l = some lx ∧
      lx.adj = [] := by
    intro l hl
    rw [List.nil_append, hadj] at hl
    obtain ⟨lx2, hlx2⟩ := find_of_skel hsk2g (hleafids l hl)
    obtain ⟨x0, hx0, hx0i, hx0a⟩ := skel_find hsk2g hlx2
    have hf := findVertex_of_mem hw.1 hx0
    rw [hx0i] at hf
    have h0 := hleaf l hl
    simp only [adjOf, hf] at h0
    exact ⟨lx2, hlx2, by rw [← hx0a]; exact List.length_eq_zero.mp h0⟩
  have hqlen : (([] : List T) ++ cx.adj.map (fun e : Edge T => e.dest)).length < g.vertexSet.length := by
    rw [List.nil_append, hadj]
    exact hlen
  have hcnt : cx.adj.length = leaves.length := by
    rw [← hadj, List.length_map]
  have hfc : ((Graph.mk (g.vertexSet.map (fun v => { v with visited := false }))).modify c
      (fun x => { x with visited := true })).findVertex c =
      some { cx with visited := true } := by
    rw [findVertex_modify_self _ c (by intro; rfl), hfind0, hcx]
    rfl
  simp only [maxNewChildren, hcx, maxNewChildrenLoop, hfc, hg2]
  by_cases hpos : (0 : Int) + (cx.adj.length : Int) > 0
  · rw [if_pos hpos]
    rw [maxNewChildrenLoop_leaves _ _ g2 _ _ hqlen (by omega) hq]
    simp only [hcinfo, hcnt, zero_add]
  · rw [if_neg hpos]
    rw [maxNewChildrenLoop_leaves _ _ g2 _ _ hqlen (le_refl _) hq]
    have h0 : cx.adj.length = 0 := by omega
    rw [hcnt] at h0
    simp only [hcinfo, h0, Nat.cast_zero]

/-- C16. On a star graph whose centre has one edge to each of the `n` pairwise
distinct leaves, the leaves having no outgoing edge, `maxNewChildren(center, out)`
returns `n` and leaves the centre's id in `out` (also for `n = 0`). On every
well-formed graph and present source the call returns, and the pair it reports is
the first entry, in the order of the breadth-first search, that has the greatest
number of new children: every earlier dequeued vertex has strictly fewer, every
later one at most as many. -/
theorem maxNewChildren_spec (g : Graph T) (inf : T) :
    (∀ (c : T) (leaves : List T), g.IsStar c leaves →
      g.maxNewChildren c inf = some ((leaves.length : Int), c)) ∧
    (g.WellFormed → ∀ source ∈ g.ids,
      ∃ (tr : List (T × Int)) (m : Int) (w : T), g.bfsCounts source = some tr ∧
        g.bfs source = some (tr.map Prod.fst) ∧ g.maxNewChildren source inf = some (m, w) ∧
        ∃ t1 t2, tr = t1 ++ (w, m) :: t2 ∧ (∀ p ∈ t1, p.2 < m) ∧ ∀ p ∈ t2, p.2 ≤ m) :=
  ⟨fun c leaves h => maxNewChildren_star h inf, fun hw source hs => maxNewChildren_run hw hs inf⟩

theorem maxNewChildren_spec_witness :
    exStar.maxNewChildren 0 7 = some ((([1, 2, 3] : List Nat).length : Int), 0) ∧
    exStar.maxNewChildren 2 7 = some (((([] : List Nat)).length : Int), 2) ∧
    ∃ (tr : List (Nat × Int)) (m : Int) (w : Nat), exDag.bfsCounts 3 = some tr ∧
      exDag.bfs 3 = some (tr.map Prod.fst) ∧ exDag.maxNewChildren 3 7 = some (m, w) ∧
      ∃ t1 t2, tr = t1 ++ (w, m) :: t2 ∧ (∀ p ∈ t1, p.2 < m) ∧ ∀ p ∈ t2, p.2 ≤ m :=
  ⟨(maxNewChildren_spec exStar 7).1 0 [1, 2, 3] (by decide!),
    (maxNewChildren_spec exStar 7).1 2 [] (by decide!),
    (maxNewChildren_spec exDag 7).2 (by decide) 3 (by decide)⟩

end Graph
